import Mathlib

/-!
# distortos: SerialPort and its ring buffer

Shallow embedding of `source/devices/communication/SerialPort.cpp`.

* `size_t` is the 32-bit unsigned type of the Cortex-M targets of the repository: values are
  natural numbers and every arithmetic operation of the source is reduced modulo `2^32`
  (`uadd`, `usub`).
* A pointer into a buffer is the pair of the buffer and an offset; the storage of a ring buffer
  and the buffer of a caller are lists of bytes. The values of the bytes that the hardware
  deposits in the inbound storage are not modelled, only their number.
* The header `SerialPort.hpp` is not part of the sources: the inline members of `RingBuffer`
  that it defines are modelled from the specification, and the maximum of the type of
  `openCount_` is a parameter of `open`.
* The hardware UART and the kernel are the environment of a port. The state of a port carries
  the behaviour of the hardware (`uart_`: the status and the byte count it answers to each call),
  the trace of all effects so far, and a schedule that tells, for each `Semaphore::wait` in which
  a task blocks, which interrupts are delivered meanwhile and whether the wait fails. Interrupt
  handlers run to completion, while the task is blocked in a wait or between two calls.
* A loop that may wait is a function of a number of iterations allowed (`fuel`) and returns
  `none` when the call does not return.
-/

namespace Distortos

/-! ## Machine arithmetic -/

/-- Largest value of `size_t` (`SIZE_MAX`). -/
def SIZE_MAX : Nat := 4294967295

/-- Addition of two `size_t` values. -/
def uadd (a b : Nat) : Nat := (a + b) % 4294967296

/-- Subtraction of two `size_t` values (wraps around below zero). -/
def usub (a b : Nat) : Nat := (a % 4294967296 + 4294967296 - b % 4294967296) % 4294967296

/-- Copy of `src` into `dest` starting at offset `off` (`memcpy(dest + off, src, src.length)`). -/
def memcpy (dest : List Nat) (off : Nat) (src : List Nat) : List Nat :=
  dest.take off ++ src ++ dest.drop (off + src.length)

/-- The `len` bytes of `buf` that start at offset `off`. -/
def slice (buf : List Nat) (off len : Nat) : List Nat :=
  (buf.drop off).take len

/-! ## SerialPort::RingBuffer -/

/-- State of `SerialPort::RingBuffer`: storage, capacity and the two cursors. -/
structure RingBuffer where
  buffer_ : List Nat
  size_ : Nat
  readPosition_ : Nat
  writePosition_ : Nat
deriving DecidableEq, Repr

namespace RingBuffer

/-- `SerialPort::RingBuffer::getReadBlock`: offset into the storage and length of the block. -/
def getReadBlock (rb : RingBuffer) : Nat × Nat :=
  let readPosition := rb.readPosition_
  let writePosition := rb.writePosition_
  (readPosition, usub (if writePosition ≥ readPosition then writePosition else rb.size_) readPosition)

/-- The value from which `getWriteBlock` subtracts 2 to obtain `freeBytes`. -/
def freeBytesPlus2 (rb : RingBuffer) : Nat :=
  let readPosition := rb.readPosition_
  let writePosition := rb.writePosition_
  if readPosition > writePosition then usub readPosition writePosition
  else uadd (usub rb.size_ writePosition) readPosition

/-- `SerialPort::RingBuffer::getWriteBlock`: offset into the storage and length of the block. -/
def getWriteBlock (rb : RingBuffer) : Nat × Nat :=
  let readPosition := rb.readPosition_
  let writePosition := rb.writePosition_
  let freeBytes := usub (freeBytesPlus2 rb) 2
  let writeBlockSize := usub (if readPosition > writePosition then readPosition else rb.size_) writePosition
  (writePosition, min freeBytes writeBlockSize)

/-- Modelled from the spec: `RingBuffer::clear` is declared in the header, which is not part of
the sources; it "resets both cursors to zero". -/
def clear (rb : RingBuffer) : RingBuffer :=
  { rb with readPosition_ := 0, writePosition_ := 0 }

/-- Modelled from the spec: `RingBuffer::increaseReadPosition` is declared in the header, which
is not part of the sources; it advances the read cursor by `n` bytes and "wraps modulo
capacity". -/
def increaseReadPosition (rb : RingBuffer) (n : Nat) : RingBuffer :=
  { rb with readPosition_ := uadd rb.readPosition_ n % rb.size_ }

/-- Modelled from the spec: `RingBuffer::increaseWritePosition` is declared in the header, which
is not part of the sources; it advances the write cursor by `n` bytes and "wraps modulo
capacity". -/
def increaseWritePosition (rb : RingBuffer) (n : Nat) : RingBuffer :=
  { rb with writePosition_ := uadd rb.writePosition_ n % rb.size_ }

/-- Modelled from the spec: `RingBuffer::isEmpty` is declared in the header, which is not part of
the sources; "the buffer is empty when the cursors are equal". -/
def isEmpty (rb : RingBuffer) : Bool :=
  rb.writePosition_ == rb.readPosition_

/-- Modelled from the spec: `RingBuffer::isFull` is declared in the header, which is not part of
the sources; the buffer is full when the producer headroom of "capacity − 2" bytes is used up,
that is when the write cursor is two bytes short of meeting the read cursor. -/
def isFull (rb : RingBuffer) : Bool :=
  rb.writePosition_ == usub (uadd rb.readPosition_ rb.size_) 2 % rb.size_

/-- Modelled from the spec: `RingBuffer::getSize` is declared in the header, which is not part of
the sources; it is the accessor of the capacity. -/
def getSize (rb : RingBuffer) : Nat :=
  rb.size_

/-- Number of stored bytes, `(writePosition_ - readPosition_) mod size_`. -/
def stored (rb : RingBuffer) : Nat :=
  (rb.writePosition_ + rb.size_ - rb.readPosition_) % rb.size_

/-- A cleared ring buffer of capacity `C` over the storage `buf`. -/
def cleared (buf : List Nat) (C : Nat) : RingBuffer :=
  { buffer_ := buf, size_ := C, readPosition_ := 0, writePosition_ := 0 }

/-- A cleared ring buffer of capacity `C` over a zeroed storage of `C` bytes. -/
def fresh (C : Nat) : RingBuffer :=
  cleared (List.replicate C 0) C

/-- A cursor increase requested by a user of the ring buffer. -/
inductive CursorOp where
  | increaseWrite (n : Nat)
  | increaseRead (n : Nat)
deriving DecidableEq, Repr

/-- One cursor increase, accepted only when `n` is at most the length of the block that is
reported at that moment. -/
def applyOp (rb : RingBuffer) : CursorOp → Option RingBuffer
  | .increaseWrite n => if n ≤ (getWriteBlock rb).2 then some (increaseWritePosition rb n) else none
  | .increaseRead n => if n ≤ (getReadBlock rb).2 then some (increaseReadPosition rb n) else none

/-- A sequence of cursor increases, each within the block reported at its moment. -/
def applyOps : RingBuffer → List CursorOp → Option RingBuffer
  | rb, [] => some rb
  | rb, op :: ops =>
    match applyOp rb op with
    | none => none
    | some rb' => applyOps rb' ops

/-- The stored bytes, oldest first: the bytes of the storage from the read cursor up to the write
cursor, going around the end of the storage when the write cursor is behind the read cursor. -/
def contents (rb : RingBuffer) : List Nat :=
  if rb.readPosition_ ≤ rb.writePosition_ then
    slice rb.buffer_ rb.readPosition_ (rb.writePosition_ - rb.readPosition_)
  else
    slice rb.buffer_ rb.readPosition_ (rb.size_ - rb.readPosition_) ++
      slice rb.buffer_ 0 rb.writePosition_

/-- Invariant of the cursors: both inside the storage, and at most `size_ - 2` bytes stored. -/
def Valid (rb : RingBuffer) : Prop :=
  2 ≤ rb.size_ ∧ rb.size_ < 4294967296 ∧ rb.readPosition_ < rb.size_ ∧
    rb.writePosition_ < rb.size_ ∧
    (rb.readPosition_ ≤ rb.writePosition_ → rb.writePosition_ - rb.readPosition_ + 2 ≤ rb.size_) ∧
    (rb.writePosition_ < rb.readPosition_ → rb.writePosition_ + 2 ≤ rb.readPosition_)

/-- Both cursors are offsets into the storage, whose capacity is a `size_t` value. -/
def InStorage (rb : RingBuffer) : Prop :=
  rb.size_ < 4294967296 ∧ rb.readPosition_ < rb.size_ ∧ rb.writePosition_ < rb.size_

/-- The capacity and both cursors are even: the buffer is used in units of two bytes. -/
def EvenCursors (rb : RingBuffer) : Prop :=
  rb.size_ % 2 = 0 ∧ rb.readPosition_ % 2 = 0 ∧ rb.writePosition_ % 2 = 0

end RingBuffer

/-! ## Local functions of SerialPort.cpp -/

/-- Result of a copy between a ring buffer and a caller buffer: the ring buffer and the caller
buffer after the copy, and the number of bytes copied. -/
structure Copied where
  ringBuffer : RingBuffer
  buffer : List Nat
  count : Nat
deriving DecidableEq, Repr

/-- The `while` loop of `readFromRingBuffer`; `buffer + off` is the destination, `fuel` bounds the
number of iterations. -/
def readFromRingBufferLoop (off size : Nat) :
    Nat → RingBuffer → List Nat → Nat → Copied
  | fuel, ringBuffer, buffer, bytesRead =>
    let readBlock := ringBuffer.getReadBlock
    if readBlock.2 ≠ 0 ∧ bytesRead ≠ size then
      match fuel with
      | 0 => ⟨ringBuffer, buffer, bytesRead⟩
      | fuel + 1 =>
        let copySize := min readBlock.2 (usub size bytesRead)
        let buffer := memcpy buffer (off + bytesRead) (slice ringBuffer.buffer_ readBlock.1 copySize)
        let ringBuffer := ringBuffer.increaseReadPosition copySize
        readFromRingBufferLoop off size fuel ringBuffer buffer (uadd bytesRead copySize)
    else ⟨ringBuffer, buffer, bytesRead⟩

/-- Local function `readFromRingBuffer(ringBuffer, buffer + off, size)`. Every iteration of its
loop copies at least one byte, so `size` iterations are enough. -/
def readFromRingBuffer (ringBuffer : RingBuffer) (buffer : List Nat) (off size : Nat) : Copied :=
  readFromRingBufferLoop off size size ringBuffer buffer 0

/-- The `while` loop of `writeToRingBuffer`; `buffer + off` is the source, `fuel` bounds the
number of iterations. -/
def writeToRingBufferLoop (buffer : List Nat) (off size : Nat) :
    Nat → RingBuffer → Nat → Copied
  | fuel, ringBuffer, bytesWritten =>
    let writeBlock := ringBuffer.getWriteBlock
    if writeBlock.2 ≠ 0 ∧ bytesWritten ≠ size then
      match fuel with
      | 0 => ⟨ringBuffer, buffer, bytesWritten⟩
      | fuel + 1 =>
        let copySize := min writeBlock.2 (usub size bytesWritten)
        let ringBuffer := { ringBuffer with
          buffer_ := memcpy ringBuffer.buffer_ writeBlock.1 (slice buffer (off + bytesWritten) copySize) }
        let ringBuffer := ringBuffer.increaseWritePosition copySize
        writeToRingBufferLoop buffer off size fuel ringBuffer (uadd bytesWritten copySize)
    else ⟨ringBuffer, buffer, bytesWritten⟩

/-- Local function `writeToRingBuffer(buffer + off, size, ringBuffer)`. Every iteration of its
loop copies at least one byte, so `size` iterations are enough. -/
def writeToRingBuffer (buffer : List Nat) (off size : Nat) (ringBuffer : RingBuffer) : Copied :=
  writeToRingBufferLoop buffer off size size ringBuffer 0

/-- A sequence of calls of `readFromRingBuffer`, the call for `size` bytes being made with a
fresh buffer of `size` bytes; the result is the ring buffer after the last call and the bytes
that the calls have returned, in order. -/
def readCalls : RingBuffer → List Nat → RingBuffer × List Nat
  | ringBuffer, [] => (ringBuffer, [])
  | ringBuffer, size :: sizes =>
    let r := readFromRingBuffer ringBuffer (List.replicate size 0) 0 size
    let rest := readCalls r.ringBuffer sizes
    (rest.1, r.buffer.take r.count ++ rest.2)

/-! ## Environment of the serial port: hardware UART and kernel -/

/-- Error codes of `<cerrno>` (newlib) used by `SerialPort`. -/
def EBADF : Int := 9

/-- Invalid argument. -/
def EINVAL : Int := 22

/-- Too many open files. -/
def EMFILE : Int := 24

/-- No buffer space available. -/
def ENOBUFS : Int := 105

/-- Modelled from the spec: `devices::UartParity` is an enumeration declared in a header that is
not part of the sources; a parity is represented by the numeric value of its enumerator. -/
abbrev UartParity := Nat

/-- The three wake-up handles of a serial port. -/
inductive HandleId where
  | readSemaphore
  | writeSemaphore
  | transmitSemaphore
deriving DecidableEq, Repr

/-- Events that the hardware UART delivers from interrupt context. -/
inductive Event where
  | readComplete (bytesRead : Nat)
  | writeComplete (bytesWritten : Nat)
  | transmitComplete
  | receiveError (errorSet : Nat)
deriving DecidableEq, Repr

/-- Calls that leave the serial port: the five primitives of `internal::UartLowLevel` used by
`SerialPort.cpp` (plus `stopWrite`, used by the destructor), `Semaphore::wait` and
`Semaphore::post`; and the interrupts that enter it. Offsets are relative to the storage of the
inbound (`startRead`) or outbound (`startWrite`) ring buffer. -/
inductive Effect where
  | start (baudRate characterLength : Nat) (parity : UartParity) (_2StopBits : Bool)
  | stop
  | stopRead
  | stopWrite
  | startRead (offset length : Nat)
  | startWrite (offset length : Nat)
  | wait (handle : HandleId)
  | post (handle : HandleId)
  | interrupt (event : Event)
deriving DecidableEq, Repr

/-- Behaviour of the hardware UART behind `uart_`: the status it returns to a call and the number
of bytes it reports from `stopRead`, both as functions of the number of effects that precede the
call. -/
structure UartLowLevel where
  status : Nat → Int
  received : Nat → Nat

/-- A wake-up handle (`readSemaphore_`, `writeSemaphore_`, `transmitSemaphore_`): the pointer,
`armed` when it is not null, and the value of the stack-allocated `Semaphore` of the call in
progress, the only object the pointer can refer to. -/
structure Handle where
  armed : Bool
  value : Nat
deriving DecidableEq, Repr

/-- What happens while a task is blocked in one `Semaphore::wait`: the interrupts that are
delivered, and the status with which the wait fails (0: it does not fail, the task sleeps until
the semaphore is posted). -/
structure WaitScript where
  events : List Event
  status : Int
deriving DecidableEq, Repr

/-- State of a `SerialPort` object together with its environment: the behaviour of the hardware
(`uart_`), the effects observed so far (`trace`) and what will happen during the waits to come
(`schedule`). The two mutexes are not part of the state: every member function releases on each
of its exits the mutexes it has locked. -/
structure SerialPort where
  uart_ : UartLowLevel
  trace : List Effect
  schedule : List WaitScript
  readBuffer_ : RingBuffer
  writeBuffer_ : RingBuffer
  baudRate_ : Nat
  characterLength_ : Nat
  parity_ : UartParity
  _2StopBits_ : Bool
  openCount_ : Nat
  readSemaphore_ : Handle
  transmitSemaphore_ : Handle
  writeSemaphore_ : Handle
  transmitInProgress_ : Bool
  writeInProgress_ : Bool

namespace SerialPort

/-- Record an effect in the trace. -/
def emit (p : SerialPort) (e : Effect) : SerialPort :=
  { p with trace := p.trace ++ [e] }

/-- Call of `uart_.start(*this, baudRate, characterLength, parity, _2StopBits)`; the result is the
status (`ret.first`). -/
def uartStart (p : SerialPort) (baudRate characterLength : Nat) (parity : UartParity)
    (_2StopBits : Bool) : Int × SerialPort :=
  (p.uart_.status p.trace.length, p.emit (.start baudRate characterLength parity _2StopBits))

/-- Call of `uart_.stop()`. -/
def uartStop (p : SerialPort) : Int × SerialPort :=
  (p.uart_.status p.trace.length, p.emit .stop)

/-- Call of `uart_.stopRead()`; the result is the number of bytes already received. -/
def uartStopRead (p : SerialPort) : Nat × SerialPort :=
  (p.uart_.received p.trace.length % 4294967296, p.emit .stopRead)

/-- Call of `uart_.stopWrite()`. -/
def uartStopWrite (p : SerialPort) : Nat × SerialPort :=
  (p.uart_.received p.trace.length % 4294967296, p.emit .stopWrite)

/-- Call of `uart_.startRead(buffer, size)`. -/
def uartStartRead (p : SerialPort) (offset length : Nat) : Int × SerialPort :=
  (p.uart_.status p.trace.length, p.emit (.startRead offset length))

/-- Call of `uart_.startWrite(buffer, size)`. -/
def uartStartWrite (p : SerialPort) (offset length : Nat) : Int × SerialPort :=
  (p.uart_.status p.trace.length, p.emit (.startWrite offset length))

/-- The handle with the given name. -/
def handle (p : SerialPort) : HandleId → Handle
  | .readSemaphore => p.readSemaphore_
  | .writeSemaphore => p.writeSemaphore_
  | .transmitSemaphore => p.transmitSemaphore_

/-- Assignment to the handle with the given name. -/
def setHandle (p : SerialPort) : HandleId → Handle → SerialPort
  | .readSemaphore, h => { p with readSemaphore_ := h }
  | .writeSemaphore, h => { p with writeSemaphore_ := h }
  | .transmitSemaphore, h => { p with transmitSemaphore_ := h }

/-- The statements `Semaphore semaphore {0}; xSemaphore_ = &semaphore;`. -/
def arm (p : SerialPort) (id : HandleId) : SerialPort :=
  p.setHandle id ⟨true, 0⟩

/-- The scope guard `xSemaphore_ = {};`. -/
def disarm (p : SerialPort) (id : HandleId) : SerialPort :=
  p.setHandle id { p.handle id with armed := false }

/-- The statements `if (xSemaphore_ != nullptr) { xSemaphore_->post(); xSemaphore_ = {}; }` of the
interrupt handlers. -/
def postAndClear (p : SerialPort) (id : HandleId) : SerialPort :=
  if (p.handle id).armed = true then
    (p.emit (.post id)).setHandle id ⟨false, (p.handle id).value + 1⟩
  else p

/-- `SerialPort::startReadWrapper`. -/
def startReadWrapper (p : SerialPort) (limit : Nat) : Int × SerialPort :=
  let writeBlock := p.readBuffer_.getWriteBlock
  p.uartStartRead writeBlock.1 (min (min writeBlock.2 (p.readBuffer_.getSize / 2)) limit)

/-- `SerialPort::startWriteWrapper`, run as one step: so it runs when `writeCompleteEvent` calls
it, in interrupt context. For the call from `write`, where interrupts are enabled, see
`startWriteWrapperPreempted`. -/
def startWriteWrapper (p : SerialPort) : Int × SerialPort :=
  let p := { p with transmitInProgress_ := true }
  let p := { p with writeInProgress_ := true }
  let outBlock := p.writeBuffer_.getReadBlock
  p.uartStartWrite outBlock.1 outBlock.2

/-- `SerialPort::readCompleteEvent`. -/
def readCompleteEvent (p : SerialPort) (bytesRead : Nat) : SerialPort :=
  let p := { p with readBuffer_ := p.readBuffer_.increaseWritePosition bytesRead }
  let p := p.postAndClear .readSemaphore
  if p.readBuffer_.isFull = true then p
  else (p.startReadWrapper SIZE_MAX).2

/-- `SerialPort::receiveErrorEvent`. -/
def receiveErrorEvent (p : SerialPort) (_errorSet : Nat) : SerialPort :=
  p

/-- `SerialPort::transmitCompleteEvent`. -/
def transmitCompleteEvent (p : SerialPort) : SerialPort :=
  let p := p.postAndClear .transmitSemaphore
  { p with transmitInProgress_ := false }

/-- `SerialPort::writeCompleteEvent`. -/
def writeCompleteEvent (p : SerialPort) (bytesWritten : Nat) : SerialPort :=
  let p := { p with writeBuffer_ := p.writeBuffer_.increaseReadPosition bytesWritten }
  let p := p.postAndClear .writeSemaphore
  if p.writeBuffer_.isEmpty = true then { p with writeInProgress_ := false }
  else (p.startWriteWrapper).2

/-- Delivery of one interrupt: the handler of the event runs to completion. -/
def deliver (p : SerialPort) (e : Event) : SerialPort :=
  let p := p.emit (.interrupt e)
  match e with
  | .readComplete n => p.readCompleteEvent (n % 4294967296)
  | .writeComplete n => p.writeCompleteEvent (n % 4294967296)
  | .transmitComplete => p.transmitCompleteEvent
  | .receiveError s => p.receiveErrorEvent s

/-- Delivery of a sequence of interrupts. -/
def deliverAll (p : SerialPort) (es : List Event) : SerialPort :=
  es.foldl deliver p

/-- `semaphore.wait()` on the semaphore of the given handle. When the semaphore is already
posted the call returns 0 at once. Otherwise the task is blocked: the next entry of the schedule
tells which interrupts are delivered meanwhile, then the wait fails with the status of the entry
if that is not 0, returns 0 if the semaphore has been posted, and never returns (`none`) if
neither happens or if nothing is scheduled. -/
def wait (p : SerialPort) (id : HandleId) : Option (Int × SerialPort) :=
  let p := p.emit (.wait id)
  if 0 < (p.handle id).value then
    some (0, p.setHandle id { p.handle id with value := (p.handle id).value - 1 })
  else
    match p.schedule with
    | [] => none
    | w :: rest =>
      let p := deliverAll { p with schedule := rest } w.events
      if w.status ≠ 0 then some (w.status, p)
      else if 0 < (p.handle id).value then
        some (0, p.setHandle id { p.handle id with value := (p.handle id).value - 1 })
      else none

/-- Result of `read` or `write`: the returned pair (`ret`, `count`), the buffer of the caller
after the call and the port after the call. -/
structure Transfer where
  ret : Int
  count : Nat
  buffer : List Nat
  port : SerialPort

/-- Local state of `read` or `write` between two statements: the port, the buffer of the caller
and the local byte counter (`bytesRead` or `bytesWritten`). -/
structure Progress where
  port : SerialPort
  buffer : List Nat
  bytes : Nat

/-- Outcome of one iteration of a loop of `close`, `read` or `write`: a `return` statement has
been executed with the given result, or the task is blocked for ever in a wait, or the end of the
loop body has been reached in the given state. -/
inductive Iteration (ρ σ : Type) where
  | returned (result : ρ)
  | blocked
  | next (state : σ)

/-- `SerialPort::~SerialPort`. -/
def destructor (p : SerialPort) : SerialPort :=
  if p.openCount_ = 0 then p
  else
    let p := (p.uartStopRead).2
    let p := (p.uartStopWrite).2
    (p.uartStop).2

/-- The body of the loop `while (transmitInProgress_ == true)` of `close`. -/
def closeIteration (p : SerialPort) : Iteration (Int × SerialPort) SerialPort :=
  let p := p.arm .transmitSemaphore
  if p.transmitInProgress_ = true then
    match p.wait .transmitSemaphore with
    | none => .blocked
    | some w =>
      if w.1 ≠ 0 then .returned (w.1, w.2.disarm .transmitSemaphore)
      else .next (w.2.disarm .transmitSemaphore)
  else .next (p.disarm .transmitSemaphore)

/-- The loop `while (transmitInProgress_ == true)` of `close`. The result is `none` when the call
never returns (a wait that never ends, or more iterations than `fuel`); otherwise it holds
the status returned from inside the loop, if any, and the port. -/
def closeLoop : Nat → SerialPort → Option (Option Int × SerialPort)
  | fuel, p =>
    if p.transmitInProgress_ = true then
      match fuel with
      | 0 => none
      | fuel + 1 =>
        match closeIteration p with
        | .returned r => some (some r.1, r.2)
        | .blocked => none
        | .next p => closeLoop fuel p
    else some (none, p)

/-- `SerialPort::close`. -/
def close (fuel : Nat) (p : SerialPort) : Option (Int × SerialPort) :=
  if p.openCount_ = 0 then some (EBADF, p)
  else if p.openCount_ = 1 then
    match closeLoop fuel p with
    | none => none
    | some (some ret, p) => some (ret, p)
    | some (none, p) =>
      let p := (p.uartStopRead).2
      let (ret, p) := p.uartStop
      if ret ≠ 0 then some (ret, p)
      else
        let p := { p with readBuffer_ := p.readBuffer_.clear }
        let p := { p with writeBuffer_ := p.writeBuffer_.clear }
        some (0, { p with openCount_ := p.openCount_ - 1 })
  else some (0, { p with openCount_ := p.openCount_ - 1 })

/-- `SerialPort::open`. The type of `openCount_` is declared in the header, which is not part of
the sources: `maxCount` is `std::numeric_limits<decltype(openCount_)>::max()`. -/
def «open» (maxCount : Nat) (p : SerialPort) (baudRate characterLength : Nat)
    (parity : UartParity) (_2StopBits : Bool) : Int × SerialPort :=
  if p.openCount_ = maxCount then (EMFILE, p)
  else if p.openCount_ = 0 then
    if p.readBuffer_.getSize < 4 ∨ p.writeBuffer_.getSize < 4 then (ENOBUFS, p)
    else
      let (ret, p) := p.uartStart baudRate characterLength parity _2StopBits
      if ret ≠ 0 then (ret, p)
      else
        let (ret, p) := p.startReadWrapper SIZE_MAX
        if ret ≠ 0 then (ret, p)
        else
          let p := { p with baudRate_ := baudRate }
          let p := { p with characterLength_ := characterLength }
          let p := { p with parity_ := parity }
          let p := { p with _2StopBits_ := _2StopBits }
          (0, { p with openCount_ := (p.openCount_ + 1) % (maxCount + 1) })
  else if p.baudRate_ ≠ baudRate ∨ p.characterLength_ ≠ characterLength ∨ p.parity_ ≠ parity ∨
      p._2StopBits_ ≠ _2StopBits then (EINVAL, p)
  else (0, { p with openCount_ := (p.openCount_ + 1) % (maxCount + 1) })

/-- The statement
`bytesRead += readFromRingBuffer(readBuffer_, bufferUint8 + bytesRead, size - bytesRead);` of
`read`. -/
def drain (p : SerialPort) (buffer : List Nat) (size bytesRead : Nat) : Progress :=
  let c := readFromRingBuffer p.readBuffer_ buffer bytesRead (usub size bytesRead)
  ⟨{ p with readBuffer_ := c.ringBuffer }, c.buffer, uadd bytesRead c.count⟩

/-- The block of `read` that runs under `architecture::InterruptMaskingLock`: stop the read
operation, commit the bytes it has received, start a new read operation. The result is the status
of `startReadWrapper`. -/
def restartRead (p : SerialPort) (minSize bytesRead : Nat) : Int × SerialPort :=
  let r := p.uartStopRead
  let bytesReceived := r.1
  let p := r.2
  let p := { p with readBuffer_ := p.readBuffer_.increaseWritePosition bytesReceived }
  p.startReadWrapper
    (if minSize > uadd bytesRead bytesReceived then usub (usub minSize bytesRead) bytesReceived
     else SIZE_MAX)

/-- The body of the loop `while (bytesRead < minSize)` of `read`. -/
def readIteration (size minSize : Nat) (p : SerialPort) (buffer : List Nat) (bytesRead : Nat) :
    Iteration Transfer Progress :=
  let d := drain p buffer size bytesRead
  if d.bytes = size then .returned ⟨0, d.bytes, d.buffer, d.port⟩
  else
    let r := restartRead (d.port.arm .readSemaphore) minSize d.bytes
    if r.1 ≠ 0 then .returned ⟨r.1, d.bytes, d.buffer, r.2.disarm .readSemaphore⟩
    else
      let d := drain r.2 d.buffer size d.bytes
      if d.bytes < minSize then
        match d.port.wait .readSemaphore with
        | none => .blocked
        | some w =>
          if w.1 ≠ 0 then .returned ⟨w.1, d.bytes, d.buffer, w.2.disarm .readSemaphore⟩
          else .next ⟨w.2.disarm .readSemaphore, d.buffer, d.bytes⟩
      else .next ⟨d.port.disarm .readSemaphore, d.buffer, d.bytes⟩

/-- The loop `while (bytesRead < minSize)` of `read`. The result is `none` when the call never
returns (a wait that never ends, or more iterations than `fuel`). -/
def readLoop (size minSize : Nat) : Nat → SerialPort → List Nat → Nat → Option Transfer
  | fuel, p, buffer, bytesRead =>
    if bytesRead < minSize then
      match fuel with
      | 0 => none
      | fuel + 1 =>
        match readIteration size minSize p buffer bytesRead with
        | .returned t => some t
        | .blocked => none
        | .next s => readLoop size minSize fuel s.port s.buffer s.bytes
    else some ⟨0, bytesRead, buffer, p⟩

/-- `SerialPort::read`; `buffer` is `none` for a null pointer. -/
def read (fuel : Nat) (p : SerialPort) (buffer : Option (List Nat)) (size : Nat) : Option Transfer :=
  match buffer with
  | none => some ⟨EINVAL, 0, [], p⟩
  | some buffer =>
    if size = 0 then some ⟨EINVAL, 0, buffer, p⟩
    else if p.openCount_ = 0 then some ⟨EBADF, 0, buffer, p⟩
    else if p.characterLength_ > 8 ∧ size % 2 ≠ 0 then some ⟨EINVAL, 0, buffer, p⟩
    else
      let minSize := if p.characterLength_ ≤ 8 then 1 else 2
      readLoop size minSize fuel p buffer 0

/-- The body of the loop `while (bytesWritten < size)` of `write`, when no interrupt arrives
between its statements: interrupts are delivered during the wait only. For interrupts between
the statements see `writeIterationPreempted`. -/
def writeIteration (size : Nat) (p : SerialPort) (buffer : List Nat) (bytesWritten : Nat) :
    Iteration Transfer Progress :=
  let p := p.arm .writeSemaphore
  let c := writeToRingBuffer buffer bytesWritten (usub size bytesWritten) p.writeBuffer_
  let p := { p with writeBuffer_ := c.ringBuffer }
  let bytesWritten := uadd bytesWritten c.count
  if p.writeInProgress_ = false ∧ p.writeBuffer_.isEmpty = false then
    let r := p.startWriteWrapper
    if r.1 ≠ 0 then .returned ⟨r.1, bytesWritten, buffer, r.2.disarm .writeSemaphore⟩
    else .next ⟨r.2.disarm .writeSemaphore, buffer, bytesWritten⟩
  else if bytesWritten ≠ size then
    match p.wait .writeSemaphore with
    | none => .blocked
    | some w =>
      if w.1 ≠ 0 then .returned ⟨w.1, bytesWritten, buffer, w.2.disarm .writeSemaphore⟩
      else .next ⟨w.2.disarm .writeSemaphore, buffer, bytesWritten⟩
  else .next ⟨p.disarm .writeSemaphore, buffer, bytesWritten⟩

/-- The loop `while (bytesWritten < size)` of `write`. The result is `none` when the call never
returns (a wait that never ends, or more iterations than `fuel`). -/
def writeLoop (size : Nat) : Nat → SerialPort → List Nat → Nat → Option Transfer
  | fuel, p, buffer, bytesWritten =>
    if bytesWritten < size then
      match fuel with
      | 0 => none
      | fuel + 1 =>
        match writeIteration size p buffer bytesWritten with
        | .returned t => some t
        | .blocked => none
        | .next s => writeLoop size fuel s.port s.buffer s.bytes
    else some ⟨0, bytesWritten, buffer, p⟩

/-- `SerialPort::write`; `buffer` is `none` for a null pointer. -/
def write (fuel : Nat) (p : SerialPort) (buffer : Option (List Nat)) (size : Nat) : Option Transfer :=
  match buffer with
  | none => some ⟨EINVAL, 0, [], p⟩
  | some buffer =>
    if size = 0 then some ⟨EINVAL, 0, buffer, p⟩
    else if p.openCount_ = 0 then some ⟨EBADF, 0, buffer, p⟩
    else if p.characterLength_ > 8 ∧ size % 2 ≠ 0 then some ⟨EINVAL, 0, buffer, p⟩
    else writeLoop size fuel p buffer 0

/-- Arguments of one call of `open`. -/
structure OpenArgs where
  baudRate : Nat
  characterLength : Nat
  parity : UartParity
  _2StopBits : Bool
deriving DecidableEq, Repr

/-- A sequence of calls of `open`; the result is the port after the last call. -/
def openAll (maxCount : Nat) : SerialPort → List OpenArgs → SerialPort
  | p, [] => p
  | p, a :: rest =>
    openAll maxCount («open» maxCount p a.baudRate a.characterLength a.parity a._2StopBits).2 rest

/-- The call of `open` with the same arguments `n` times in a row; the result holds the returned
statuses, in order, and the port after the last call. -/
def openTimes (maxCount : Nat) (a : OpenArgs) : Nat → SerialPort → List Int × SerialPort
  | 0, p => ([], p)
  | n + 1, p =>
    let r := «open» maxCount p a.baudRate a.characterLength a.parity a._2StopBits
    let rs := openTimes maxCount a n r.2
    (r.1 :: rs.1, rs.2)

/-- The call of `close` `n` times in a row; the result holds the returned statuses, in order, and
the port after the last call. -/
def closeTimes (fuel : Nat) : Nat → SerialPort → Option (List Int × SerialPort)
  | 0, p => some ([], p)
  | n + 1, p =>
    match close fuel p with
    | none => none
    | some (ret, p1) =>
      match closeTimes fuel n p1 with
      | none => none
      | some (rets, p2) => some (ret :: rets, p2)

/-- The port expected after `n` successful calls of `open` with the arguments `a` on the closed
port `p`: the hardware has been started and a background read armed over the write block of the
inbound buffer, the arguments are recorded and the reference count is `n`. -/
def opened (p : SerialPort) (a : OpenArgs) (n : Nat) : SerialPort :=
  { p with
    trace := p.trace ++ [.start a.baudRate a.characterLength a.parity a._2StopBits,
      .startRead p.readBuffer_.getWriteBlock.1
        (min (min p.readBuffer_.getWriteBlock.2 (p.readBuffer_.getSize / 2)) SIZE_MAX)],
    baudRate_ := a.baudRate, characterLength_ := a.characterLength, parity_ := a.parity,
    _2StopBits_ := a._2StopBits, openCount_ := n }

/-- The port expected after the last `close` of the port `p` when no transmission is in progress:
the background read and the hardware have been stopped, both buffers are cleared and the reference
count is 0. -/
def shutDown (p : SerialPort) : SerialPort :=
  { p with
    trace := p.trace ++ [.stopRead, .stop],
    readBuffer_ := p.readBuffer_.clear, writeBuffer_ := p.writeBuffer_.clear, openCount_ := 0 }

/-- The hardware reports only even numbers of bytes: from `stopRead`, and with every
`readCompleteEvent` of the interrupts scheduled for the waits to come. -/
def EvenCounts (p : SerialPort) : Prop :=
  (∀ i, p.uart_.received i % 2 = 0) ∧
  ∀ w ∈ p.schedule, ∀ n, Event.readComplete n ∈ w.events → n % 2 = 0

/-- Whether an effect is a call of `Semaphore::wait`. -/
def isWait : Effect → Bool
  | .wait _ => true
  | _ => false

/-- Number of `Semaphore::wait` calls in a trace. -/
def waits (trace : List Effect) : Nat :=
  trace.countP isWait

/-- A hardware UART that accepts every call and reports no received byte. -/
def quietUart : UartLowLevel :=
  ⟨fun _ => 0, fun _ => 0⟩

/-- A port in which nothing has happened yet and nothing is scheduled, over the given ring
buffers, with the given reference count and character length, 9600 baud, no parity and one stop
bit, and a hardware that accepts every call. -/
def quietPort (readBuffer writeBuffer : RingBuffer) (openCount characterLength : Nat) :
    SerialPort :=
  { uart_ := quietUart, trace := [], schedule := [], readBuffer_ := readBuffer,
    writeBuffer_ := writeBuffer, baudRate_ := 9600, characterLength_ := characterLength,
    parity_ := 0, _2StopBits_ := false, openCount_ := openCount,
    readSemaphore_ := ⟨false, 0⟩, transmitSemaphore_ := ⟨false, 0⟩, writeSemaphore_ := ⟨false, 0⟩,
    transmitInProgress_ := false, writeInProgress_ := false }

/-- Whether a hardware read operation is armed after the effects of a trace, the first of which
has index `i`: a `startRead` that the hardware accepts arms one; `stopRead`, `stop` and the
delivery of `readCompleteEvent` end it. -/
def readArmedAfter (u : UartLowLevel) : List Effect → Nat → Bool → Bool
  | [], _, armed => armed
  | e :: es, i, armed =>
    readArmedAfter u es (i + 1)
      (match e with
       | .startRead _ _ => decide (u.status i = 0)
       | .stopRead => false
       | .stop => false
       | .interrupt (.readComplete _) => false
       | _ => armed)

/-- Whether a hardware read operation is armed in the given state of the port. -/
def readArmed (p : SerialPort) : Bool :=
  readArmedAfter p.uart_ p.trace 0 false

/-- A property of ports that survives every elementary state change made by the interrupt
handlers and by `Semaphore::wait`: a new effect in the trace (other than the post of a semaphore),
the post or the consumption of a semaphore, the consumption of the schedule, the commit of
received or of written bytes, and the assignment of a progress flag. -/
structure Stable (P : SerialPort → Prop) : Prop where
  emit : ∀ q e, (∀ id, e ≠ .post id) → P q → P (q.emit e)
  post : ∀ q id, P q → P (q.postAndClear id)
  consume : ∀ q id, P q → P (q.setHandle id { q.handle id with value := (q.handle id).value - 1 })
  schedule : ∀ q s, P q → P { q with schedule := s }
  received : ∀ q n, P q → P { q with readBuffer_ := q.readBuffer_.increaseWritePosition n }
  written : ∀ q n, P q → P { q with writeBuffer_ := q.writeBuffer_.increaseReadPosition n }
  transmitFlag : ∀ q b, P q → P { q with transmitInProgress_ := b }
  writeFlag : ∀ q b, P q → P { q with writeInProgress_ := b }

/-- Number of posts of the semaphore of the given handle in a trace. -/
def posts (id : HandleId) (trace : List Effect) : Nat :=
  trace.count (.post id)

/-- The number 1 when the given handle is armed, 0 when it is null. -/
def armedCount (p : SerialPort) (id : HandleId) : Nat :=
  if (p.handle id).armed = true then 1 else 0

/-- State of a call of `write` that has copied `n` bytes so far, relative to the port `p` and the
buffer `buffer` of the caller at the call: the write cursor of the outbound buffer has advanced by
`n` (modulo the capacity), at most `size` bytes have been copied and the buffer of the caller is
untouched. -/
def WriteProgress (p : SerialPort) (buffer : List Nat) (size : Nat) (q : SerialPort)
    (buf : List Nat) (n : Nat) : Prop :=
  q.writeBuffer_.InStorage ∧ q.writeBuffer_.size_ = p.writeBuffer_.size_ ∧
  q.writeBuffer_.writePosition_ = (p.writeBuffer_.writePosition_ + n) % p.writeBuffer_.size_ ∧
  n ≤ size ∧ buf = buffer

/-- Whether an effect leaves the write operation of the hardware as it is: every effect but a
call of `startWrite` and the interrupts `writeCompleteEvent` and `transmitCompleteEvent`. -/
def txNeutral : Effect → Bool
  | .startWrite _ _ => false
  | .interrupt (.writeComplete _) => false
  | .interrupt .transmitComplete => false
  | _ => true

/-- One effect seen by the write protocol of the hardware; `pending` is the length of the block
that the hardware holds, if any, and `i` the index of the effect in the trace. The result is
`none` when the effect breaks the protocol. A `startWrite` that the hardware accepts puts its
block in flight; `writeCompleteEvent(n)` reports the block in flight, once, with `n` at most its
length. With `strict`, moreover, the hardware accepts every `startWrite` and raises
`transmitCompleteEvent` only when no block is in flight. -/
def txStep (strict : Bool) (u : UartLowLevel) (i : Nat) (pending : Option Nat) :
    Effect → Option (Option Nat)
  | .startWrite _ l =>
    if u.status i = 0 then some (some l) else if strict = true then none else some none
  | .interrupt (.writeComplete n) =>
    match pending with
    | some l => if n ≤ l then some none else none
    | none => none
  | .interrupt .transmitComplete =>
    if strict = true ∧ pending.isSome = true then none else some pending
  | _ => some pending

/-- The write protocol over a trace whose first effect has index `i`: the block in flight after
the trace, or `none` when an effect of the trace breaks the protocol. -/
def txRunFrom (strict : Bool) (u : UartLowLevel) : List Effect → Nat → Option Nat →
    Option (Option Nat)
  | [], _, pending => some pending
  | e :: es, i, pending =>
    match txStep strict u i pending e with
    | none => none
    | some pending => txRunFrom strict u es (i + 1) pending

/-- The write protocol over the whole trace of a port, no block being in flight at first. -/
def txRun (strict : Bool) (p : SerialPort) : Option (Option Nat) :=
  txRunFrom strict p.uart_ p.trace 0 none

/-- Number of bytes that an effect reports as written. -/
def reported : Effect → Nat
  | .interrupt (.writeComplete n) => n
  | _ => 0

/-- Total number of bytes that the `writeCompleteEvent` interrupts of a trace report as
written. -/
def transmitted (trace : List Effect) : Nat :=
  (trace.map reported).sum

/-- A step of a client of the port or of its hardware: a call of `write` with a non-null buffer,
or the delivery of an interrupt outside of any wait. -/
inductive Call where
  | write (fuel : Nat) (buffer : List Nat) (size : Nat)
  | interrupt (event : Event)

/-- A sequence of calls of `write` and of interrupts. The result is `none` when a call of `write`
never returns; otherwise it is the port after the last step together with the bytes that the
calls of `write` have accepted, in order, appended to `accepted`: a call that returns `count`
accepts the first `count` bytes of its buffer. -/
def runCalls : SerialPort → List Nat → List Call → Option (SerialPort × List Nat)
  | p, accepted, [] => some (p, accepted)
  | p, accepted, .write fuel buffer size :: calls =>
    match write fuel p (some buffer) size with
    | none => none
    | some t => runCalls t.port (accepted ++ buffer.take t.count) calls
  | p, accepted, .interrupt e :: calls => runCalls (p.deliver e) accepted calls

/-- A property of the port that is preserved by every elementary change that a wait, an interrupt
handler or a scope guard can make, the changes of the write operation (`startWriteWrapper`,
`writeCompleteEvent`, `transmitCompleteEvent`) being taken as a whole. -/
structure TxStable (P : SerialPort → Prop) : Prop where
  emit : ∀ q e, txNeutral e = true → P q → P (q.emit e)
  handle : ∀ q id h, P q → P (q.setHandle id h)
  schedule : ∀ q s, P q → P { q with schedule := s }
  received : ∀ q n, P q →
    P { q with readBuffer_ := q.readBuffer_.increaseWritePosition n }
  startWrite : ∀ q, P q → P (q.startWriteWrapper).2
  writeComplete : ∀ q n, P q → P (q.deliver (.writeComplete n))
  transmitComplete : ∀ q, P q → P (q.deliver .transmitComplete)

/-- The outbound buffer is a queue of the bytes `stream`, as long as the hardware follows the
write protocol: its cursors are valid, its storage holds at least `size_` bytes, the stored bytes
are the bytes of `stream` from the number of bytes reported as written on, and the block in
flight, if any, is not longer than the contiguous readable block. -/
def Fifo (stream : List Nat) (q : SerialPort) : Prop :=
  ∀ pd, txRun false q = some pd →
    q.writeBuffer_.Valid ∧ q.writeBuffer_.size_ ≤ q.writeBuffer_.buffer_.length ∧
    q.writeBuffer_.contents = stream.drop (transmitted q.trace) ∧
    transmitted q.trace ≤ stream.length ∧
    ∀ l, pd = some l → l ≤ q.writeBuffer_.getReadBlock.2

/-- Bytes stored in the outbound buffer come with a write operation in progress. -/
def QueuedInProgress (q : SerialPort) : Prop :=
  q.writeBuffer_.isEmpty = false → q.writeInProgress_ = true

/-- Whether an effect leaves the read operation of the hardware as it is: every effect but the
calls of `startRead` and `stopRead` and the interrupt `readCompleteEvent`. -/
def rxNeutral : Effect → Bool
  | .startRead _ _ => false
  | .stopRead => false
  | .interrupt (.readComplete _) => false
  | _ => true

/-- One effect seen by the read protocol of the hardware; `armed` is the length of the read
operation that the hardware holds, if any, and `i` the index of the effect in the trace. The
result is `none` when the hardware reports more bytes than the armed length, through
`readCompleteEvent(n)` or through the value that `stopRead` returns (no byte when nothing is
armed). A `startRead` that the hardware accepts arms its length; `stopRead` and
`readCompleteEvent` end the read operation. -/
def rxStep (u : UartLowLevel) (i : Nat) (armed : Option Nat) : Effect → Option (Option Nat)
  | .startRead _ l => some (if u.status i = 0 then some l else none)
  | .stopRead => if u.received i % 4294967296 ≤ armed.getD 0 then some none else none
  | .interrupt (.readComplete n) => if n ≤ armed.getD 0 then some none else none
  | _ => some armed

/-- The read protocol over a trace whose first effect has index `i`: the armed length after the
trace, or `none` when the hardware has reported more bytes than were armed. -/
def rxRunFrom (u : UartLowLevel) : List Effect → Nat → Option Nat → Option (Option Nat)
  | [], _, armed => some armed
  | e :: es, i, armed =>
    match rxStep u i armed e with
    | none => none
    | some armed => rxRunFrom u es (i + 1) armed

/-- The read protocol over the whole trace of a port, nothing being armed at first. -/
def rxRun (p : SerialPort) : Option (Option Nat) :=
  rxRunFrom p.uart_ p.trace 0 none

/-- A step of a client of the port or of its hardware, on the receiving side: a call of `open`,
a call of `read` with a non-null buffer, or the delivery of an interrupt outside of any wait. -/
inductive RxCall where
  | «open» (baudRate characterLength : Nat) (parity : UartParity) (_2StopBits : Bool)
  | read (fuel : Nat) (buffer : List Nat) (size : Nat)
  | interrupt (event : Event)

/-- A sequence of calls of `open` and `read` and of interrupts. The result is `none` when a call
of `read` never returns; otherwise it is the port after the last step. -/
def runRxCalls (maxCount : Nat) : SerialPort → List RxCall → Option SerialPort
  | p, [] => some p
  | p, .«open» baudRate characterLength parity _2StopBits :: calls =>
    runRxCalls maxCount («open» maxCount p baudRate characterLength parity _2StopBits).2 calls
  | p, .read fuel buffer size :: calls =>
    match read fuel p (some buffer) size with
    | none => none
    | some t => runRxCalls maxCount t.port calls
  | p, .interrupt e :: calls => runRxCalls maxCount (p.deliver e) calls

/-- A property of the port that is preserved by every elementary change that a wait, an interrupt
handler or a scope guard can make, `readCompleteEvent` being taken as a whole. -/
structure RxStable (P : SerialPort → Prop) : Prop where
  emit : ∀ q e, rxNeutral e = true → P q → P (q.emit e)
  handle : ∀ q id h, P q → P (q.setHandle id h)
  schedule : ∀ q s, P q → P { q with schedule := s }
  written : ∀ q n, P q →
    P { q with writeBuffer_ := q.writeBuffer_.increaseReadPosition n }
  transmitFlag : ∀ q b, P q → P { q with transmitInProgress_ := b }
  writeFlag : ∀ q b, P q → P { q with writeInProgress_ := b }
  readComplete : ∀ q n, P q → P (q.deliver (.readComplete n))

/-- The inbound buffer keeps valid cursors, as long as the hardware follows the read protocol, and
the armed length is not longer than the contiguous free block. -/
def InboundOk (q : SerialPort) : Prop :=
  ∀ armed, rxRun q = some armed →
    q.readBuffer_.Valid ∧ armed.getD 0 ≤ q.readBuffer_.getWriteBlock.2

/-! ## write with interrupts between its statements -/

/-- The interrupts delivered while one iteration of the loop `while (bytesWritten < size)` of
`write` runs. `write` does not mask interrupts (only `read` does, around its `stopRead` and
`startReadWrapper`), so that a handler can run between any two statements of the loop body and
of `startWriteWrapper`, which the loop body calls. Each field holds the interrupts delivered at
one of these places, in order: after `writeSemaphore_ = &semaphore`; after `writeToRingBuffer`
has returned; between the reads of `writeInProgress_` and of `writeBuffer_.isEmpty()` in the
condition of the `if`; after this condition; in `startWriteWrapper` after
`transmitInProgress_ = true`, after `writeInProgress_ = true` and after
`writeBuffer_.getReadBlock()`, the last being just before `uart_.startWrite`; after the branch
taken and before the scope guard clears `writeSemaphore_`; and after the scope guard. -/
structure Preemption where
  afterArm : List Event
  afterCopy : List Event
  betweenTests : List Event
  afterTest : List Event
  afterTransmitFlag : List Event
  afterWriteFlag : List Event
  afterBlock : List Event
  beforeGuard : List Event
  afterGuard : List Event
deriving DecidableEq, Repr

/-- No interrupt during the iteration. -/
def Preemption.quiet : Preemption :=
  ⟨[], [], [], [], [], [], [], [], []⟩

/-- `SerialPort::startWriteWrapper` as it runs when `write` calls it, with interrupts enabled:
the interrupts of `s` are delivered between its statements. -/
def startWriteWrapperPreempted (s : Preemption) (p : SerialPort) : Int × SerialPort :=
  let p := { p with transmitInProgress_ := true }
  let p := deliverAll p s.afterTransmitFlag
  let p := { p with writeInProgress_ := true }
  let p := deliverAll p s.afterWriteFlag
  let outBlock := p.writeBuffer_.getReadBlock
  let p := deliverAll p s.afterBlock
  p.uartStartWrite outBlock.1 outBlock.2

/-- The body of the loop `while (bytesWritten < size)` of `write`, with the interrupts of `s`
delivered between its statements. `writeToRingBuffer` and `Semaphore::wait` run as in
`writeIteration`: the copy as a whole, the wait with the interrupts of the schedule. -/
def writeIterationPreempted (size : Nat) (s : Preemption) (p : SerialPort) (buffer : List Nat)
    (bytesWritten : Nat) : Iteration Transfer Progress :=
  let p := p.arm .writeSemaphore
  let p := deliverAll p s.afterArm
  let c := writeToRingBuffer buffer bytesWritten (usub size bytesWritten) p.writeBuffer_
  let p := { p with writeBuffer_ := c.ringBuffer }
  let bytesWritten := uadd bytesWritten c.count
  let p := deliverAll p s.afterCopy
  let inProgress := p.writeInProgress_
  let p := deliverAll p s.betweenTests
  let empty := p.writeBuffer_.isEmpty
  let p := deliverAll p s.afterTest
  if inProgress = false ∧ empty = false then
    let r := startWriteWrapperPreempted s p
    let q := deliverAll ((deliverAll r.2 s.beforeGuard).disarm .writeSemaphore) s.afterGuard
    if r.1 ≠ 0 then .returned ⟨r.1, bytesWritten, buffer, q⟩
    else .next ⟨q, buffer, bytesWritten⟩
  else if bytesWritten ≠ size then
    match p.wait .writeSemaphore with
    | none => .blocked
    | some w =>
      let q := deliverAll ((deliverAll w.2 s.beforeGuard).disarm .writeSemaphore) s.afterGuard
      if w.1 ≠ 0 then .returned ⟨w.1, bytesWritten, buffer, q⟩
      else .next ⟨q, buffer, bytesWritten⟩
  else
    .next ⟨deliverAll ((deliverAll p s.beforeGuard).disarm .writeSemaphore) s.afterGuard,
      buffer, bytesWritten⟩

/-- The loop `while (bytesWritten < size)` of `write` with interrupts between its statements:
the first element of `ss` tells the interrupts of the first iteration, and so on; an iteration
beyond the end of `ss` runs without interrupts. The result is `none` when the call never
returns (a wait that never ends, or more iterations than `fuel`). -/
def writeLoopPreempted (size : Nat) :
    Nat → List Preemption → SerialPort → List Nat → Nat → Option Transfer
  | fuel, ss, p, buffer, bytesWritten =>
    if bytesWritten < size then
      match fuel with
      | 0 => none
      | fuel + 1 =>
        match writeIterationPreempted size (ss.headD Preemption.quiet) p buffer bytesWritten with
        | .returned t => some t
        | .blocked => none
        | .next s => writeLoopPreempted size fuel ss.tail s.port s.buffer s.bytes
    else some ⟨0, bytesWritten, buffer, p⟩

/-- `SerialPort::write` with interrupts between the statements of its loop; `buffer` is `none`
for a null pointer. The checks before the loop read only `openCount_` and `characterLength_`,
which no interrupt handler writes: an interrupt before the loop is an interrupt before the
call. -/
def writePreempted (fuel : Nat) (ss : List Preemption) (p : SerialPort)
    (buffer : Option (List Nat)) (size : Nat) : Option Transfer :=
  match buffer with
  | none => some ⟨EINVAL, 0, [], p⟩
  | some buffer =>
    if size = 0 then some ⟨EINVAL, 0, buffer, p⟩
    else if p.openCount_ = 0 then some ⟨EBADF, 0, buffer, p⟩
    else if p.characterLength_ > 8 ∧ size % 2 ≠ 0 then some ⟨EINVAL, 0, buffer, p⟩
    else writeLoopPreempted size fuel ss p buffer 0

/-- A step of a client of the port or of its hardware, where the calls of `write` can be
interrupted between their statements. -/
inductive PreemptedCall where
  | write (fuel : Nat) (ss : List Preemption) (buffer : List Nat) (size : Nat)
  | interrupt (event : Event)

/-- A sequence of calls of `write`, interrupted as told, and of interrupts between the calls.
The result is as for `runCalls`. -/
def runPreemptedCalls :
    SerialPort → List Nat → List PreemptedCall → Option (SerialPort × List Nat)
  | p, accepted, [] => some (p, accepted)
  | p, accepted, .write fuel ss buffer size :: calls =>
    match writePreempted fuel ss p (some buffer) size with
    | none => none
    | some t => runPreemptedCalls t.port (accepted ++ buffer.take t.count) calls
  | p, accepted, .interrupt e :: calls => runPreemptedCalls (p.deliver e) accepted calls

end SerialPort

/-! ## RCC of STM32F4 (`distortos::chip`) -/

namespace Chip

/-- Bitwise complement of a `uint32_t` value (`~x`). -/
def unot (x : Nat) : Nat := 4294967295 - x % 4294967296

/-- Values of the constants that `STM32F4-RCC.cpp` takes from headers that are not part of the
sources: the divider constants and the limits of `distortos/chip/STM32F4-RCC.hpp`, the bit
numbers of `distortos/chip/STM32F4-RCC-bits.h` and the masks and field values of the CMSIS
header of the chip. -/
structure RccHeader where
  hpreDiv1 : Nat
  hpreDiv2 : Nat
  hpreDiv4 : Nat
  hpreDiv8 : Nat
  hpreDiv16 : Nat
  hpreDiv64 : Nat
  hpreDiv128 : Nat
  hpreDiv256 : Nat
  hpreDiv512 : Nat
  ppreDiv1 : Nat
  ppreDiv2 : Nat
  ppreDiv4 : Nat
  ppreDiv8 : Nat
  ppreDiv16 : Nat
  minPllm : Nat
  maxPllm : Nat
  minPlln : Nat
  maxPlln : Nat
  minPllq : Nat
  maxPllq : Nat
  pllpDiv2 : Nat
  pllpDiv4 : Nat
  pllpDiv6 : Nat
  pllpDiv8 : Nat
  RCC_CFGR_HPRE : Nat
  RCC_CFGR_HPRE_DIV1 : Nat
  RCC_CFGR_HPRE_DIV2 : Nat
  RCC_CFGR_HPRE_DIV4 : Nat
  RCC_CFGR_HPRE_DIV8 : Nat
  RCC_CFGR_HPRE_DIV16 : Nat
  RCC_CFGR_HPRE_DIV64 : Nat
  RCC_CFGR_HPRE_DIV128 : Nat
  RCC_CFGR_HPRE_DIV256 : Nat
  RCC_CFGR_HPRE_DIV512 : Nat
  RCC_CFGR_PPRE1 : Nat
  RCC_CFGR_PPRE2 : Nat
  RCC_CFGR_PPRE1_DIV1 : Nat
  RCC_CFGR_PPRE1_DIV2 : Nat
  RCC_CFGR_PPRE1_DIV4 : Nat
  RCC_CFGR_PPRE1_DIV8 : Nat
  RCC_CFGR_PPRE1_DIV16 : Nat
  RCC_CFGR_PPRE2_DIV1 : Nat
  RCC_CFGR_PPRE2_DIV2 : Nat
  RCC_CFGR_PPRE2_DIV4 : Nat
  RCC_CFGR_PPRE2_DIV8 : Nat
  RCC_CFGR_PPRE2_DIV16 : Nat
  RCC_PLLCFGR_PLLM : Nat
  RCC_PLLCFGR_PLLN : Nat
  RCC_PLLCFGR_PLLP : Nat
  RCC_PLLCFGR_PLLQ : Nat
  RCC_PLLCFGR_PLLM_bit : Nat
  RCC_PLLCFGR_PLLN_bit : Nat
  RCC_PLLCFGR_PLLP_bit : Nat
  RCC_PLLCFGR_PLLQ_bit : Nat
  RCC_CR_PLLON_bit : Nat
deriving DecidableEq, Repr

/-- The constants as the reference manual of STM32F4 (RM0090) and the CMSIS header give them,
with the divider constants and limits of distortos: a divider constant is the divider itself. -/
def stm32f4 : RccHeader :=
  { hpreDiv1 := 1, hpreDiv2 := 2, hpreDiv4 := 4, hpreDiv8 := 8, hpreDiv16 := 16,
    hpreDiv64 := 64, hpreDiv128 := 128, hpreDiv256 := 256, hpreDiv512 := 512,
    ppreDiv1 := 1, ppreDiv2 := 2, ppreDiv4 := 4, ppreDiv8 := 8, ppreDiv16 := 16,
    minPllm := 2, maxPllm := 63, minPlln := 192, maxPlln := 432, minPllq := 2, maxPllq := 15,
    pllpDiv2 := 2, pllpDiv4 := 4, pllpDiv6 := 6, pllpDiv8 := 8,
    RCC_CFGR_HPRE := 0xF0,
    RCC_CFGR_HPRE_DIV1 := 0x00, RCC_CFGR_HPRE_DIV2 := 0x80, RCC_CFGR_HPRE_DIV4 := 0x90,
    RCC_CFGR_HPRE_DIV8 := 0xA0, RCC_CFGR_HPRE_DIV16 := 0xB0, RCC_CFGR_HPRE_DIV64 := 0xC0,
    RCC_CFGR_HPRE_DIV128 := 0xD0, RCC_CFGR_HPRE_DIV256 := 0xE0, RCC_CFGR_HPRE_DIV512 := 0xF0,
    RCC_CFGR_PPRE1 := 0x1C00, RCC_CFGR_PPRE2 := 0xE000,
    RCC_CFGR_PPRE1_DIV1 := 0x0000, RCC_CFGR_PPRE1_DIV2 := 0x1000, RCC_CFGR_PPRE1_DIV4 := 0x1400,
    RCC_CFGR_PPRE1_DIV8 := 0x1800, RCC_CFGR_PPRE1_DIV16 := 0x1C00,
    RCC_CFGR_PPRE2_DIV1 := 0x0000, RCC_CFGR_PPRE2_DIV2 := 0x8000, RCC_CFGR_PPRE2_DIV4 := 0xA000,
    RCC_CFGR_PPRE2_DIV8 := 0xC000, RCC_CFGR_PPRE2_DIV16 := 0xE000,
    RCC_PLLCFGR_PLLM := 0x3F, RCC_PLLCFGR_PLLN := 0x7FC0, RCC_PLLCFGR_PLLP := 0x30000,
    RCC_PLLCFGR_PLLQ := 0x0F000000,
    RCC_PLLCFGR_PLLM_bit := 0, RCC_PLLCFGR_PLLN_bit := 6, RCC_PLLCFGR_PLLP_bit := 16,
    RCC_PLLCFGR_PLLQ_bit := 24, RCC_CR_PLLON_bit := 24 }

/-- The registers of the RCC that `STM32F4-RCC.cpp` writes. -/
inductive Register where
  | CR
  | CFGR
  | PLLCFGR
deriving DecidableEq, Repr

/-- The registers `RCC->CR`, `RCC->CFGR` and `RCC->PLLCFGR` (32 bits each) and the registers
written so far, in order. -/
structure Rcc where
  CR : Nat
  CFGR : Nat
  PLLCFGR : Nat
  writes : List Register
deriving DecidableEq, Repr

/-- The table `associations` of `configureAhbClockDivider`. -/
def hpreAssociations (h : RccHeader) : List (Nat × Nat) :=
  [(h.hpreDiv1, h.RCC_CFGR_HPRE_DIV1),
   (h.hpreDiv2, h.RCC_CFGR_HPRE_DIV2),
   (h.hpreDiv4, h.RCC_CFGR_HPRE_DIV4),
   (h.hpreDiv8, h.RCC_CFGR_HPRE_DIV8),
   (h.hpreDiv16, h.RCC_CFGR_HPRE_DIV16),
   (h.hpreDiv64, h.RCC_CFGR_HPRE_DIV64),
   (h.hpreDiv128, h.RCC_CFGR_HPRE_DIV128),
   (h.hpreDiv256, h.RCC_CFGR_HPRE_DIV256),
   (h.hpreDiv512, h.RCC_CFGR_HPRE_DIV512)]

/-- The table `associations` of `configureApbClockDivider`: the second component holds the
values for PPRE1 and for PPRE2. -/
def ppreAssociations (h : RccHeader) : List (Nat × Nat × Nat) :=
  [(h.ppreDiv1, h.RCC_CFGR_PPRE1_DIV1, h.RCC_CFGR_PPRE2_DIV1),
   (h.ppreDiv2, h.RCC_CFGR_PPRE1_DIV2, h.RCC_CFGR_PPRE2_DIV2),
   (h.ppreDiv4, h.RCC_CFGR_PPRE1_DIV4, h.RCC_CFGR_PPRE2_DIV4),
   (h.ppreDiv8, h.RCC_CFGR_PPRE1_DIV8, h.RCC_CFGR_PPRE2_DIV8),
   (h.ppreDiv16, h.RCC_CFGR_PPRE1_DIV16, h.RCC_CFGR_PPRE2_DIV16)]

/-- The assignment `reg = (reg & ~mask) | value` to a 32-bit register. -/
def setField (reg mask value : Nat) : Nat :=
  ((reg &&& unot mask) ||| value) % 4294967296

/-- `configureAhbClockDivider`: the loop returns at the first association whose first component
is `hpre`. -/
def configureAhbClockDivider (h : RccHeader) (hpre : Nat) (rcc : Rcc) : Int × Rcc :=
  match (hpreAssociations h).find? (fun association => association.1 = hpre) with
  | some association =>
    (0, { rcc with
      CFGR := setField rcc.CFGR h.RCC_CFGR_HPRE association.2,
      writes := rcc.writes ++ [.CFGR] })
  | none => (EINVAL, rcc)

/-- `configureApbClockDivider`: `masks[ppre2]` and `association.second[ppre2]` select PPRE2 when
`ppre2` is true and PPRE1 otherwise. -/
def configureApbClockDivider (h : RccHeader) (ppre2 : Bool) (ppre : Nat) (rcc : Rcc) :
    Int × Rcc :=
  match (ppreAssociations h).find? (fun association => association.1 = ppre) with
  | some association =>
    (0, { rcc with
      CFGR := setField rcc.CFGR (if ppre2 = true then h.RCC_CFGR_PPRE2 else h.RCC_CFGR_PPRE1)
        (if ppre2 = true then association.2.2 else association.2.1),
      writes := rcc.writes ++ [.CFGR] })
  | none => (EINVAL, rcc)

/-- `configurePllInputClockDivider`. -/
def configurePllInputClockDivider (h : RccHeader) (pllm : Nat) (rcc : Rcc) : Int × Rcc :=
  if pllm < h.minPllm ∨ pllm > h.maxPllm then (EINVAL, rcc)
  else
    (0, { rcc with
      PLLCFGR := setField rcc.PLLCFGR h.RCC_PLLCFGR_PLLM (pllm <<< h.RCC_PLLCFGR_PLLM_bit),
      writes := rcc.writes ++ [.PLLCFGR] })

/-- The loop `while (RCC_CR_PLLRDY_bb == 0);`: `ready k` is the value that the hardware gives
to the read number `k` of the flag, `fuel` bounds the number of iterations. The result tells
whether the loop ends. -/
def waitPllReady (ready : Nat → Bool) : Nat → Nat → Bool
  | fuel, k =>
    if ready k = false then
      match fuel with
      | 0 => false
      | fuel + 1 => waitPllReady ready fuel (k + 1)
    else true

/-- `enablePll`; the result is `none` when the call never returns. The expression
`pllp / 2 - 1` is computed in `int`; the natural subtraction agrees with it for `pllp ≥ 2`. -/
def enablePll (h : RccHeader) (ready : Nat → Bool) (fuel : Nat) (plln pllp pllq : Nat)
    (rcc : Rcc) : Option (Int × Rcc) :=
  if plln < h.minPlln ∨ plln > h.maxPlln ∨
      (pllp ≠ h.pllpDiv2 ∧ pllp ≠ h.pllpDiv4 ∧ pllp ≠ h.pllpDiv6 ∧ pllp ≠ h.pllpDiv8) ∨
      pllq < h.minPllq ∨ pllq > h.maxPllq then some (EINVAL, rcc)
  else
    let rcc : Rcc := { rcc with
      PLLCFGR := setField rcc.PLLCFGR
        (h.RCC_PLLCFGR_PLLN ||| h.RCC_PLLCFGR_PLLP ||| h.RCC_PLLCFGR_PLLQ)
        ((plln <<< h.RCC_PLLCFGR_PLLN_bit) ||| ((pllp / 2 - 1) <<< h.RCC_PLLCFGR_PLLP_bit) |||
          (pllq <<< h.RCC_PLLCFGR_PLLQ_bit)),
      writes := rcc.writes ++ [Register.PLLCFGR] }
    let rcc : Rcc := { rcc with
      CR := rcc.CR ||| (1 <<< h.RCC_CR_PLLON_bit),
      writes := rcc.writes ++ [Register.CR] }
    if waitPllReady ready fuel 0 = true then some (0, rcc) else none

/-- The masks of the header are 32-bit values, every field value lies within the mask of its
field, and the constants for PLLP are at least 2. -/
def RccHeader.WellFormed (h : RccHeader) : Prop :=
  h.RCC_CFGR_HPRE < 4294967296 ∧ h.RCC_CFGR_PPRE1 < 4294967296 ∧
  h.RCC_CFGR_PPRE2 < 4294967296 ∧ h.RCC_PLLCFGR_PLLM < 4294967296 ∧
  h.RCC_PLLCFGR_PLLN ||| h.RCC_PLLCFGR_PLLP ||| h.RCC_PLLCFGR_PLLQ < 4294967296 ∧
  (∀ a ∈ hpreAssociations h, a.2 &&& h.RCC_CFGR_HPRE = a.2) ∧
  (∀ a ∈ ppreAssociations h,
    a.2.1 &&& h.RCC_CFGR_PPRE1 = a.2.1 ∧ a.2.2 &&& h.RCC_CFGR_PPRE2 = a.2.2) ∧
  (∀ pllm, pllm ≤ h.maxPllm → h.minPllm ≤ pllm →
    (pllm <<< h.RCC_PLLCFGR_PLLM_bit) &&& h.RCC_PLLCFGR_PLLM =
      pllm <<< h.RCC_PLLCFGR_PLLM_bit) ∧
  (∀ plln, plln ≤ h.maxPlln → h.minPlln ≤ plln →
    (plln <<< h.RCC_PLLCFGR_PLLN_bit) &&& h.RCC_PLLCFGR_PLLN =
      plln <<< h.RCC_PLLCFGR_PLLN_bit) ∧
  (∀ pllp ∈ [h.pllpDiv2, h.pllpDiv4, h.pllpDiv6, h.pllpDiv8], 2 ≤ pllp ∧
    ((pllp / 2 - 1) <<< h.RCC_PLLCFGR_PLLP_bit) &&& h.RCC_PLLCFGR_PLLP =
      (pllp / 2 - 1) <<< h.RCC_PLLCFGR_PLLP_bit) ∧
  (∀ pllq, pllq ≤ h.maxPllq → h.minPllq ≤ pllq →
    (pllq <<< h.RCC_PLLCFGR_PLLQ_bit) &&& h.RCC_PLLCFGR_PLLQ =
      pllq <<< h.RCC_PLLCFGR_PLLQ_bit)

end Chip

end Distortos

/-! # Theorems -/

namespace Distortos

/-! ## Ring buffer: facts about valid states -/

namespace RingBuffer

theorem getReadBlock_snd_of_valid (rb : RingBuffer) (h : rb.Valid) :
    rb.getReadBlock.2 =
      if rb.readPosition_ ≤ rb.writePosition_ then rb.writePosition_ - rb.readPosition_
      else rb.size_ - rb.readPosition_ := by
  obtain ⟨h2, hC, hr, hw, h1, h3⟩ := h
  simp only [getReadBlock, usub, ge_iff_le]
  split <;> omega

theorem getWriteBlock_snd_of_valid (rb : RingBuffer) (h : rb.Valid) :
    rb.getWriteBlock.2 =
      if rb.writePosition_ < rb.readPosition_ then rb.readPosition_ - rb.writePosition_ - 2
      else min (rb.size_ - rb.writePosition_ + rb.readPosition_ - 2) (rb.size_ - rb.writePosition_) := by
  obtain ⟨h2, hC, hr, hw, h1, h3⟩ := h
  simp only [getWriteBlock, freeBytesPlus2, usub, uadd, gt_iff_lt]
  split <;> omega

theorem freeBytesPlus2_of_valid (rb : RingBuffer) (h : rb.Valid) :
    rb.freeBytesPlus2 =
      if rb.writePosition_ < rb.readPosition_ then rb.readPosition_ - rb.writePosition_
      else rb.size_ - rb.writePosition_ + rb.readPosition_ := by
  obtain ⟨h2, hC, hr, hw, h1, h3⟩ := h
  simp only [freeBytesPlus2, usub, uadd, gt_iff_lt]
  split <;> omega

theorem stored_of_valid (rb : RingBuffer) (h : rb.Valid) :
    rb.stored =
      if rb.readPosition_ ≤ rb.writePosition_ then rb.writePosition_ - rb.readPosition_
      else rb.writePosition_ + rb.size_ - rb.readPosition_ := by
  obtain ⟨h2, hC, hr, hw, h1, h3⟩ := h
  unfold stored
  split
  · next hle =>
    have e : rb.writePosition_ + rb.size_ - rb.readPosition_ =
        (rb.writePosition_ - rb.readPosition_) + rb.size_ := by omega
    rw [e, Nat.add_mod_right]
    exact Nat.mod_eq_of_lt (by omega)
  · next hlt =>
    exact Nat.mod_eq_of_lt (by omega)

/-- Reduction of a cursor that has advanced by at most one lap. -/
theorem wrap_cursor (x C : Nat) (hx : x ≤ C) :
    x % C = if x = C then 0 else x := by
  split
  · next h => rw [h, Nat.mod_self]
  · next h => exact Nat.mod_eq_of_lt (by omega)

theorem valid_cleared (buf : List Nat) (C : Nat) (h2 : 2 ≤ C) (hC : C < 4294967296) :
    (cleared buf C).Valid := by
  simp only [Valid, cleared]
  omega

theorem valid_increaseWritePosition (rb : RingBuffer) (n : Nat) (h : rb.Valid)
    (hn : n ≤ rb.getWriteBlock.2) : (rb.increaseWritePosition n).Valid := by
  rw [getWriteBlock_snd_of_valid rb h] at hn
  obtain ⟨h2, hC, hr, hw, h1, h3⟩ := h
  have hle : rb.writePosition_ + n ≤ rb.size_ := by
    split at hn <;> omega
  have e : uadd rb.writePosition_ n % rb.size_ =
      if rb.writePosition_ + n = rb.size_ then 0 else rb.writePosition_ + n := by
    have : uadd rb.writePosition_ n = rb.writePosition_ + n := by
      simp only [uadd]; omega
    rw [this]
    exact wrap_cursor _ _ hle
  simp only [Valid, increaseWritePosition, e]
  split at hn <;> split <;> omega

theorem valid_increaseReadPosition (rb : RingBuffer) (n : Nat) (h : rb.Valid)
    (hn : n ≤ rb.getReadBlock.2) : (rb.increaseReadPosition n).Valid := by
  rw [getReadBlock_snd_of_valid rb h] at hn
  obtain ⟨h2, hC, hr, hw, h1, h3⟩ := h
  have hle : rb.readPosition_ + n ≤ rb.size_ := by
    split at hn <;> omega
  have e : uadd rb.readPosition_ n % rb.size_ =
      if rb.readPosition_ + n = rb.size_ then 0 else rb.readPosition_ + n := by
    have : uadd rb.readPosition_ n = rb.readPosition_ + n := by
      simp only [uadd]; omega
    rw [this]
    exact wrap_cursor _ _ hle
  simp only [Valid, increaseReadPosition, e]
  split at hn <;> split <;> omega

theorem size_applyOp (rb rb' : RingBuffer) (op : CursorOp) (h : applyOp rb op = some rb') :
    rb'.size_ = rb.size_ := by
  cases op with
  | increaseWrite n =>
    simp only [applyOp] at h
    split at h
    · cases h; rfl
    · cases h
  | increaseRead n =>
    simp only [applyOp] at h
    split at h
    · cases h; rfl
    · cases h

theorem valid_applyOp (rb rb' : RingBuffer) (op : CursorOp) (hv : rb.Valid)
    (h : applyOp rb op = some rb') : rb'.Valid := by
  cases op with
  | increaseWrite n =>
    simp only [applyOp] at h
    split at h
    · next hn => cases h; exact valid_increaseWritePosition rb n hv hn
    · cases h
  | increaseRead n =>
    simp only [applyOp] at h
    split at h
    · next hn => cases h; exact valid_increaseReadPosition rb n hv hn
    · cases h

theorem valid_applyOps (ops : List CursorOp) (rb rb' : RingBuffer) (hv : rb.Valid)
    (h : applyOps rb ops = some rb') : rb'.Valid ∧ rb'.size_ = rb.size_ := by
  induction ops generalizing rb with
  | nil =>
    simp only [applyOps] at h
    cases h
    exact ⟨hv, rfl⟩
  | cons op ops ih =>
    simp only [applyOps] at h
    cases hop : applyOp rb op with
    | none => rw [hop] at h; cases h
    | some rb1 =>
      rw [hop] at h
      have := ih rb1 (valid_applyOp rb rb1 op hv hop) h
      exact ⟨this.1, this.2.trans (size_applyOp rb rb1 op hop)⟩

/-- C1: in every state reachable from the cleared state of a ring buffer of capacity `C ≥ 2` by
cursor increases that stay within the reported block lengths, at most `C - 2` bytes are stored,
and `getWriteBlock` reports length 0 exactly when `C - 2` bytes are stored. -/
theorem stored_le_and_getWriteBlock_zero_iff (buf : List Nat) (C : Nat) (ops : List CursorOp)
    (rb : RingBuffer) (h2 : 2 ≤ C) (hC : C < 4294967296)
    (h : applyOps (cleared buf C) ops = some rb) :
    rb.stored ≤ C - 2 ∧ (rb.getWriteBlock.2 = 0 ↔ rb.stored = C - 2) := by
  obtain ⟨hv, hs⟩ := valid_applyOps ops _ rb (valid_cleared buf C h2 hC) h
  have hs' : rb.size_ = C := hs
  rw [stored_of_valid rb hv, getWriteBlock_snd_of_valid rb hv]
  obtain ⟨h2, hC, hr, hw, h1, h3⟩ := hv
  subst hs'
  constructor
  · split <;> omega
  · split <;> split <;> omega

theorem stored_le_and_getWriteBlock_zero_iff_witness :
    (2 ≤ 8 ∧ 8 < 4294967296 ∧
      applyOps (fresh 8) [.increaseWrite 6, .increaseRead 2, .increaseWrite 2] =
        some ⟨List.replicate 8 0, 8, 2, 0⟩) ∧
    (stored ⟨List.replicate 8 0, 8, 2, 0⟩ ≤ 8 - 2 ∧
      ((getWriteBlock ⟨List.replicate 8 0, 8, 2, 0⟩).2 = 0 ↔
        stored ⟨List.replicate 8 0, 8, 2, 0⟩ = 8 - 2)) :=
  ⟨by decide, stored_le_and_getWriteBlock_zero_iff (List.replicate 8 0) 8
    [.increaseWrite 6, .increaseRead 2, .increaseWrite 2] ⟨List.replicate 8 0, 8, 2, 0⟩
    (by decide) (by decide) (by decide)⟩

/-- C2: in every state reachable from the cleared state of a ring buffer of capacity `C ≥ 2` by
cursor increases that stay within the reported block lengths, the read block and the write block
lie inside the storage, the value from which `getWriteBlock` subtracts 2 is at least 2 (the
unsigned subtraction does not wrap around), and an empty buffer has a read block of length 0. -/
theorem blocks_inside_storage (buf : List Nat) (C : Nat) (ops : List CursorOp)
    (rb : RingBuffer) (h2 : 2 ≤ C) (hC : C < 4294967296)
    (h : applyOps (cleared buf C) ops = some rb) :
    rb.readPosition_ + rb.getReadBlock.2 ≤ C ∧ rb.writePosition_ + rb.getWriteBlock.2 ≤ C ∧
      rb.getReadBlock.1 = rb.readPosition_ ∧ rb.getWriteBlock.1 = rb.writePosition_ ∧
      2 ≤ rb.freeBytesPlus2 ∧ (rb.isEmpty = true → rb.getReadBlock.2 = 0) := by
  obtain ⟨hv, hs⟩ := valid_applyOps ops _ rb (valid_cleared buf C h2 hC) h
  have hs' : rb.size_ = C := hs
  rw [getReadBlock_snd_of_valid rb hv, getWriteBlock_snd_of_valid rb hv,
    freeBytesPlus2_of_valid rb hv]
  obtain ⟨h2, hC, hr, hw, h1, h3⟩ := hv
  subst hs'
  refine ⟨?_, ?_, rfl, rfl, ?_, ?_⟩
  · split <;> omega
  · split <;> omega
  · split <;> omega
  · intro he
    simp only [isEmpty, beq_iff_eq] at he
    split <;> omega

theorem blocks_inside_storage_witness :
    (2 ≤ 8 ∧ 8 < 4294967296 ∧
      applyOps (fresh 8) [.increaseWrite 6, .increaseRead 6, .increaseWrite 2] =
        some ⟨List.replicate 8 0, 8, 6, 0⟩) ∧
    ((6 : Nat) + (getReadBlock ⟨List.replicate 8 0, 8, 6, 0⟩).2 ≤ 8 ∧
      (0 : Nat) + (getWriteBlock ⟨List.replicate 8 0, 8, 6, 0⟩).2 ≤ 8 ∧
      (getReadBlock ⟨List.replicate 8 0, 8, 6, 0⟩).1 = 6 ∧
      (getWriteBlock ⟨List.replicate 8 0, 8, 6, 0⟩).1 = 0 ∧
      2 ≤ freeBytesPlus2 ⟨List.replicate 8 0, 8, 6, 0⟩ ∧
      (isEmpty ⟨List.replicate 8 0, 8, 6, 0⟩ = true →
        (getReadBlock ⟨List.replicate 8 0, 8, 6, 0⟩).2 = 0)) :=
  ⟨by decide, blocks_inside_storage (List.replicate 8 0) 8
    [.increaseWrite 6, .increaseRead 6, .increaseWrite 2] ⟨List.replicate 8 0, 8, 6, 0⟩
    (by decide) (by decide) (by decide)⟩

end RingBuffer

namespace SerialPort

/-! ## open, close, read and write: argument and state checks -/

/-- C3 (as stated, refuted): a port whose reference count is at the maximum (255 here) is open,
and an `open` call with a different baud rate returns `EMFILE`, which is not `EINVAL`. -/
theorem open_mismatch_saturated_not_EINVAL :
    1 ≤ (quietPort (.fresh 8) (.fresh 8) 255 8).openCount_ ∧
      (quietPort (.fresh 8) (.fresh 8) 255 8).baudRate_ ≠ 115200 ∧
      («open» 255 (quietPort (.fresh 8) (.fresh 8) 255 8) 115200 8 0 false).1 = EMFILE ∧
      («open» 255 (quietPort (.fresh 8) (.fresh 8) 255 8) 115200 8 0 false).1 ≠ EINVAL := by
  decide

/-- C3 (amended): on a port with `1 ≤ openCount_` whose reference count is not at the maximum, an
`open` call whose (baudRate, characterLength, parity, _2StopBits) differs in at least one
component from the recorded configuration returns `EINVAL` and leaves the whole port, `openCount_`
included, unchanged; at the maximum the call returns `EMFILE` and also changes nothing. -/
theorem open_mismatch (maxCount : Nat) (p : SerialPort) (baudRate characterLength : Nat)
    (parity : UartParity) (_2StopBits : Bool) (hopen : 1 ≤ p.openCount_)
    (hdiff : p.baudRate_ ≠ baudRate ∨ p.characterLength_ ≠ characterLength ∨ p.parity_ ≠ parity ∨
      p._2StopBits_ ≠ _2StopBits) :
    (p.openCount_ ≠ maxCount →
      «open» maxCount p baudRate characterLength parity _2StopBits = (EINVAL, p)) ∧
    (p.openCount_ = maxCount →
      «open» maxCount p baudRate characterLength parity _2StopBits = (EMFILE, p)) := by
  constructor
  · intro hmax
    have h0 : p.openCount_ ≠ 0 := by omega
    simp only [«open», if_neg hmax, if_neg h0, if_pos hdiff]
  · intro hmax
    simp only [«open», if_pos hmax]

theorem open_mismatch_witness :
    (1 ≤ (quietPort (.fresh 8) (.fresh 8) 3 8).openCount_ ∧
      (quietPort (.fresh 8) (.fresh 8) 3 8).openCount_ ≠ 255) ∧
    «open» 255 (quietPort (.fresh 8) (.fresh 8) 3 8) 115200 8 0 false =
      (EINVAL, quietPort (.fresh 8) (.fresh 8) 3 8) :=
  ⟨by decide, (open_mismatch 255 (quietPort (.fresh 8) (.fresh 8) 3 8) 115200 8 0 false
    (by decide) (Or.inl (by decide))).1 (by decide)⟩

/-- C5 (as stated, refuted): on a closed port, `read` and `write` with a null buffer return
`EINVAL`, not `EBADF`. -/
theorem read_write_closed_null_not_EBADF :
    (quietPort (.fresh 8) (.fresh 8) 0 8).openCount_ = 0 ∧
      (read 1 (quietPort (.fresh 8) (.fresh 8) 0 8) none 4).map (fun t => t.ret) =
        some EINVAL ∧
      (write 1 (quietPort (.fresh 8) (.fresh 8) 0 8) none 4).map (fun t => t.ret) =
        some EINVAL ∧
      (read 1 (quietPort (.fresh 8) (.fresh 8) 0 8) (some [0, 0, 0, 0]) 0).map
        (fun t => t.ret) = some EINVAL ∧
      EINVAL ≠ EBADF := by
  decide

/-- C5 (amended): on a port with `openCount_ == 0`, `close` returns `EBADF`, `read` and `write`
called with a non-null buffer and a non-zero size return (`EBADF`, 0), and `read` and `write`
called with a null buffer or with size 0 return (`EINVAL`, 0); none of these calls changes the
port or makes a hardware call (the port, its trace included, is the same afterwards), whatever the
number of loop iterations allowed. -/
theorem closed_port_calls (fuel : Nat) (p : SerialPort) (buffer : List Nat) (size : Nat)
    (hclosed : p.openCount_ = 0) :
    close fuel p = some (EBADF, p) ∧
    (size ≠ 0 → read fuel p (some buffer) size = some ⟨EBADF, 0, buffer, p⟩) ∧
    (size ≠ 0 → write fuel p (some buffer) size = some ⟨EBADF, 0, buffer, p⟩) ∧
    read fuel p (some buffer) 0 = some ⟨EINVAL, 0, buffer, p⟩ ∧
    write fuel p (some buffer) 0 = some ⟨EINVAL, 0, buffer, p⟩ ∧
    read fuel p none size = some ⟨EINVAL, 0, [], p⟩ ∧
    write fuel p none size = some ⟨EINVAL, 0, [], p⟩ := by
  refine ⟨?_, ?_, ?_, ?_, ?_, ?_, ?_⟩
  · simp only [close, if_pos hclosed]
  · intro hs
    simp only [read, if_neg hs, if_pos hclosed]
  · intro hs
    simp only [write, if_neg hs, if_pos hclosed]
  · simp only [read, if_true]
  · simp only [write, if_true]
  · simp only [read]
  · simp only [write]

theorem closed_port_calls_witness :
    (quietPort (.fresh 8) (.fresh 8) 0 8).openCount_ = 0 ∧
    close 5 (quietPort (.fresh 8) (.fresh 8) 0 8) =
      some (EBADF, quietPort (.fresh 8) (.fresh 8) 0 8) ∧
    read 5 (quietPort (.fresh 8) (.fresh 8) 0 8) (some [0, 0]) 2 =
      some ⟨EBADF, 0, [0, 0], quietPort (.fresh 8) (.fresh 8) 0 8⟩ :=
  ⟨rfl, (closed_port_calls 5 (quietPort (.fresh 8) (.fresh 8) 0 8) [0, 0] 2 rfl).1,
    (closed_port_calls 5 (quietPort (.fresh 8) (.fresh 8) 0 8) [0, 0] 2 rfl).2.1
      (by decide)⟩

/-- C6: on an open port, a `read` or `write` call whose buffer pointer is null, whose size is 0,
or whose size is odd while `characterLength_ > 8`, returns (`EINVAL`, 0) and leaves the port as it
was: no cursor, progress flag or wake-up handle changes and the trace gains no hardware call. -/
theorem invalid_arguments (fuel : Nat) (p : SerialPort) (buffer : Option (List Nat)) (size : Nat)
    (hopen : 1 ≤ p.openCount_)
    (hbad : buffer = none ∨ size = 0 ∨ (p.characterLength_ > 8 ∧ size % 2 = 1)) :
    (∃ t, read fuel p buffer size = some t ∧ t.ret = EINVAL ∧ t.count = 0 ∧ t.port = p) ∧
    (∃ t, write fuel p buffer size = some t ∧ t.ret = EINVAL ∧ t.count = 0 ∧ t.port = p) := by
  have h0 : p.openCount_ ≠ 0 := by omega
  cases buffer with
  | none => exact ⟨⟨_, rfl, rfl, rfl, rfl⟩, ⟨_, rfl, rfl, rfl, rfl⟩⟩
  | some b =>
    by_cases hs : size = 0
    · simp only [read, write, if_pos hs]
      exact ⟨⟨_, rfl, rfl, rfl, rfl⟩, ⟨_, rfl, rfl, rfl, rfl⟩⟩
    · have hodd : p.characterLength_ > 8 ∧ size % 2 ≠ 0 := by
        rcases hbad with h | h | h
        · cases h
        · exact absurd h hs
        · exact ⟨h.1, by omega⟩
      simp only [read, write, if_neg hs, if_neg h0, if_pos hodd]
      exact ⟨⟨_, rfl, rfl, rfl, rfl⟩, ⟨_, rfl, rfl, rfl, rfl⟩⟩

theorem invalid_arguments_witness :
    (1 ≤ (quietPort (.fresh 8) (.fresh 8) 1 9).openCount_ ∧
      ((quietPort (.fresh 8) (.fresh 8) 1 9).characterLength_ > 8 ∧ 3 % 2 = 1)) ∧
    ((∃ t, read 5 (quietPort (.fresh 8) (.fresh 8) 1 9) (some [0, 0, 0]) 3 = some t ∧
        t.ret = EINVAL ∧ t.count = 0 ∧ t.port = quietPort (.fresh 8) (.fresh 8) 1 9) ∧
     (∃ t, write 5 (quietPort (.fresh 8) (.fresh 8) 1 9) (some [0, 0, 0]) 3 = some t ∧
        t.ret = EINVAL ∧ t.count = 0 ∧ t.port = quietPort (.fresh 8) (.fresh 8) 1 9)) :=
  ⟨by decide, invalid_arguments 5 (quietPort (.fresh 8) (.fresh 8) 1 9) (some [0, 0, 0]) 3
    (by decide) (Or.inr (Or.inr (by decide)))⟩

/-! ## open and close: reference counting -/

/-- C7: on a closed port, when the inbound or the outbound buffer has capacity below 4, `open`
returns `ENOBUFS` and leaves the port unchanged (no `start`, no `startRead`, `openCount_` still 0,
recorded configuration untouched); when both capacities are at least 4 and the hardware accepts
every call, the first `open` returns 0, calls `start` and then `startRead`, records the four
requested parameters and sets `openCount_` to 1. -/
theorem first_open (maxCount : Nat) (p : SerialPort) (baudRate characterLength : Nat)
    (parity : UartParity) (_2StopBits : Bool) (hmax : 0 < maxCount) (hclosed : p.openCount_ = 0) :
    ((p.readBuffer_.getSize < 4 ∨ p.writeBuffer_.getSize < 4) →
      «open» maxCount p baudRate characterLength parity _2StopBits = (ENOBUFS, p)) ∧
    (4 ≤ p.readBuffer_.getSize → 4 ≤ p.writeBuffer_.getSize → (∀ i, p.uart_.status i = 0) →
      «open» maxCount p baudRate characterLength parity _2StopBits =
        (0, { p with
          trace := p.trace ++ [.start baudRate characterLength parity _2StopBits] ++
            [.startRead p.readBuffer_.getWriteBlock.1
              (min (min p.readBuffer_.getWriteBlock.2 (p.readBuffer_.getSize / 2)) SIZE_MAX)],
          baudRate_ := baudRate, characterLength_ := characterLength, parity_ := parity,
          _2StopBits_ := _2StopBits, openCount_ := 1 })) := by
  have hne : p.openCount_ ≠ maxCount := by omega
  constructor
  · intro hsmall
    simp only [«open», if_neg hne, if_pos hclosed, if_pos hsmall]
  · intro hr hw hok
    have hbig : ¬ (p.readBuffer_.getSize < 4 ∨ p.writeBuffer_.getSize < 4) := by omega
    have h1 : (0 + 1) % (maxCount + 1) = 1 := Nat.mod_eq_of_lt (by omega)
    have h0m : ¬ (0 = maxCount) := by omega
    simp only [«open», if_neg hbig, uartStart, startReadWrapper,
      uartStartRead, emit, hok, ne_eq, not_true_eq_false, if_false, hclosed, h1, h0m, if_true]

theorem first_open_witness :
    (0 < 255 ∧ (quietPort (.fresh 8) (.fresh 8) 0 0).openCount_ = 0 ∧
      4 ≤ (quietPort (.fresh 8) (.fresh 8) 0 0).readBuffer_.getSize ∧
      4 ≤ (quietPort (.fresh 8) (.fresh 8) 0 0).writeBuffer_.getSize) ∧
    «open» 255 (quietPort (.fresh 8) (.fresh 8) 0 0) 9600 8 0 false =
      (0, { quietPort (.fresh 8) (.fresh 8) 0 8 with
        trace := [.start 9600 8 0 false, .startRead 0 4], openCount_ := 1 }) :=
  ⟨by decide, (first_open 255 (quietPort (.fresh 8) (.fresh 8) 0 0) 9600 8 0 false
    (by decide) rfl).2 (by decide) (by decide) (fun _ => rfl)⟩

theorem openCount_open_le (maxCount : Nat) (p : SerialPort) (baudRate characterLength : Nat)
    (parity : UartParity) (_2StopBits : Bool) (hle : p.openCount_ ≤ maxCount) :
    p.openCount_ ≤ («open» maxCount p baudRate characterLength parity _2StopBits).2.openCount_ ∧
    («open» maxCount p baudRate characterLength parity _2StopBits).2.openCount_ ≤ maxCount := by
  have h1 : ∀ ne : p.openCount_ ≠ maxCount,
      (p.openCount_ + 1) % (maxCount + 1) = p.openCount_ + 1 :=
    fun ne => Nat.mod_eq_of_lt (by omega)
  unfold «open»
  split
  · exact ⟨Nat.le_refl _, hle⟩
  · next hne =>
    split
    · split
      · exact ⟨Nat.le_refl _, hle⟩
      · simp only [uartStart, startReadWrapper, uartStartRead, emit]
        split
        · exact ⟨Nat.le_refl _, hle⟩
        · split
          · exact ⟨Nat.le_refl _, hle⟩
          · simp only [h1 hne]
            omega
    · split
      · exact ⟨Nat.le_refl _, hle⟩
      · simp only [h1 hne]
        omega

/-- C8: on a port whose `openCount_` equals the maximum value of its type, `open` returns `EMFILE`
for every argument list and leaves the port (hence `openCount_`) unchanged; and along every
sequence of `open` calls, whatever the hardware answers, `openCount_` never decreases and never
exceeds the maximum, so it never wraps around to 0. -/
theorem open_saturated (maxCount : Nat) (p : SerialPort) (calls : List OpenArgs)
    (hle : p.openCount_ ≤ maxCount) :
    (p.openCount_ = maxCount → ∀ (baudRate characterLength : Nat) (parity : UartParity)
      (_2StopBits : Bool),
      «open» maxCount p baudRate characterLength parity _2StopBits = (EMFILE, p)) ∧
    p.openCount_ ≤ (openAll maxCount p calls).openCount_ ∧
    (openAll maxCount p calls).openCount_ ≤ maxCount := by
  constructor
  · intro hmax baudRate characterLength parity _2StopBits
    simp only [«open», if_pos hmax]
  · induction calls generalizing p with
    | nil => exact ⟨Nat.le_refl _, hle⟩
    | cons a rest ih =>
      have h := openCount_open_le maxCount p a.baudRate a.characterLength a.parity a._2StopBits hle
      have h2 := ih («open» maxCount p a.baudRate a.characterLength a.parity a._2StopBits).2 h.2
      simp only [openAll]
      exact ⟨Nat.le_trans h.1 h2.1, h2.2⟩

theorem open_saturated_witness :
    (quietPort (.fresh 8) (.fresh 8) 255 8).openCount_ ≤ 255 ∧
    «open» 255 (quietPort (.fresh 8) (.fresh 8) 255 8) 9600 8 0 false =
      (EMFILE, quietPort (.fresh 8) (.fresh 8) 255 8) ∧
    (quietPort (.fresh 8) (.fresh 8) 255 8).openCount_ ≤
      (openAll 255 (quietPort (.fresh 8) (.fresh 8) 255 8)
        [⟨9600, 8, 0, false⟩, ⟨9600, 8, 0, false⟩]).openCount_ :=
  ⟨by decide,
    (open_saturated 255 (quietPort (.fresh 8) (.fresh 8) 255 8)
      [⟨9600, 8, 0, false⟩, ⟨9600, 8, 0, false⟩] (by decide)).1 rfl 9600 8 0 false,
    (open_saturated 255 (quietPort (.fresh 8) (.fresh 8) 255 8)
      [⟨9600, 8, 0, false⟩, ⟨9600, 8, 0, false⟩] (by decide)).2.1⟩

theorem open_first_eq_opened (maxCount : Nat) (p : SerialPort) (a : OpenArgs)
    (hmax : 0 < maxCount) (hclosed : p.openCount_ = 0) (hr : 4 ≤ p.readBuffer_.getSize)
    (hw : 4 ≤ p.writeBuffer_.getSize) (hok : ∀ i, p.uart_.status i = 0) :
    «open» maxCount p a.baudRate a.characterLength a.parity a._2StopBits = (0, opened p a 1) := by
  have hbig : ¬ (p.readBuffer_.getSize < 4 ∨ p.writeBuffer_.getSize < 4) := by omega
  have h1 : (0 + 1) % (maxCount + 1) = 1 := Nat.mod_eq_of_lt (by omega)
  have h0m : ¬ (0 = maxCount) := by omega
  simp only [«open», if_neg hbig, uartStart, startReadWrapper, uartStartRead, emit, hok, ne_eq,
    not_true_eq_false, if_false, hclosed, h1, h0m, if_true, opened, List.append_assoc,
    List.singleton_append]

theorem open_again_opened (maxCount : Nat) (p : SerialPort) (a : OpenArgs) (m : Nat)
    (hm : 1 ≤ m) (hlt : m < maxCount) :
    «open» maxCount (opened p a m) a.baudRate a.characterLength a.parity a._2StopBits =
      (0, opened p a (m + 1)) := by
  have hne : ¬ (m = maxCount) := by omega
  have h0 : ¬ (m = 0) := by omega
  have h1 : (m + 1) % (maxCount + 1) = m + 1 := Nat.mod_eq_of_lt (by omega)
  simp only [«open», opened, if_neg hne, if_neg h0, ne_eq, not_true_eq_false, or_self, if_false,
    h1]

theorem openTimes_opened (maxCount : Nat) (p : SerialPort) (a : OpenArgs) (n m : Nat)
    (hm : 1 ≤ m) (hle : m + n ≤ maxCount) :
    openTimes maxCount a n (opened p a m) = (List.replicate n 0, opened p a (m + n)) := by
  induction n generalizing m with
  | zero => rfl
  | succ n ih =>
    simp only [openTimes, open_again_opened maxCount p a m hm (by omega),
      ih (m + 1) (by omega) (by omega), List.replicate_succ]
    rw [Nat.add_assoc, Nat.add_comm 1 n]

theorem close_not_last (fuel : Nat) (p : SerialPort) (h : 2 ≤ p.openCount_) :
    close fuel p = some (0, { p with openCount_ := p.openCount_ - 1 }) := by
  have h0 : ¬ (p.openCount_ = 0) := by omega
  have h1 : ¬ (p.openCount_ = 1) := by omega
  simp only [close, if_neg h0, if_neg h1]

theorem close_last (fuel : Nat) (p : SerialPort) (h : p.openCount_ = 1)
    (htx : p.transmitInProgress_ = false) (hok : ∀ i, p.uart_.status i = 0) :
    close fuel p = some (0, shutDown p) := by
  have hl : closeLoop fuel p = some (none, p) := by
    cases fuel <;> simp [closeLoop, htx]
  have h0 : ¬ (p.openCount_ = 0) := by omega
  simp only [close, hl, uartStopRead, uartStop, emit, hok, ne_eq,
    not_true_eq_false, if_false, shutDown, List.append_assoc, List.singleton_append, h,
    Nat.one_ne_zero, if_true, Nat.sub_self, List.cons_append, List.nil_append]

theorem closeTimes_not_last (fuel : Nat) (k : Nat) (p : SerialPort) (h : k < p.openCount_) :
    closeTimes fuel k p =
      some (List.replicate k 0, { p with openCount_ := p.openCount_ - k }) := by
  induction k generalizing p with
  | zero => rfl
  | succ k ih =>
    have e : p.openCount_ - 1 - k = p.openCount_ - (k + 1) := by omega
    simp only [closeTimes, close_not_last fuel p (by omega)]
    rw [ih { p with openCount_ := p.openCount_ - 1 } (by simp only; omega)]
    simp only [e, List.replicate_succ]

theorem closeTimes_last (fuel : Nat) (k : Nat) (p : SerialPort) (h : p.openCount_ = k + 1)
    (htx : p.transmitInProgress_ = false) (hok : ∀ i, p.uart_.status i = 0) :
    closeTimes fuel (k + 1) p = some (List.replicate (k + 1) 0, shutDown p) := by
  induction k generalizing p with
  | zero =>
    simp only [closeTimes, close_last fuel p h htx hok, List.replicate_succ, List.replicate_zero]
  | succ k ih =>
    have e := ih { p with openCount_ := p.openCount_ - 1 } (by simp only; omega) htx hok
    rw [closeTimes, close_not_last fuel p (by omega)]
    simp only [e, List.replicate_succ]
    rfl

/-- C4: starting from a closed port whose buffers both have capacity at least 4, with a hardware
that accepts every call and no transmission in progress, for every `N ≥ 1` below the maximum of the
reference counter: `N` calls of `open` with identical arguments all return 0 and invoke hardware
`start` (and `startRead`) exactly once; from the port so opened, each of the first `k < N` calls
of `close` returns 0 and changes nothing but `openCount_`, which it decrements by one; and the
`N` calls of `close` all return 0, the last one invoking `stopRead` and hardware `stop` exactly
once, clearing both buffers and leaving `openCount_` at 0. -/
theorem open_close_cycle (maxCount fuel N : Nat) (a : OpenArgs) (p : SerialPort)
    (hN : 1 ≤ N) (hNmax : N < maxCount) (hclosed : p.openCount_ = 0)
    (hr : 4 ≤ p.readBuffer_.getSize) (hw : 4 ≤ p.writeBuffer_.getSize)
    (hok : ∀ i, p.uart_.status i = 0) (htx : p.transmitInProgress_ = false) :
    openTimes maxCount a N p = (List.replicate N 0, opened p a N) ∧
    (∀ k, k < N → closeTimes fuel k (opened p a N) =
      some (List.replicate k 0, { opened p a N with openCount_ := N - k })) ∧
    closeTimes fuel N (opened p a N) = some (List.replicate N 0, shutDown (opened p a N)) ∧
    (shutDown (opened p a N)).trace =
      p.trace ++ [.start a.baudRate a.characterLength a.parity a._2StopBits,
        .startRead p.readBuffer_.getWriteBlock.1
          (min (min p.readBuffer_.getWriteBlock.2 (p.readBuffer_.getSize / 2)) SIZE_MAX),
        .stopRead, .stop] ∧
    (shutDown (opened p a N)).openCount_ = 0 ∧
    (shutDown (opened p a N)).readBuffer_ = p.readBuffer_.clear ∧
    (shutDown (opened p a N)).writeBuffer_ = p.writeBuffer_.clear := by
  obtain ⟨n, rfl⟩ : ∃ n, N = n + 1 := ⟨N - 1, by omega⟩
  refine ⟨?_, ?_, ?_, ?_, rfl, rfl, rfl⟩
  · have h1 := open_first_eq_opened maxCount p a (by omega) hclosed hr hw hok
    have h2 := openTimes_opened maxCount p a n 1 (Nat.le_refl 1) (by omega)
    simp only [openTimes, h1, h2, List.replicate_succ]
    rw [Nat.add_comm 1 n]
  · intro k hk
    exact closeTimes_not_last fuel k (opened p a (n + 1)) hk
  · exact closeTimes_last fuel n (opened p a (n + 1)) rfl htx hok
  · simp only [shutDown, opened, List.append_assoc, List.cons_append, List.nil_append]

theorem open_close_cycle_witness :
    (1 ≤ 2 ∧ 2 < 255 ∧ (quietPort (.fresh 8) (.fresh 8) 0 0).openCount_ = 0) ∧
    openTimes 255 ⟨9600, 8, 0, false⟩ 2 (quietPort (.fresh 8) (.fresh 8) 0 0) =
      ([0, 0], opened (quietPort (.fresh 8) (.fresh 8) 0 0) ⟨9600, 8, 0, false⟩ 2) ∧
    closeTimes 0 2 (opened (quietPort (.fresh 8) (.fresh 8) 0 0) ⟨9600, 8, 0, false⟩ 2) =
      some ([0, 0],
        shutDown (opened (quietPort (.fresh 8) (.fresh 8) 0 0) ⟨9600, 8, 0, false⟩ 2)) ∧
    (shutDown (opened (quietPort (.fresh 8) (.fresh 8) 0 0) ⟨9600, 8, 0, false⟩ 2)).trace =
      [.start 9600 8 0 false, .startRead 0 4, .stopRead, .stop] :=
  ⟨by decide,
    (open_close_cycle 255 0 2 ⟨9600, 8, 0, false⟩ (quietPort (.fresh 8) (.fresh 8) 0 0)
      (by decide) (by decide) rfl (by decide) (by decide) (fun _ => rfl) rfl).1,
    (open_close_cycle 255 0 2 ⟨9600, 8, 0, false⟩ (quietPort (.fresh 8) (.fresh 8) 0 0)
      (by decide) (by decide) rfl (by decide) (by decide) (fun _ => rfl) rfl).2.2.1,
    by decide⟩

end SerialPort

/-! ## readFromRingBuffer -/

namespace RingBuffer

theorem inStorage_of_valid (rb : RingBuffer) (h : rb.Valid) : rb.InStorage :=
  ⟨h.2.1, h.2.2.1, h.2.2.2.1⟩

theorem getReadBlock_snd_of_inStorage (rb : RingBuffer) (h : rb.InStorage) :
    rb.getReadBlock.2 =
      if rb.readPosition_ ≤ rb.writePosition_ then rb.writePosition_ - rb.readPosition_
      else rb.size_ - rb.readPosition_ := by
  obtain ⟨hC, hr, hw⟩ := h
  simp only [getReadBlock, usub, ge_iff_le]
  split <;> omega

theorem stored_of_inStorage (rb : RingBuffer) (h : rb.InStorage) :
    rb.stored =
      if rb.readPosition_ ≤ rb.writePosition_ then rb.writePosition_ - rb.readPosition_
      else rb.writePosition_ + rb.size_ - rb.readPosition_ := by
  obtain ⟨hC, hr, hw⟩ := h
  unfold stored
  split
  · next hle =>
    have e : rb.writePosition_ + rb.size_ - rb.readPosition_ =
        (rb.writePosition_ - rb.readPosition_) + rb.size_ := by omega
    rw [e, Nat.add_mod_right]
    exact Nat.mod_eq_of_lt (by omega)
  · next hlt =>
    exact Nat.mod_eq_of_lt (by omega)

theorem readPosition_increaseReadPosition (rb : RingBuffer) (n : Nat) (h : rb.InStorage)
    (hn : n ≤ rb.getReadBlock.2) :
    (rb.increaseReadPosition n).readPosition_ =
      if rb.readPosition_ + n = rb.size_ then 0 else rb.readPosition_ + n := by
  rw [getReadBlock_snd_of_inStorage rb h] at hn
  obtain ⟨hC, hr, hw⟩ := h
  have hle : rb.readPosition_ + n ≤ rb.size_ := by
    split at hn <;> omega
  have : uadd rb.readPosition_ n = rb.readPosition_ + n := by
    simp only [uadd]; omega
  simp only [increaseReadPosition, this]
  exact wrap_cursor _ _ hle

theorem inStorage_increaseReadPosition (rb : RingBuffer) (n : Nat) (h : rb.InStorage)
    (hn : n ≤ rb.getReadBlock.2) : (rb.increaseReadPosition n).InStorage := by
  have e := readPosition_increaseReadPosition rb n h hn
  rw [getReadBlock_snd_of_inStorage rb h] at hn
  obtain ⟨hC, hr, hw⟩ := h
  refine ⟨hC, ?_, hw⟩
  rw [e]
  show _ < rb.size_
  split_ifs at hn ⊢ <;> omega

theorem stored_increaseReadPosition (rb : RingBuffer) (n : Nat) (h : rb.InStorage)
    (hn : n ≤ rb.getReadBlock.2) :
    (rb.increaseReadPosition n).stored = rb.stored - n := by
  have hv := inStorage_increaseReadPosition rb n h hn
  have e := readPosition_increaseReadPosition rb n h hn
  rw [stored_of_inStorage _ hv, stored_of_inStorage _ h, e]
  rw [getReadBlock_snd_of_inStorage rb h] at hn
  obtain ⟨hC, hr, hw⟩ := h
  show (if _ ≤ rb.writePosition_ then rb.writePosition_ - _ else rb.writePosition_ + rb.size_ - _) = _
  split_ifs at hn ⊢ <;> omega

theorem getReadBlock_le_stored (rb : RingBuffer) (h : rb.InStorage) :
    rb.getReadBlock.2 ≤ rb.stored ∧ (rb.getReadBlock.2 = 0 → rb.stored = 0) := by
  rw [stored_of_inStorage _ h, getReadBlock_snd_of_inStorage rb h]
  obtain ⟨hC, hr, hw⟩ := h
  split <;> omega

end RingBuffer

theorem readFromRingBufferLoop_stop (off size fuel : Nat) (rb : RingBuffer) (buffer : List Nat)
    (bytesRead : Nat) (hc : ¬ (rb.getReadBlock.2 ≠ 0 ∧ bytesRead ≠ size)) :
    readFromRingBufferLoop off size fuel rb buffer bytesRead = ⟨rb, buffer, bytesRead⟩ := by
  cases fuel <;> simp only [readFromRingBufferLoop, if_neg hc]

theorem readFromRingBufferLoop_zero (off size : Nat) (rb : RingBuffer) (buffer : List Nat)
    (bytesRead : Nat) :
    readFromRingBufferLoop off size 0 rb buffer bytesRead = ⟨rb, buffer, bytesRead⟩ := by
  simp only [readFromRingBufferLoop, ite_self]

theorem readFromRingBufferLoop_step (off size fuel : Nat) (rb : RingBuffer) (buffer : List Nat)
    (bytesRead : Nat) (hc : rb.getReadBlock.2 ≠ 0 ∧ bytesRead ≠ size) :
    readFromRingBufferLoop off size (fuel + 1) rb buffer bytesRead =
      readFromRingBufferLoop off size fuel
        (rb.increaseReadPosition (min rb.getReadBlock.2 (usub size bytesRead)))
        (memcpy buffer (off + bytesRead)
          (slice rb.buffer_ rb.getReadBlock.1 (min rb.getReadBlock.2 (usub size bytesRead))))
        (uadd bytesRead (min rb.getReadBlock.2 (usub size bytesRead))) := by
  simp only [readFromRingBufferLoop, if_pos hc]

theorem readFromRingBufferLoop_count_le (off size : Nat) (hsz : size < 4294967296) (fuel : Nat)
    (rb : RingBuffer) (buffer : List Nat) (bytesRead : Nat) (hle : bytesRead ≤ size) :
    bytesRead ≤ (readFromRingBufferLoop off size fuel rb buffer bytesRead).count ∧
    (readFromRingBufferLoop off size fuel rb buffer bytesRead).count ≤ size := by
  induction fuel generalizing rb buffer bytesRead with
  | zero =>
    rw [readFromRingBufferLoop_zero]
    exact ⟨Nat.le_refl _, hle⟩
  | succ fuel ih =>
    by_cases hc : rb.getReadBlock.2 ≠ 0 ∧ bytesRead ≠ size
    · rw [readFromRingBufferLoop_step off size fuel rb buffer bytesRead hc]
      have hu : usub size bytesRead = size - bytesRead := by
        simp only [usub]; omega
      have hm : min rb.getReadBlock.2 (usub size bytesRead) ≤ size - bytesRead := by
        rw [hu]; exact Nat.min_le_right _ _
      have ha : uadd bytesRead (min rb.getReadBlock.2 (usub size bytesRead)) =
          bytesRead + min rb.getReadBlock.2 (usub size bytesRead) := by
        simp only [uadd]; omega
      rw [ha]
      have := ih (rb.increaseReadPosition (min rb.getReadBlock.2 (usub size bytesRead)))
        (memcpy buffer (off + bytesRead)
          (slice rb.buffer_ rb.getReadBlock.1 (min rb.getReadBlock.2 (usub size bytesRead))))
        (bytesRead + min rb.getReadBlock.2 (usub size bytesRead)) (by omega)
      omega
    · rw [readFromRingBufferLoop_stop off size _ rb buffer bytesRead hc]
      exact ⟨Nat.le_refl _, hle⟩

open RingBuffer in
theorem readFromRingBufferLoop_of_inStorage (off size : Nat) (hsz : size < 4294967296) (fuel : Nat)
    (rb : RingBuffer) (buffer : List Nat) (bytesRead : Nat) (hv : rb.InStorage)
    (hle : bytesRead ≤ size) (hfuel : size - bytesRead ≤ fuel) :
    (readFromRingBufferLoop off size fuel rb buffer bytesRead).count =
      bytesRead + min (size - bytesRead) rb.stored ∧
    (readFromRingBufferLoop off size fuel rb buffer bytesRead).ringBuffer.InStorage ∧
    (readFromRingBufferLoop off size fuel rb buffer bytesRead).ringBuffer.stored =
      rb.stored - min (size - bytesRead) rb.stored := by
  induction fuel generalizing rb buffer bytesRead with
  | zero =>
    have e : bytesRead = size := by omega
    rw [readFromRingBufferLoop_zero]
    dsimp only
    exact ⟨by omega, hv, by omega⟩
  | succ fuel ih =>
    have hb := getReadBlock_le_stored rb hv
    by_cases hc : rb.getReadBlock.2 ≠ 0 ∧ bytesRead ≠ size
    · rw [readFromRingBufferLoop_step off size fuel rb buffer bytesRead hc]
      have hu : usub size bytesRead = size - bytesRead := by
        simp only [usub]; omega
      have hm1 : min rb.getReadBlock.2 (usub size bytesRead) ≤ size - bytesRead := by
        rw [hu]; exact Nat.min_le_right _ _
      have hm2 : min rb.getReadBlock.2 (usub size bytesRead) ≤ rb.getReadBlock.2 :=
        Nat.min_le_left _ _
      have hpos : 1 ≤ min rb.getReadBlock.2 (usub size bytesRead) := by
        rw [hu]
        have := hc.1
        have := hc.2
        omega
      have ha : uadd bytesRead (min rb.getReadBlock.2 (usub size bytesRead)) =
          bytesRead + min rb.getReadBlock.2 (usub size bytesRead) := by
        simp only [uadd]; omega
      rw [ha]
      have hv' := inStorage_increaseReadPosition rb _ hv hm2
      have hs' := stored_increaseReadPosition rb _ hv hm2
      have := ih (rb.increaseReadPosition (min rb.getReadBlock.2 (usub size bytesRead)))
        (memcpy buffer (off + bytesRead)
          (slice rb.buffer_ rb.getReadBlock.1 (min rb.getReadBlock.2 (usub size bytesRead))))
        (bytesRead + min rb.getReadBlock.2 (usub size bytesRead)) hv' (by omega) (by omega)
      rw [hs'] at this
      refine ⟨?_, this.2.1, ?_⟩
      · rw [this.1]; omega
      · rw [this.2.2]; omega
    · rw [readFromRingBufferLoop_stop off size _ rb buffer bytesRead hc]
      dsimp only
      have : rb.getReadBlock.2 = 0 ∨ bytesRead = size := by
        by_cases h1 : rb.getReadBlock.2 = 0
        · exact Or.inl h1
        · by_cases h2 : bytesRead = size
          · exact Or.inr h2
          · exact absurd ⟨h1, h2⟩ hc
      refine ⟨?_, hv, ?_⟩
      · rcases this with h | h
        · have := hb.2 h; omega
        · omega
      · rcases this with h | h
        · have := hb.2 h; omega
        · omega

theorem readFromRingBuffer_count_le (rb : RingBuffer) (buffer : List Nat) (off size : Nat)
    (hsz : size < 4294967296) : (readFromRingBuffer rb buffer off size).count ≤ size :=
  (readFromRingBufferLoop_count_le off size hsz size rb buffer 0 (Nat.zero_le _)).2

theorem readFromRingBuffer_of_inStorage (rb : RingBuffer) (buffer : List Nat) (off size : Nat)
    (hsz : size < 4294967296) (hv : rb.InStorage) :
    (readFromRingBuffer rb buffer off size).count = min size rb.stored ∧
    (readFromRingBuffer rb buffer off size).ringBuffer.InStorage ∧
    (readFromRingBuffer rb buffer off size).ringBuffer.stored = rb.stored - min size rb.stored := by
  have := readFromRingBufferLoop_of_inStorage off size hsz size rb buffer 0 hv (Nat.zero_le _)
    (by omega)
  simpa [readFromRingBuffer] using this

namespace SerialPort

/-! ## read -/

theorem waits_append (a b : List Effect) : waits (a ++ b) = waits a + waits b := by
  simp only [waits, List.countP_append]

@[simp] theorem trace_arm (p : SerialPort) (id : HandleId) : (p.arm id).trace = p.trace := by
  cases id <;> rfl

@[simp] theorem schedule_arm (p : SerialPort) (id : HandleId) :
    (p.arm id).schedule = p.schedule := by
  cases id <;> rfl

@[simp] theorem uart_arm (p : SerialPort) (id : HandleId) : (p.arm id).uart_ = p.uart_ := by
  cases id <;> rfl

@[simp] theorem readBuffer_arm (p : SerialPort) (id : HandleId) :
    (p.arm id).readBuffer_ = p.readBuffer_ := by
  cases id <;> rfl

@[simp] theorem trace_disarm (p : SerialPort) (id : HandleId) :
    (p.disarm id).trace = p.trace := by
  cases id <;> rfl

@[simp] theorem schedule_disarm (p : SerialPort) (id : HandleId) :
    (p.disarm id).schedule = p.schedule := by
  cases id <;> rfl

@[simp] theorem uart_disarm (p : SerialPort) (id : HandleId) :
    (p.disarm id).uart_ = p.uart_ := by
  cases id <;> rfl

@[simp] theorem readBuffer_disarm (p : SerialPort) (id : HandleId) :
    (p.disarm id).readBuffer_ = p.readBuffer_ := by
  cases id <;> rfl

@[simp] theorem trace_drain (p : SerialPort) (buffer : List Nat) (size bytesRead : Nat) :
    (drain p buffer size bytesRead).port.trace = p.trace := rfl

@[simp] theorem schedule_drain (p : SerialPort) (buffer : List Nat) (size bytesRead : Nat) :
    (drain p buffer size bytesRead).port.schedule = p.schedule := rfl

@[simp] theorem waits_restartRead (p : SerialPort) (minSize bytesRead : Nat) :
    waits (restartRead p minSize bytesRead).2.trace = waits p.trace := by
  simp only [restartRead, startReadWrapper, uartStartRead, uartStopRead, emit, waits_append]
  rfl

@[simp] theorem schedule_restartRead (p : SerialPort) (minSize bytesRead : Nat) :
    (restartRead p minSize bytesRead).2.schedule = p.schedule := rfl

theorem bytesRead_drain_bounds (p : SerialPort) (buffer : List Nat) (size bytesRead : Nat)
    (hsz : size < 4294967296) (hle : bytesRead ≤ size) :
    bytesRead ≤ (drain p buffer size bytesRead).bytes ∧
    (drain p buffer size bytesRead).bytes ≤ size := by
  have hu : usub size bytesRead = size - bytesRead := by simp only [usub]; omega
  have h := readFromRingBuffer_count_le p.readBuffer_ buffer bytesRead (usub size bytesRead)
    (by rw [hu]; omega)
  rw [hu] at h
  simp only [drain, uadd, hu]
  omega

theorem bytesRead_drain_of_inStorage (p : SerialPort) (buffer : List Nat) (size bytesRead : Nat)
    (hsz : size < 4294967296) (hle : bytesRead ≤ size) (hv : p.readBuffer_.InStorage) :
    (drain p buffer size bytesRead).bytes =
      bytesRead + min (size - bytesRead) p.readBuffer_.stored := by
  have hu : usub size bytesRead = size - bytesRead := by simp only [usub]; omega
  have h := (readFromRingBuffer_of_inStorage p.readBuffer_ buffer bytesRead (usub size bytesRead)
    (by rw [hu]; omega) hv).1
  rw [hu] at h
  simp only [drain, uadd, hu, h]
  omega

theorem readLoop_done (size minSize fuel : Nat) (p : SerialPort) (buffer : List Nat)
    (bytesRead : Nat) (h : ¬ bytesRead < minSize) :
    readLoop size minSize fuel p buffer bytesRead = some ⟨0, bytesRead, buffer, p⟩ := by
  cases fuel <;> simp only [readLoop, if_neg h]

theorem readLoop_succ (size minSize fuel : Nat) (p : SerialPort) (buffer : List Nat)
    (bytesRead : Nat) (h : bytesRead < minSize) :
    readLoop size minSize (fuel + 1) p buffer bytesRead =
      match readIteration size minSize p buffer bytesRead with
      | .returned t => some t
      | .blocked => none
      | .next s => readLoop size minSize fuel s.port s.buffer s.bytes := by
  rw [readLoop]
  simp only [if_pos h]

theorem readIteration_full (size minSize : Nat) (p : SerialPort) (buffer : List Nat)
    (bytesRead : Nat) (d1 : Progress) (h1 : drain p buffer size bytesRead = d1)
    (hfull : d1.bytes = size) :
    readIteration size minSize p buffer bytesRead =
      .returned ⟨0, d1.bytes, d1.buffer, d1.port⟩ := by
  rw [readIteration, h1]
  simp only [if_pos hfull]

theorem readIteration_failed (size minSize : Nat) (p : SerialPort) (buffer : List Nat)
    (bytesRead : Nat) (d1 : Progress) (r : Int × SerialPort)
    (h1 : drain p buffer size bytesRead = d1) (hnf : ¬ d1.bytes = size)
    (h2 : restartRead (d1.port.arm .readSemaphore) minSize d1.bytes = r) (hr : r.1 ≠ 0) :
    readIteration size minSize p buffer bytesRead =
      .returned ⟨r.1, d1.bytes, d1.buffer, r.2.disarm .readSemaphore⟩ := by
  rw [readIteration, h1]
  simp only [if_neg hnf, h2, if_pos hr]

theorem readIteration_enough (size minSize : Nat) (p : SerialPort) (buffer : List Nat)
    (bytesRead : Nat) (d1 : Progress) (r : Int × SerialPort) (d2 : Progress)
    (h1 : drain p buffer size bytesRead = d1) (hnf : ¬ d1.bytes = size)
    (h2 : restartRead (d1.port.arm .readSemaphore) minSize d1.bytes = r) (hr : ¬ r.1 ≠ 0)
    (h3 : drain r.2 d1.buffer size d1.bytes = d2) (hge : ¬ d2.bytes < minSize) :
    readIteration size minSize p buffer bytesRead =
      .next ⟨d2.port.disarm .readSemaphore, d2.buffer, d2.bytes⟩ := by
  rw [readIteration, h1]
  simp only [if_neg hnf, h2, if_neg hr, h3, if_neg hge]

theorem readIteration_wait (size minSize : Nat) (p : SerialPort) (buffer : List Nat)
    (bytesRead : Nat) (d1 : Progress) (r : Int × SerialPort) (d2 : Progress)
    (h1 : drain p buffer size bytesRead = d1) (hnf : ¬ d1.bytes = size)
    (h2 : restartRead (d1.port.arm .readSemaphore) minSize d1.bytes = r) (hr : ¬ r.1 ≠ 0)
    (h3 : drain r.2 d1.buffer size d1.bytes = d2) (hlt : d2.bytes < minSize) :
    readIteration size minSize p buffer bytesRead =
      match d2.port.wait .readSemaphore with
      | none => .blocked
      | some w =>
        if w.1 ≠ 0 then .returned ⟨w.1, d2.bytes, d2.buffer, w.2.disarm .readSemaphore⟩
        else .next ⟨w.2.disarm .readSemaphore, d2.buffer, d2.bytes⟩ := by
  rw [readIteration, h1]
  simp only [if_neg hnf, h2, if_neg hr, h3, if_pos hlt]

/-- C9: on an open port with `characterLength_ <= 8` whose inbound buffer (cursors inside the
storage) holds `k >= 1` bytes, every valid `read(buffer, size)` returns (as soon as one loop iteration is allowed) without any
call of `Semaphore::wait` and without consuming anything of the schedule of waits, and its count
is at least `min(size, k)`; when the buffer holds at least `size` bytes the result is
(0, `size`). -/
theorem read_does_not_wait (fuel : Nat) (p : SerialPort) (buffer : List Nat) (size k : Nat)
    (hopen : 1 ≤ p.openCount_) (hlen : p.characterLength_ ≤ 8) (hv : p.readBuffer_.InStorage)
    (hk : p.readBuffer_.stored = k) (hk1 : 1 ≤ k) (hs : 1 ≤ size) (hsz : size < 4294967296) :
    ∃ t, read (fuel + 1) p (some buffer) size = some t ∧ min size k ≤ t.count ∧ t.count ≤ size ∧
      waits t.port.trace = waits p.trace ∧ t.port.schedule = p.schedule ∧
      (size ≤ k → t.ret = 0 ∧ t.count = size) := by
  have hs0 : ¬ (size = 0) := by omega
  have ho0 : ¬ (p.openCount_ = 0) := by omega
  have hodd : ¬ (p.characterLength_ > 8 ∧ size % 2 ≠ 0) := by omega
  simp only [read, if_neg hs0, if_neg ho0, if_neg hodd, if_pos hlen]
  rw [readLoop_succ size 1 fuel p buffer 0 (by omega)]
  -- first drain
  obtain ⟨d1, h1⟩ : ∃ d, drain p buffer size 0 = d := ⟨_, rfl⟩
  have hb1 : d1.bytes = min size k := by
    rw [← h1, bytesRead_drain_of_inStorage p buffer size 0 hsz (Nat.zero_le _) hv, hk]
    omega
  have ht1 : d1.port.trace = p.trace := by rw [← h1, trace_drain]
  have hs1 : d1.port.schedule = p.schedule := by rw [← h1, schedule_drain]
  by_cases hfull : d1.bytes = size
  · rw [readIteration_full size 1 p buffer 0 d1 h1 hfull]
    exact ⟨_, rfl, by simp only [hb1, Nat.le_refl], by simp only [hfull, Nat.le_refl], by rw [ht1],
      hs1, fun _ => ⟨rfl, hfull⟩⟩
  · have hlt : k < size := by omega
    -- stop and restart of the read operation
    obtain ⟨r, h2⟩ : ∃ r, restartRead (d1.port.arm .readSemaphore) 1 d1.bytes = r := ⟨_, rfl⟩
    have ht2 : waits r.2.trace = waits p.trace := by
      rw [← h2, waits_restartRead, trace_arm, ht1]
    have hs2 : r.2.schedule = p.schedule := by
      rw [← h2, schedule_restartRead, schedule_arm, hs1]
    by_cases hr : r.1 ≠ 0
    · rw [readIteration_failed size 1 p buffer 0 d1 r h1 hfull h2 hr]
      refine ⟨_, rfl, ?_, ?_, ?_, ?_, ?_⟩
      · simp only [hb1, Nat.le_refl]
      · simp only [hb1]; omega
      · simp only [trace_disarm, ht2]
      · simp only [schedule_disarm, hs2]
      · intro h; omega
    · -- second drain
      obtain ⟨d2, h3⟩ : ∃ d, drain r.2 d1.buffer size d1.bytes = d := ⟨_, rfl⟩
      have hb2 := bytesRead_drain_bounds r.2 d1.buffer size d1.bytes hsz (by omega)
      rw [h3] at hb2
      have ht3 : d2.port.trace = r.2.trace := by rw [← h3, trace_drain]
      have hs3 : d2.port.schedule = r.2.schedule := by rw [← h3, schedule_drain]
      have hge : ¬ d2.bytes < 1 := by omega
      rw [readIteration_enough size 1 p buffer 0 d1 r d2 h1 hfull h2 hr h3 hge]
      simp only []
      rw [readLoop_done _ _ _ _ _ _ hge]
      refine ⟨_, rfl, ?_, hb2.2, ?_, ?_, ?_⟩
      · simp only []; omega
      · simp only [trace_disarm, ht3, ht2]
      · simp only [schedule_disarm, hs3, hs2]
      · intro h; omega

theorem read_does_not_wait_witness :
    ∃ t, read 1 (quietPort ⟨[1, 2, 3, 4, 5, 6, 0, 0], 8, 0, 6⟩ (.fresh 8) 1 8)
        (some [0, 0, 0, 0, 0, 0]) 6 = some t ∧
      t.ret = 0 ∧ t.count = 6 ∧
      waits t.port.trace =
        waits (quietPort ⟨[1, 2, 3, 4, 5, 6, 0, 0], 8, 0, 6⟩ (.fresh 8) 1 8).trace := by
  obtain ⟨t, h1, _, _, h4, _, h6⟩ := read_does_not_wait 0
    (quietPort ⟨[1, 2, 3, 4, 5, 6, 0, 0], 8, 0, 6⟩ (.fresh 8) 1 8) [0, 0, 0, 0, 0, 0] 6 6
    (by decide) (by decide) (by unfold RingBuffer.InStorage; decide) (by decide) (by decide)
    (by decide) (by decide)
  exact ⟨t, h1, (h6 (Nat.le_refl 6)).1, (h6 (Nat.le_refl 6)).2, h4⟩

end SerialPort

/-! ## read with characters of more than 8 bits -/

theorem even_mod_of_even (x C : Nat) (hx : x % 2 = 0) (hC : C % 2 = 0) : x % C % 2 = 0 := by
  rw [Nat.mod_mod_of_dvd x (Nat.dvd_of_mod_eq_zero hC)]
  exact hx

namespace RingBuffer

theorem even_getReadBlock (rb : RingBuffer) (h : rb.EvenCursors) : rb.getReadBlock.2 % 2 = 0 := by
  obtain ⟨hC, hr, hw⟩ := h
  simp only [getReadBlock, usub]
  split <;> omega

theorem evenCursors_increaseReadPosition (rb : RingBuffer) (n : Nat) (h : rb.EvenCursors)
    (hn : n % 2 = 0) : (rb.increaseReadPosition n).EvenCursors := by
  obtain ⟨hC, hr, hw⟩ := h
  refine ⟨hC, ?_, hw⟩
  exact even_mod_of_even _ _ (by simp only [uadd]; omega) hC

theorem evenCursors_increaseWritePosition (rb : RingBuffer) (n : Nat) (h : rb.EvenCursors)
    (hn : n % 2 = 0) : (rb.increaseWritePosition n).EvenCursors := by
  obtain ⟨hC, hr, hw⟩ := h
  refine ⟨hC, hr, ?_⟩
  exact even_mod_of_even _ _ (by simp only [uadd]; omega) hC

end RingBuffer

open RingBuffer in
theorem even_readFromRingBufferLoop (off size : Nat) (hsize : size % 2 = 0) (fuel : Nat)
    (rb : RingBuffer) (buffer : List Nat) (bytesRead : Nat) (h : rb.EvenCursors)
    (hb : bytesRead % 2 = 0) :
    (readFromRingBufferLoop off size fuel rb buffer bytesRead).count % 2 = 0 ∧
    (readFromRingBufferLoop off size fuel rb buffer bytesRead).ringBuffer.EvenCursors := by
  induction fuel generalizing rb buffer bytesRead with
  | zero =>
    rw [readFromRingBufferLoop_zero]
    exact ⟨hb, h⟩
  | succ fuel ih =>
    by_cases hc : rb.getReadBlock.2 ≠ 0 ∧ bytesRead ≠ size
    · rw [readFromRingBufferLoop_step off size fuel rb buffer bytesRead hc]
      have hblock := even_getReadBlock rb h
      have hcopy : min rb.getReadBlock.2 (usub size bytesRead) % 2 = 0 := by
        have : usub size bytesRead % 2 = 0 := by simp only [usub]; omega
        omega
      exact ih _ _ _ (evenCursors_increaseReadPosition rb _ h hcopy)
        (by simp only [uadd]; omega)
    · rw [readFromRingBufferLoop_stop off size _ rb buffer bytesRead hc]
      exact ⟨hb, h⟩

namespace SerialPort

theorem evenCursors_drain (p : SerialPort) (buffer : List Nat) (size bytesRead : Nat)
    (hsize : size % 2 = 0) (hb : bytesRead % 2 = 0) (h : p.readBuffer_.EvenCursors) :
    (drain p buffer size bytesRead).bytes % 2 = 0 ∧
    (drain p buffer size bytesRead).port.readBuffer_.EvenCursors := by
  have hu : usub size bytesRead % 2 = 0 := by simp only [usub]; omega
  have := even_readFromRingBufferLoop bytesRead (usub size bytesRead) hu (usub size bytesRead)
    p.readBuffer_ buffer 0 h rfl
  refine ⟨?_, this.2⟩
  have h1 := this.1
  simp only [drain, uadd, readFromRingBuffer]
  omega

@[simp] theorem schedule_emit (p : SerialPort) (e : Effect) : (p.emit e).schedule = p.schedule :=
  rfl

@[simp] theorem uart_emit (p : SerialPort) (e : Effect) : (p.emit e).uart_ = p.uart_ := rfl

@[simp] theorem readBuffer_emit (p : SerialPort) (e : Effect) :
    (p.emit e).readBuffer_ = p.readBuffer_ := rfl

@[simp] theorem schedule_setHandle (p : SerialPort) (id : HandleId) (h : Handle) :
    (p.setHandle id h).schedule = p.schedule := by
  cases id <;> rfl

@[simp] theorem uart_setHandle (p : SerialPort) (id : HandleId) (h : Handle) :
    (p.setHandle id h).uart_ = p.uart_ := by
  cases id <;> rfl

@[simp] theorem readBuffer_setHandle (p : SerialPort) (id : HandleId) (h : Handle) :
    (p.setHandle id h).readBuffer_ = p.readBuffer_ := by
  cases id <;> rfl

@[simp] theorem schedule_postAndClear (p : SerialPort) (id : HandleId) :
    (p.postAndClear id).schedule = p.schedule := by
  unfold postAndClear
  split
  · rw [schedule_setHandle, schedule_emit]
  · rfl

@[simp] theorem uart_postAndClear (p : SerialPort) (id : HandleId) :
    (p.postAndClear id).uart_ = p.uart_ := by
  unfold postAndClear
  split
  · rw [uart_setHandle, uart_emit]
  · rfl

@[simp] theorem readBuffer_postAndClear (p : SerialPort) (id : HandleId) :
    (p.postAndClear id).readBuffer_ = p.readBuffer_ := by
  unfold postAndClear
  split
  · rw [readBuffer_setHandle, readBuffer_emit]
  · rfl

@[simp] theorem schedule_startReadWrapper (p : SerialPort) (limit : Nat) :
    (p.startReadWrapper limit).2.schedule = p.schedule := rfl

@[simp] theorem uart_startReadWrapper (p : SerialPort) (limit : Nat) :
    (p.startReadWrapper limit).2.uart_ = p.uart_ := rfl

@[simp] theorem readBuffer_startReadWrapper (p : SerialPort) (limit : Nat) :
    (p.startReadWrapper limit).2.readBuffer_ = p.readBuffer_ := rfl

@[simp] theorem schedule_startWriteWrapper (p : SerialPort) :
    (p.startWriteWrapper).2.schedule = p.schedule := rfl

@[simp] theorem uart_startWriteWrapper (p : SerialPort) :
    (p.startWriteWrapper).2.uart_ = p.uart_ := rfl

@[simp] theorem readBuffer_startWriteWrapper (p : SerialPort) :
    (p.startWriteWrapper).2.readBuffer_ = p.readBuffer_ := rfl

theorem frame_deliver (p : SerialPort) (e : Event) :
    (p.deliver e).schedule = p.schedule ∧ (p.deliver e).uart_ = p.uart_ := by
  cases e with
  | readComplete n =>
    simp only [deliver, readCompleteEvent]
    split <;> simp
  | writeComplete n =>
    simp only [deliver, writeCompleteEvent]
    split <;> simp
  | transmitComplete => simp [deliver, transmitCompleteEvent]
  | receiveError s => simp [deliver, receiveErrorEvent]

theorem evenCursors_deliver (p : SerialPort) (e : Event)
    (he : ∀ n, e = .readComplete n → n % 2 = 0) (h : p.readBuffer_.EvenCursors) :
    (p.deliver e).readBuffer_.EvenCursors := by
  cases e with
  | readComplete n =>
    have hn : n % 4294967296 % 2 = 0 := by
      have := he n rfl
      omega
    have := RingBuffer.evenCursors_increaseWritePosition p.readBuffer_ _ h hn
    simp only [deliver, readCompleteEvent]
    split <;> simpa using this
  | writeComplete n =>
    simp only [deliver, writeCompleteEvent]
    split <;> simpa using h
  | transmitComplete => simpa [deliver, transmitCompleteEvent] using h
  | receiveError s => simpa [deliver, receiveErrorEvent] using h

theorem frame_deliverAll (es : List Event) (p : SerialPort) :
    (p.deliverAll es).schedule = p.schedule ∧ (p.deliverAll es).uart_ = p.uart_ := by
  induction es generalizing p with
  | nil => exact ⟨rfl, rfl⟩
  | cons e es ih =>
    have h1 := frame_deliver p e
    have h2 := ih (p.deliver e)
    simp only [deliverAll, List.foldl_cons] at h2 ⊢
    exact ⟨h2.1.trans h1.1, h2.2.trans h1.2⟩

theorem evenCursors_deliverAll (es : List Event) (p : SerialPort)
    (he : ∀ n, Event.readComplete n ∈ es → n % 2 = 0) (h : p.readBuffer_.EvenCursors) :
    (p.deliverAll es).readBuffer_.EvenCursors := by
  induction es generalizing p with
  | nil => exact h
  | cons e es ih =>
    have h1 := evenCursors_deliver p e
      (fun n hn => he n (by rw [hn]; exact List.mem_cons_self _ _)) h
    have h2 := ih (p.deliver e) (fun n hn => he n (List.mem_cons_of_mem _ hn)) h1
    simpa only [deliverAll, List.foldl_cons] using h2

theorem even_restartRead (p : SerialPort) (minSize bytesRead : Nat)
    (h : p.readBuffer_.EvenCursors) (hc : EvenCounts p) :
    (restartRead p minSize bytesRead).2.readBuffer_.EvenCursors ∧
    EvenCounts (restartRead p minSize bytesRead).2 := by
  have hn : p.uart_.received p.trace.length % 4294967296 % 2 = 0 := by
    have := hc.1 p.trace.length
    omega
  exact ⟨RingBuffer.evenCursors_increaseWritePosition p.readBuffer_ _ h hn, hc⟩

theorem even_wait (p : SerialPort) (id : HandleId) (w : Int × SerialPort)
    (hw : p.wait id = some w) (h : p.readBuffer_.EvenCursors) (hc : EvenCounts p) :
    w.2.readBuffer_.EvenCursors ∧ EvenCounts w.2 := by
  unfold wait at hw
  simp only [] at hw
  split at hw
  · cases hw
    simp only [readBuffer_setHandle, readBuffer_emit]
    exact ⟨h, by simpa only [EvenCounts, uart_setHandle, schedule_setHandle] using hc⟩
  · split at hw
    · cases hw
    · next ws rest hsched =>
      have hsched' : p.schedule = ws :: rest := hsched
      have hev : ∀ n, Event.readComplete n ∈ ws.events → n % 2 = 0 :=
        fun n hn => hc.2 ws (by rw [hsched']; exact List.mem_cons_self _ _) n hn
      have hrest : ∀ w ∈ rest, ∀ n, Event.readComplete n ∈ w.events → n % 2 = 0 :=
        fun w hw' => hc.2 w (by rw [hsched']; exact List.mem_cons_of_mem _ hw')
      have hf := frame_deliverAll ws.events { p.emit (.wait id) with schedule := rest }
      have he := evenCursors_deliverAll ws.events { p.emit (.wait id) with schedule := rest } hev h
      have hc2 : EvenCounts (deliverAll { p.emit (.wait id) with schedule := rest } ws.events) := by
        refine ⟨?_, ?_⟩
        · rw [hf.2]; exact hc.1
        · rw [hf.1]; exact hrest
      split at hw
      · cases hw
        exact ⟨he, hc2⟩
      · split at hw
        · cases hw
          simp only [readBuffer_setHandle]
          exact ⟨he, by simpa only [EvenCounts, uart_setHandle, schedule_setHandle] using hc2⟩
        · cases hw

theorem even_readLoop (size minSize : Nat) (hsize : size % 2 = 0) (fuel : Nat) (p : SerialPort)
    (buffer : List Nat) (bytesRead : Nat) (t : Transfer) (h : p.readBuffer_.EvenCursors)
    (hc : EvenCounts p) (hb : bytesRead % 2 = 0)
    (ht : readLoop size minSize fuel p buffer bytesRead = some t) : t.count % 2 = 0 := by
  induction fuel generalizing p buffer bytesRead with
  | zero =>
    by_cases hlt : bytesRead < minSize
    · simp only [readLoop, if_pos hlt] at ht
      cases ht
    · rw [readLoop_done _ _ _ _ _ _ hlt] at ht
      cases ht
      exact hb
  | succ fuel ih =>
    by_cases hlt : bytesRead < minSize
    · rw [readLoop_succ size minSize fuel p buffer bytesRead hlt] at ht
      obtain ⟨d1, h1⟩ : ∃ d, drain p buffer size bytesRead = d := ⟨_, rfl⟩
      have hd1 := evenCursors_drain p buffer size bytesRead hsize hb h
      have hc1 : EvenCounts (drain p buffer size bytesRead).port := hc
      rw [h1] at hd1 hc1
      by_cases hfull : d1.bytes = size
      · rw [readIteration_full size minSize p buffer bytesRead d1 h1 hfull] at ht
        cases ht
        exact hd1.1
      · obtain ⟨r, h2⟩ : ∃ r, restartRead (d1.port.arm .readSemaphore) minSize d1.bytes = r :=
          ⟨_, rfl⟩
        have hr2 := even_restartRead (d1.port.arm .readSemaphore) minSize d1.bytes
          (by rw [readBuffer_arm]; exact hd1.2)
          (by simpa only [EvenCounts, uart_arm, schedule_arm] using hc1)
        rw [h2] at hr2
        by_cases hr : r.1 ≠ 0
        · rw [readIteration_failed size minSize p buffer bytesRead d1 r h1 hfull h2 hr] at ht
          cases ht
          exact hd1.1
        · obtain ⟨d2, h3⟩ : ∃ d, drain r.2 d1.buffer size d1.bytes = d := ⟨_, rfl⟩
          have hd2 := evenCursors_drain r.2 d1.buffer size d1.bytes hsize hd1.1 hr2.1
          have hc2 : EvenCounts (drain r.2 d1.buffer size d1.bytes).port := hr2.2
          rw [h3] at hd2 hc2
          by_cases hge : d2.bytes < minSize
          · rw [readIteration_wait size minSize p buffer bytesRead d1 r d2 h1 hfull h2 hr h3 hge]
              at ht
            cases hwait : d2.port.wait .readSemaphore with
            | none =>
              rw [hwait] at ht
              cases ht
            | some w =>
              rw [hwait] at ht
              have hw := even_wait d2.port .readSemaphore w hwait hd2.2 hc2
              by_cases hw1 : w.1 ≠ 0
              · simp only [if_pos hw1] at ht
                cases ht
                exact hd2.1
              · simp only [if_neg hw1] at ht
                exact ih (w.2.disarm .readSemaphore) d2.buffer d2.bytes
                  (by rw [readBuffer_disarm]; exact hw.1)
                  (by simpa only [EvenCounts, uart_disarm, schedule_disarm] using hw.2)
                  hd2.1 ht
          · rw [readIteration_enough size minSize p buffer bytesRead d1 r d2 h1 hfull h2 hr h3 hge]
              at ht
            exact ih (d2.port.disarm .readSemaphore) d2.buffer d2.bytes
              (by rw [readBuffer_disarm]; exact hd2.2)
              (by simpa only [EvenCounts, uart_disarm, schedule_disarm] using hc2)
              hd2.1 ht
    · rw [readLoop_done _ _ _ _ _ _ hlt] at ht
      cases ht
      exact hb

/-- C10 (as stated, refuted): a closed port with cleared buffers of capacity 8 is opened for
9-bit characters (`open` returns 0 and arms a background read of 4 bytes); the hardware then
reports 3 received bytes from `stopRead`, and `read(buffer, 4)` returns (0, 3), an odd count. -/
theorem read_returns_odd_count :
    («open» 255 { quietPort (.fresh 8) (.fresh 8) 0 0 with
        uart_ := ⟨fun _ => 0, fun _ => 3⟩ } 9600 9 0 false).1 = 0 ∧
    («open» 255 { quietPort (.fresh 8) (.fresh 8) 0 0 with
        uart_ := ⟨fun _ => 0, fun _ => 3⟩ } 9600 9 0 false).2.characterLength_ > 8 ∧
    («open» 255 { quietPort (.fresh 8) (.fresh 8) 0 0 with
        uart_ := ⟨fun _ => 0, fun _ => 3⟩ } 9600 9 0 false).2.trace =
      [.start 9600 9 0 false, .startRead 0 4] ∧
    (read 1 («open» 255 { quietPort (.fresh 8) (.fresh 8) 0 0 with
        uart_ := ⟨fun _ => 0, fun _ => 3⟩ } 9600 9 0 false).2 (some [0, 0, 0, 0]) 4).map
      (fun t => (t.ret, t.count)) = some (0, 3) ∧
    3 % 2 = 1 := by
  decide

/-- C10 (amended): on a port with `characterLength_ > 8` whose inbound buffer has an even capacity
and even cursors, when the hardware reports only even byte counts (from `stopRead` and with every
`readCompleteEvent`), the count returned by `read` is never odd, whatever the arguments, the
statuses of the hardware calls and of the waits, and the number of loop iterations. -/
theorem read_count_even (fuel : Nat) (p : SerialPort) (buffer : Option (List Nat)) (size : Nat)
    (t : Transfer) (hlen : p.characterLength_ > 8) (h : p.readBuffer_.EvenCursors)
    (hc : EvenCounts p) (ht : read fuel p buffer size = some t) : t.count % 2 = 0 := by
  cases buffer with
  | none =>
    simp only [read] at ht
    cases ht
    rfl
  | some b =>
    simp only [read] at ht
    split at ht
    · cases ht; rfl
    · split at ht
      · cases ht; rfl
      · split at ht
        · cases ht; rfl
        · next hodd =>
          have hsize : size % 2 = 0 := by omega
          exact even_readLoop size _ hsize fuel p b 0 t h hc rfl ht

theorem read_count_even_witness :
    ∃ t, read 2 { quietPort (.fresh 8) (.fresh 8) 1 9 with
        schedule := [⟨[.readComplete 2], 0⟩] } (some [0, 0, 0, 0]) 4 = some t ∧
      t.count % 2 = 0 := by
  have hs : (read 2 { quietPort (.fresh 8) (.fresh 8) 1 9 with
      schedule := [⟨[.readComplete 2], 0⟩] } (some [0, 0, 0, 0]) 4).isSome = true := by decide
  obtain ⟨t, ht⟩ := Option.isSome_iff_exists.mp hs
  refine ⟨t, ht, read_count_even 2
    { quietPort (.fresh 8) (.fresh 8) 1 9 with
      schedule := [⟨[.readComplete 2], 0⟩] } (some [0, 0, 0, 0]) 4 t (by decide)
    ⟨rfl, rfl, rfl⟩ ⟨fun _ => rfl, ?_⟩ ht⟩
  intro w hw n hn
  simp only [List.mem_singleton] at hw
  subst hw
  simp only [List.mem_singleton, Event.readComplete.injEq] at hn
  omega

/-! ## Failure paths of open, write and read; destruction -/

/-- C14 (the code at the failing input): a closed port with buffers of capacity 8 whose hardware
accepts `start` and refuses `startRead` with status 5. `open` returns 5 and leaves `openCount_` at
0 and the recorded configuration untouched, but the hardware has been started and is not stopped:
the trace holds `start` and no `stop`, and neither the destructor nor `close` will stop it, since
both do nothing on a port with `openCount_ == 0`. -/
theorem open_failed_startRead_leaves_uart_started :
    («open» 255 { quietPort (.fresh 8) (.fresh 8) 0 0 with
        uart_ := ⟨fun i => if i = 1 then 5 else 0, fun _ => 0⟩ } 9600 8 1 true).1 = 5 ∧
    («open» 255 { quietPort (.fresh 8) (.fresh 8) 0 0 with
        uart_ := ⟨fun i => if i = 1 then 5 else 0, fun _ => 0⟩ } 9600 8 1 true).2.openCount_ = 0 ∧
    («open» 255 { quietPort (.fresh 8) (.fresh 8) 0 0 with
        uart_ := ⟨fun i => if i = 1 then 5 else 0, fun _ => 0⟩ } 9600 8 1 true).2.parity_ = 0 ∧
    («open» 255 { quietPort (.fresh 8) (.fresh 8) 0 0 with
        uart_ := ⟨fun i => if i = 1 then 5 else 0, fun _ => 0⟩ } 9600 8 1 true).2.trace =
      [.start 9600 8 1 true, .startRead 0 4] ∧
    (destructor («open» 255 { quietPort (.fresh 8) (.fresh 8) 0 0 with
        uart_ := ⟨fun i => if i = 1 then 5 else 0, fun _ => 0⟩ } 9600 8 1 true).2).trace =
      [.start 9600 8 1 true, .startRead 0 4] ∧
    (close 1 («open» 255 { quietPort (.fresh 8) (.fresh 8) 0 0 with
        uart_ := ⟨fun i => if i = 1 then 5 else 0, fun _ => 0⟩ } 9600 8 1 true).2).map
      (fun r => (r.1, r.2.trace)) = some (EBADF, [.start 9600 8 1 true, .startRead 0 4]) := by
  decide

/-- C16 (the code at the failing input): an open port with an empty outbound buffer whose
hardware refuses `startWrite` with status 5. `write(buffer, 1)` returns (5, 1) and leaves
`writeInProgress_` and `transmitInProgress_` true although the only `startWrite` of the trace was
refused, so no write request is in the hands of the hardware and it has nothing to shift out. -/
theorem write_failed_startWrite_leaves_flags_set :
    (write 1 { quietPort (.fresh 8) (.fresh 8) 1 8 with uart_ := ⟨fun _ => 5, fun _ => 0⟩ }
      (some [7]) 1).map
      (fun t => (t.ret, t.count, t.port.trace, t.port.writeInProgress_,
        t.port.transmitInProgress_)) = some (5, 1, [.startWrite 0 1], true, true) ∧
    ({ quietPort (.fresh 8) (.fresh 8) 1 8 with
        uart_ := ⟨fun _ => 5, fun _ => 0⟩ } : SerialPort).uart_.status 0 ≠ 0 := by
  decide

/-- C17 (the code at the failing input): a closed port with buffers of capacity 8 and a hardware
that accepts every call is opened; the hardware completes the armed read of 4 bytes and then the
re-armed read of 2 bytes, which fills the inbound buffer, so `readCompleteEvent` arms no further
read. `read(buffer, 2)` then returns (0, 2) from its first drain: the port is open, the inbound
buffer is not full (`getWriteBlock` reports 2 free bytes), and no read operation is armed. -/
theorem read_leaves_reception_stopped :
    (read 1 ((((«open» 255 (quietPort (.fresh 8) (.fresh 8) 0 0) 9600 8 0 false).2.deliver
        (.readComplete 4)).deliver (.readComplete 2))) (some [0, 0]) 2).map
      (fun t => (t.ret, t.count, t.port.trace)) =
      some (0, 2,
        [.start 9600 8 0 false, .startRead 0 4, .interrupt (.readComplete 4), .startRead 4 2,
          .interrupt (.readComplete 2)]) ∧
    (read 1 ((((«open» 255 (quietPort (.fresh 8) (.fresh 8) 0 0) 9600 8 0 false).2.deliver
        (.readComplete 4)).deliver (.readComplete 2))) (some [0, 0]) 2).map
      (fun t => (t.port.openCount_, t.port.readBuffer_.getWriteBlock.2,
        t.port.readBuffer_.isFull, readArmed t.port)) = some (1, 2, false, false) := by
  decide

/-- C18 (as stated, refuted): on an open port without transmission in progress the last `close`
calls `stopRead` and `stop`, while the destructor calls `stopRead`, `stopWrite` and `stop`; and
on an open port with a transmission in progress, with nothing scheduled, `close` waits (it never
returns) while the destructor stops the hardware without any wait. -/
theorem destructor_differs_from_close :
    (close 1 (quietPort (.fresh 8) (.fresh 8) 1 8)).map (fun r => (r.1, r.2.trace)) =
      some (0, [.stopRead, .stop]) ∧
    (destructor (quietPort (.fresh 8) (.fresh 8) 1 8)).trace = [.stopRead, .stopWrite, .stop] ∧
    (close 1 { quietPort (.fresh 8) (.fresh 8) 1 8 with transmitInProgress_ := true }).isNone ∧
    (destructor { quietPort (.fresh 8) (.fresh 8) 1 8 with transmitInProgress_ := true }).trace =
      [.stopRead, .stopWrite, .stop] := by
  decide

/-- C18 (amended): the destructor of a port with `openCount_ >= 1` calls `stopRead`, `stopWrite`
and `stop`, in this order, without waiting for a transmission in progress and without any other
change of the port (the last `close` waits for the end of the transmission and calls `stopRead`
and `stop`); the destructor of a port with `openCount_ == 0` changes nothing and makes no
hardware call. -/
theorem destructor_shutdown (p : SerialPort) :
    (1 ≤ p.openCount_ →
      destructor p = { p with trace := p.trace ++ [.stopRead, .stopWrite, .stop] } ∧
      waits (destructor p).trace = waits p.trace) ∧
    (p.openCount_ = 0 → destructor p = p) := by
  constructor
  · intro h
    have h0 : ¬ p.openCount_ = 0 := by omega
    have e : destructor p = { p with trace := p.trace ++ [.stopRead, .stopWrite, .stop] } := by
      simp only [destructor, if_neg h0, uartStopRead, uartStopWrite, uartStop, emit,
        List.append_assoc, List.singleton_append, List.cons_append, List.nil_append]
    refine ⟨e, ?_⟩
    rw [e]
    simp only [waits_append]
    rfl
  · intro h
    simp only [destructor, if_pos h]

theorem destructor_shutdown_witness :
    (1 ≤ (quietPort (.fresh 8) (.fresh 8) 2 8).openCount_ ∧
      (quietPort (.fresh 8) (.fresh 8) 0 8).openCount_ = 0) ∧
    destructor (quietPort (.fresh 8) (.fresh 8) 2 8) =
      { quietPort (.fresh 8) (.fresh 8) 2 8 with trace := [.stopRead, .stopWrite, .stop] } ∧
    destructor (quietPort (.fresh 8) (.fresh 8) 0 8) = quietPort (.fresh 8) (.fresh 8) 0 8 :=
  ⟨by decide, ((destructor_shutdown (quietPort (.fresh 8) (.fresh 8) 2 8)).1 (by decide)).1,
    (destructor_shutdown (quietPort (.fresh 8) (.fresh 8) 0 8)).2 rfl⟩

/-! ## Properties that survive interrupts and waits -/

theorem Stable.startReadWrapper {P : SerialPort → Prop} (hP : Stable P) (p : SerialPort)
    (limit : Nat) (h : P p) : P (p.startReadWrapper limit).2 :=
  hP.emit p _ (fun _ hne => by cases hne) h

theorem Stable.startWriteWrapper {P : SerialPort → Prop} (hP : Stable P) (p : SerialPort)
    (h : P p) : P (p.startWriteWrapper).2 :=
  hP.emit _ _ (fun _ hne => by cases hne) (hP.writeFlag _ true (hP.transmitFlag p true h))

theorem Stable.deliver {P : SerialPort → Prop} (hP : Stable P) (p : SerialPort) (e : Event)
    (h : P p) : P (p.deliver e) := by
  have h0 := hP.emit p (.interrupt e) (fun _ hne => by cases hne) h
  cases e with
  | readComplete n =>
    have h1 := hP.post _ .readSemaphore (hP.received _ (n % 4294967296) h0)
    simp only [SerialPort.deliver, readCompleteEvent]
    split
    · exact h1
    · exact hP.startReadWrapper _ _ h1
  | writeComplete n =>
    have h1 := hP.post _ .writeSemaphore (hP.written _ (n % 4294967296) h0)
    simp only [SerialPort.deliver, writeCompleteEvent]
    split
    · exact hP.writeFlag _ false h1
    · exact hP.startWriteWrapper _ h1
  | transmitComplete =>
    exact hP.transmitFlag _ false (hP.post _ .transmitSemaphore h0)
  | receiveError s => exact h0

theorem Stable.deliverAll {P : SerialPort → Prop} (hP : Stable P) (es : List Event)
    (p : SerialPort) (h : P p) : P (p.deliverAll es) := by
  induction es generalizing p with
  | nil => exact h
  | cons e es ih => exact ih (p.deliver e) (hP.deliver p e h)

theorem Stable.wait {P : SerialPort → Prop} (hP : Stable P) (p : SerialPort) (id : HandleId)
    (w : Int × SerialPort) (hw : p.wait id = some w) (h : P p) : P w.2 := by
  have h0 := hP.emit p (.wait id) (fun _ hne => by cases hne) h
  unfold SerialPort.wait at hw
  simp only [] at hw
  split at hw
  · cases hw
    exact hP.consume _ id h0
  · split at hw
    · cases hw
    · next ws rest hsched =>
      have h1 := hP.deliverAll ws.events _ (hP.schedule _ rest h0)
      split at hw
      · cases hw
        exact h1
      · split at hw
        · cases hw
          exact hP.consume _ id h1
        · cases hw

/-! ## The loops of close, read and write, one iteration at a time -/

theorem closeLoop_done (fuel : Nat) (p : SerialPort) (h : ¬ p.transmitInProgress_ = true) :
    closeLoop fuel p = some (none, p) := by
  cases fuel <;> simp only [closeLoop, if_neg h]

theorem closeLoop_zero (p : SerialPort) (h : p.transmitInProgress_ = true) :
    closeLoop 0 p = none := by
  simp only [closeLoop, if_pos h]

theorem closeLoop_succ_returned (fuel : Nat) (p : SerialPort) (r : Int × SerialPort)
    (h : p.transmitInProgress_ = true) (hit : closeIteration p = .returned r) :
    closeLoop (fuel + 1) p = some (some r.1, r.2) := by
  rw [closeLoop]
  simp only [if_pos h, hit]

theorem closeLoop_succ_blocked (fuel : Nat) (p : SerialPort)
    (h : p.transmitInProgress_ = true) (hit : closeIteration p = .blocked) :
    closeLoop (fuel + 1) p = none := by
  rw [closeLoop]
  simp only [if_pos h, hit]

theorem closeLoop_succ_next (fuel : Nat) (p q : SerialPort)
    (h : p.transmitInProgress_ = true) (hit : closeIteration p = .next q) :
    closeLoop (fuel + 1) p = closeLoop fuel q := by
  rw [closeLoop]
  simp only [if_pos h, hit]

theorem closeIteration_returned (p : SerialPort) (r : Int × SerialPort)
    (h : closeIteration p = .returned r) :
    ∃ w, (p.arm .transmitSemaphore).wait .transmitSemaphore = some w ∧ w.1 ≠ 0 ∧
      r = (w.1, w.2.disarm .transmitSemaphore) := by
  unfold closeIteration at h
  simp only [] at h
  split at h
  · split at h
    · cases h
    · next w hw =>
      split at h
      · next hne =>
        cases h
        exact ⟨w, hw, hne, rfl⟩
      · cases h
  · cases h

theorem closeIteration_next (p q : SerialPort) (h : closeIteration p = .next q) :
    (∃ w, (p.arm .transmitSemaphore).wait .transmitSemaphore = some w ∧ w.1 = 0 ∧
      q = w.2.disarm .transmitSemaphore) ∨
    (¬ (p.arm .transmitSemaphore).transmitInProgress_ = true ∧
      q = (p.arm .transmitSemaphore).disarm .transmitSemaphore) := by
  unfold closeIteration at h
  simp only [] at h
  split at h
  · split at h
    · cases h
    · next w hw =>
      split at h
      · cases h
      · next hne =>
        cases h
        exact Or.inl ⟨w, hw, by simpa using hne, rfl⟩
  · next hn =>
    cases h
    exact Or.inr ⟨hn, rfl⟩

theorem closeLoop_induct (I : SerialPort → Prop) (R : Option Int × SerialPort → Prop)
    (hexit : ∀ q, I q → ¬ q.transmitInProgress_ = true → R (none, q))
    (hret : ∀ q r, I q → q.transmitInProgress_ = true → closeIteration q = .returned r →
      R (some r.1, r.2))
    (hnext : ∀ q q', I q → q.transmitInProgress_ = true → closeIteration q = .next q' → I q')
    (fuel : Nat) (p : SerialPort) (r : Option Int × SerialPort) (hp : I p)
    (h : closeLoop fuel p = some r) : R r := by
  induction fuel generalizing p with
  | zero =>
    by_cases htx : p.transmitInProgress_ = true
    · rw [closeLoop_zero p htx] at h
      cases h
    · rw [closeLoop_done 0 p htx] at h
      cases h
      exact hexit p hp htx
  | succ fuel ih =>
    by_cases htx : p.transmitInProgress_ = true
    · cases hit : closeIteration p with
      | returned r1 =>
        rw [closeLoop_succ_returned fuel p r1 htx hit] at h
        cases h
        exact hret p r1 hp htx hit
      | blocked =>
        rw [closeLoop_succ_blocked fuel p htx hit] at h
        cases h
      | next q =>
        rw [closeLoop_succ_next fuel p q htx hit] at h
        exact ih q (hnext p q hp htx hit) h
    · rw [closeLoop_done _ p htx] at h
      cases h
      exact hexit p hp htx

theorem readLoop_zero (size minSize : Nat) (p : SerialPort) (buffer : List Nat)
    (bytesRead : Nat) (h : bytesRead < minSize) :
    readLoop size minSize 0 p buffer bytesRead = none := by
  simp only [readLoop, if_pos h]

theorem readLoop_induct (size minSize : Nat) (I : SerialPort → List Nat → Nat → Prop)
    (R : Transfer → Prop)
    (hexit : ∀ q buf b, I q buf b → ¬ b < minSize → R ⟨0, b, buf, q⟩)
    (hret : ∀ q buf b t, I q buf b → b < minSize →
      readIteration size minSize q buf b = .returned t → R t)
    (hnext : ∀ q buf b s, I q buf b → b < minSize →
      readIteration size minSize q buf b = .next s → I s.port s.buffer s.bytes)
    (fuel : Nat) (p : SerialPort) (buffer : List Nat) (bytesRead : Nat) (t : Transfer)
    (hp : I p buffer bytesRead) (h : readLoop size minSize fuel p buffer bytesRead = some t) :
    R t := by
  induction fuel generalizing p buffer bytesRead with
  | zero =>
    by_cases hlt : bytesRead < minSize
    · rw [readLoop_zero _ _ _ _ _ hlt] at h
      cases h
    · rw [readLoop_done _ _ _ _ _ _ hlt] at h
      cases h
      exact hexit p buffer bytesRead hp hlt
  | succ fuel ih =>
    by_cases hlt : bytesRead < minSize
    · rw [readLoop_succ size minSize fuel p buffer bytesRead hlt] at h
      cases hit : readIteration size minSize p buffer bytesRead with
      | returned t1 =>
        rw [hit] at h
        cases h
        exact hret p buffer bytesRead t hp hlt hit
      | blocked =>
        rw [hit] at h
        cases h
      | next s =>
        rw [hit] at h
        exact ih s.port s.buffer s.bytes (hnext p buffer bytesRead s hp hlt hit) h
    · rw [readLoop_done _ _ _ _ _ _ hlt] at h
      cases h
      exact hexit p buffer bytesRead hp hlt

theorem readIteration_returned (size minSize : Nat) (p : SerialPort) (buffer : List Nat)
    (bytesRead : Nat) (t : Transfer) (h : readIteration size minSize p buffer bytesRead = .returned t) :
    ∃ d1 r d2, drain p buffer size bytesRead = d1 ∧
      restartRead (d1.port.arm .readSemaphore) minSize d1.bytes = r ∧
      drain r.2 d1.buffer size d1.bytes = d2 ∧
      ((d1.bytes = size ∧ t = ⟨0, d1.bytes, d1.buffer, d1.port⟩) ∨
       (¬ d1.bytes = size ∧ r.1 ≠ 0 ∧
         t = ⟨r.1, d1.bytes, d1.buffer, r.2.disarm .readSemaphore⟩) ∨
       (¬ d1.bytes = size ∧ r.1 = 0 ∧ d2.bytes < minSize ∧
         ∃ w, d2.port.wait .readSemaphore = some w ∧ w.1 ≠ 0 ∧
           t = ⟨w.1, d2.bytes, d2.buffer, w.2.disarm .readSemaphore⟩)) := by
  obtain ⟨d1, h1⟩ : ∃ d, drain p buffer size bytesRead = d := ⟨_, rfl⟩
  obtain ⟨r, h2⟩ : ∃ r, restartRead (d1.port.arm .readSemaphore) minSize d1.bytes = r := ⟨_, rfl⟩
  obtain ⟨d2, h3⟩ : ∃ d, drain r.2 d1.buffer size d1.bytes = d := ⟨_, rfl⟩
  refine ⟨d1, r, d2, h1, h2, h3, ?_⟩
  by_cases hfull : d1.bytes = size
  · rw [readIteration_full size minSize p buffer bytesRead d1 h1 hfull] at h
    cases h
    exact Or.inl ⟨hfull, rfl⟩
  · by_cases hr : r.1 ≠ 0
    · rw [readIteration_failed size minSize p buffer bytesRead d1 r h1 hfull h2 hr] at h
      cases h
      exact Or.inr (Or.inl ⟨hfull, hr, rfl⟩)
    · by_cases hlt : d2.bytes < minSize
      · rw [readIteration_wait size minSize p buffer bytesRead d1 r d2 h1 hfull h2 hr h3 hlt] at h
        cases hw : d2.port.wait .readSemaphore with
        | none =>
          rw [hw] at h
          cases h
        | some w =>
          rw [hw] at h
          by_cases hw1 : w.1 ≠ 0
          · simp only [if_pos hw1] at h
            cases h
            exact Or.inr (Or.inr ⟨hfull, by simpa using hr, hlt, w, rfl, hw1, rfl⟩)
          · simp only [if_neg hw1] at h
            cases h
      · rw [readIteration_enough size minSize p buffer bytesRead d1 r d2 h1 hfull h2 hr h3 hlt]
          at h
        cases h

theorem readIteration_next (size minSize : Nat) (p : SerialPort) (buffer : List Nat)
    (bytesRead : Nat) (s : Progress) (h : readIteration size minSize p buffer bytesRead = .next s) :
    ∃ d1 r d2, drain p buffer size bytesRead = d1 ∧
      restartRead (d1.port.arm .readSemaphore) minSize d1.bytes = r ∧
      drain r.2 d1.buffer size d1.bytes = d2 ∧ ¬ d1.bytes = size ∧ r.1 = 0 ∧
      ((¬ d2.bytes < minSize ∧ s = ⟨d2.port.disarm .readSemaphore, d2.buffer, d2.bytes⟩) ∨
       (d2.bytes < minSize ∧ ∃ w, d2.port.wait .readSemaphore = some w ∧ w.1 = 0 ∧
         s = ⟨w.2.disarm .readSemaphore, d2.buffer, d2.bytes⟩)) := by
  obtain ⟨d1, h1⟩ : ∃ d, drain p buffer size bytesRead = d := ⟨_, rfl⟩
  obtain ⟨r, h2⟩ : ∃ r, restartRead (d1.port.arm .readSemaphore) minSize d1.bytes = r := ⟨_, rfl⟩
  obtain ⟨d2, h3⟩ : ∃ d, drain r.2 d1.buffer size d1.bytes = d := ⟨_, rfl⟩
  refine ⟨d1, r, d2, h1, h2, h3, ?_⟩
  by_cases hfull : d1.bytes = size
  · rw [readIteration_full size minSize p buffer bytesRead d1 h1 hfull] at h
    cases h
  · by_cases hr : r.1 ≠ 0
    · rw [readIteration_failed size minSize p buffer bytesRead d1 r h1 hfull h2 hr] at h
      cases h
    · have hr0 : r.1 = 0 := by simpa using hr
      by_cases hlt : d2.bytes < minSize
      · rw [readIteration_wait size minSize p buffer bytesRead d1 r d2 h1 hfull h2 hr h3 hlt] at h
        cases hw : d2.port.wait .readSemaphore with
        | none =>
          rw [hw] at h
          cases h
        | some w =>
          rw [hw] at h
          by_cases hw1 : w.1 ≠ 0
          · simp only [if_pos hw1] at h
            cases h
          · simp only [if_neg hw1] at h
            cases h
            exact ⟨hfull, hr0, Or.inr ⟨hlt, w, rfl, by simpa using hw1, rfl⟩⟩
      · rw [readIteration_enough size minSize p buffer bytesRead d1 r d2 h1 hfull h2 hr h3 hlt]
          at h
        cases h
        exact ⟨hfull, hr0, Or.inl ⟨hlt, rfl⟩⟩

/-! ## close: the reference count -/

theorem stable_openCount (c : Nat) : Stable (fun q => q.openCount_ = c) := by
  refine ⟨fun q e _ h => h, ?_, ?_, fun q s h => h, fun q n h => h, fun q n h => h,
    fun q b h => h, fun q b h => h⟩
  · intro q id h
    unfold postAndClear
    split
    · cases id <;> exact h
    · exact h
  · intro q id h
    cases id <;> exact h

@[simp] theorem openCount_arm (p : SerialPort) (id : HandleId) :
    (p.arm id).openCount_ = p.openCount_ := by
  cases id <;> rfl

@[simp] theorem openCount_disarm (p : SerialPort) (id : HandleId) :
    (p.disarm id).openCount_ = p.openCount_ := by
  cases id <;> rfl

theorem openCount_closeLoop (fuel : Nat) (p : SerialPort) (r : Option Int × SerialPort)
    (h : closeLoop fuel p = some r) :
    r.2.openCount_ = p.openCount_ ∧ ∀ ret, r.1 = some ret → ret ≠ 0 := by
  refine closeLoop_induct (fun q => q.openCount_ = p.openCount_)
    (fun r => r.2.openCount_ = p.openCount_ ∧ ∀ ret, r.1 = some ret → ret ≠ 0)
    ?_ ?_ ?_ fuel p r rfl h
  · intro q hq _
    exact ⟨hq, fun ret hret => by cases hret⟩
  · intro q r hq _ hit
    obtain ⟨w, hw, hne, rfl⟩ := closeIteration_returned q r hit
    have := (stable_openCount p.openCount_).wait _ _ w hw
      (by simp only [openCount_arm]; exact hq)
    refine ⟨by simp only [openCount_disarm]; exact this, ?_⟩
    intro ret hret
    cases hret
    exact hne
  · intro q q' hq _ hit
    rcases closeIteration_next q q' hit with ⟨w, hw, _, rfl⟩ | ⟨_, rfl⟩
    · have := (stable_openCount p.openCount_).wait _ _ w hw
        (by simp only [openCount_arm]; exact hq)
      simp only [openCount_disarm]
      exact this
    · simp only [openCount_disarm, openCount_arm]
      exact hq

/-- C15 (as stated, refuted): the last `close` of an open port whose hardware `stop` fails with
status 5 returns 5 and leaves `openCount_` at 1; and the last `close` of a port with a
transmission in progress whose wait fails with status 4 returns 4 and leaves `openCount_` at
1. -/
theorem close_error_keeps_openCount :
    (close 0 { quietPort (.fresh 8) (.fresh 8) 1 8 with uart_ := ⟨fun _ => 5, fun _ => 0⟩ }).map
      (fun r => (r.1, r.2.openCount_, r.2.trace)) = some (5, 1, [.stopRead, .stop]) ∧
    (close 1 { quietPort (.fresh 8) (.fresh 8) 1 8 with
        transmitInProgress_ := true, schedule := [⟨[], 4⟩] }).map
      (fun r => (r.1, r.2.openCount_, r.2.trace)) = some (4, 1, [.wait .transmitSemaphore]) := by
  decide

/-- C15 (amended): for every `close` call on a port with `openCount_ >= 1` that returns, if the
call returns 0 then `openCount_` is exactly one less than before; if it returns a nonzero status
(a failed transmit wait or a failed hardware `stop`, which can only happen for the last
reference) then `openCount_` is unchanged. -/
theorem openCount_close (fuel : Nat) (p : SerialPort) (r : Int × SerialPort)
    (hopen : 1 ≤ p.openCount_) (h : close fuel p = some r) :
    (r.1 = 0 → r.2.openCount_ + 1 = p.openCount_) ∧
    (r.1 ≠ 0 → r.2.openCount_ = p.openCount_ ∧ p.openCount_ = 1) := by
  have h0 : ¬ p.openCount_ = 0 := by omega
  by_cases h1 : p.openCount_ = 1
  · cases hl : closeLoop fuel p with
    | none =>
      simp only [close, if_neg h0, if_pos h1, hl] at h
      cases h
    | some x =>
      obtain ⟨x1, q⟩ := x
      have hq := openCount_closeLoop fuel p (x1, q) hl
      cases x1 with
      | some ret =>
        simp only [close, if_neg h0, if_pos h1, hl] at h
        cases h
        have := hq.2 ret rfl
        exact ⟨fun h => absurd h this, fun _ => ⟨hq.1, h1⟩⟩
      | none =>
        simp only [close, if_neg h0, if_pos h1, hl, uartStopRead, uartStop, emit] at h
        split at h
        · cases h
          next hne => exact ⟨fun h => absurd h hne, fun _ => ⟨hq.1, h1⟩⟩
        · cases h
          have := hq.1
          simp only [] at this
          refine ⟨fun _ => ?_, fun h => absurd rfl h⟩
          show q.openCount_ - 1 + 1 = p.openCount_
          omega
  · simp only [close, if_neg h0, if_neg h1] at h
    cases h
    refine ⟨fun _ => ?_, fun h => absurd rfl h⟩
    show p.openCount_ - 1 + 1 = p.openCount_
    omega

theorem openCount_close_witness :
    1 ≤ ({ quietPort (.fresh 8) (.fresh 8) 1 8 with
        uart_ := ⟨fun _ => 5, fun _ => 0⟩ } : SerialPort).openCount_ ∧
    ∃ r, close 0 { quietPort (.fresh 8) (.fresh 8) 1 8 with
        uart_ := ⟨fun _ => 5, fun _ => 0⟩ } = some r ∧ r.1 = 5 ∧ r.2.openCount_ = 1 := by
  have hs : (close 0 { quietPort (.fresh 8) (.fresh 8) 1 8 with
      uart_ := ⟨fun _ => 5, fun _ => 0⟩ }).map (fun r => r.1) = some 5 := by decide
  obtain ⟨r, hr, h5⟩ := Option.map_eq_some'.mp hs
  have := (openCount_close 0 _ r (by decide) hr).2 (by rw [h5]; decide)
  exact ⟨by decide, r, hr, h5, this.1⟩

theorem writeLoop_done (size fuel : Nat) (p : SerialPort) (buffer : List Nat)
    (bytesWritten : Nat) (h : ¬ bytesWritten < size) :
    writeLoop size fuel p buffer bytesWritten = some ⟨0, bytesWritten, buffer, p⟩ := by
  cases fuel <;> simp only [writeLoop, if_neg h]

theorem writeLoop_zero (size : Nat) (p : SerialPort) (buffer : List Nat)
    (bytesWritten : Nat) (h : bytesWritten < size) :
    writeLoop size 0 p buffer bytesWritten = none := by
  simp only [writeLoop, if_pos h]

theorem writeLoop_succ_returned (size fuel : Nat) (p : SerialPort) (buffer : List Nat)
    (bytesWritten : Nat) (t : Transfer) (h : bytesWritten < size)
    (hit : writeIteration size p buffer bytesWritten = .returned t) :
    writeLoop size (fuel + 1) p buffer bytesWritten = some t := by
  rw [writeLoop]
  simp only [if_pos h, hit]

theorem writeLoop_succ_blocked (size fuel : Nat) (p : SerialPort) (buffer : List Nat)
    (bytesWritten : Nat) (h : bytesWritten < size)
    (hit : writeIteration size p buffer bytesWritten = .blocked) :
    writeLoop size (fuel + 1) p buffer bytesWritten = none := by
  rw [writeLoop]
  simp only [if_pos h, hit]

theorem writeLoop_succ_next (size fuel : Nat) (p : SerialPort) (buffer : List Nat)
    (bytesWritten : Nat) (s : Progress) (h : bytesWritten < size)
    (hit : writeIteration size p buffer bytesWritten = .next s) :
    writeLoop size (fuel + 1) p buffer bytesWritten =
      writeLoop size fuel s.port s.buffer s.bytes := by
  rw [writeLoop]
  simp only [if_pos h, hit]

theorem writeLoop_induct (size : Nat) (I : SerialPort → List Nat → Nat → Prop)
    (R : Transfer → Prop)
    (hexit : ∀ q buf b, I q buf b → ¬ b < size → R ⟨0, b, buf, q⟩)
    (hret : ∀ q buf b t, I q buf b → b < size →
      writeIteration size q buf b = .returned t → R t)
    (hnext : ∀ q buf b s, I q buf b → b < size →
      writeIteration size q buf b = .next s → I s.port s.buffer s.bytes)
    (fuel : Nat) (p : SerialPort) (buffer : List Nat) (bytesWritten : Nat) (t : Transfer)
    (hp : I p buffer bytesWritten) (h : writeLoop size fuel p buffer bytesWritten = some t) :
    R t := by
  induction fuel generalizing p buffer bytesWritten with
  | zero =>
    by_cases hlt : bytesWritten < size
    · rw [writeLoop_zero _ _ _ _ hlt] at h
      cases h
    · rw [writeLoop_done _ _ _ _ _ hlt] at h
      cases h
      exact hexit p buffer bytesWritten hp hlt
  | succ fuel ih =>
    by_cases hlt : bytesWritten < size
    · cases hit : writeIteration size p buffer bytesWritten with
      | returned t1 =>
        rw [writeLoop_succ_returned size fuel p buffer bytesWritten t1 hlt hit] at h
        cases h
        exact hret p buffer bytesWritten t hp hlt hit
      | blocked =>
        rw [writeLoop_succ_blocked size fuel p buffer bytesWritten hlt hit] at h
        cases h
      | next s =>
        rw [writeLoop_succ_next size fuel p buffer bytesWritten s hlt hit] at h
        exact ih s.port s.buffer s.bytes (hnext p buffer bytesWritten s hp hlt hit) h
    · rw [writeLoop_done _ _ _ _ _ hlt] at h
      cases h
      exact hexit p buffer bytesWritten hp hlt

/-- The port and the byte counter of `write` after the first statements of an iteration of its
loop (arming of the handle and copy into the outbound buffer), in terms of the result `c` of
`writeToRingBuffer`. -/
theorem writeIteration_returned (size : Nat) (p : SerialPort) (buffer : List Nat)
    (bytesWritten : Nat) (t : Transfer)
    (h : writeIteration size p buffer bytesWritten = .returned t) :
    ∃ c q, writeToRingBuffer buffer bytesWritten (usub size bytesWritten) p.writeBuffer_ = c ∧
      q = { p.arm .writeSemaphore with writeBuffer_ := c.ringBuffer } ∧
      ((q.writeInProgress_ = false ∧ q.writeBuffer_.isEmpty = false ∧
          (q.startWriteWrapper).1 ≠ 0 ∧
          t = ⟨(q.startWriteWrapper).1, uadd bytesWritten c.count, buffer,
            (q.startWriteWrapper).2.disarm .writeSemaphore⟩) ∨
       (¬ (q.writeInProgress_ = false ∧ q.writeBuffer_.isEmpty = false) ∧
          uadd bytesWritten c.count ≠ size ∧
          ∃ w, q.wait .writeSemaphore = some w ∧ w.1 ≠ 0 ∧
            t = ⟨w.1, uadd bytesWritten c.count, buffer, w.2.disarm .writeSemaphore⟩)) := by
  obtain ⟨c, hc⟩ : ∃ c, writeToRingBuffer buffer bytesWritten (usub size bytesWritten)
    p.writeBuffer_ = c := ⟨_, rfl⟩
  have hc' : writeToRingBuffer buffer bytesWritten (usub size bytesWritten)
      (p.arm .writeSemaphore).writeBuffer_ = c := hc
  refine ⟨c, _, hc, rfl, ?_⟩
  unfold writeIteration at h
  simp only [hc'] at h
  split at h
  · next hstart =>
    split at h
    · next hne =>
      cases h
      exact Or.inl ⟨hstart.1, hstart.2, hne, rfl⟩
    · cases h
  · next hstart =>
    split at h
    · next hsz =>
      split at h
      · cases h
      · next w hw =>
        split at h
        · next hne =>
          cases h
          exact Or.inr ⟨hstart, hsz, w, hw, hne, rfl⟩
        · cases h
    · cases h

theorem writeIteration_next (size : Nat) (p : SerialPort) (buffer : List Nat)
    (bytesWritten : Nat) (s : Progress)
    (h : writeIteration size p buffer bytesWritten = .next s) :
    ∃ c q, writeToRingBuffer buffer bytesWritten (usub size bytesWritten) p.writeBuffer_ = c ∧
      q = { p.arm .writeSemaphore with writeBuffer_ := c.ringBuffer } ∧
      ((q.writeInProgress_ = false ∧ q.writeBuffer_.isEmpty = false ∧
          (q.startWriteWrapper).1 = 0 ∧
          s = ⟨(q.startWriteWrapper).2.disarm .writeSemaphore, buffer,
            uadd bytesWritten c.count⟩) ∨
       (¬ (q.writeInProgress_ = false ∧ q.writeBuffer_.isEmpty = false) ∧
          uadd bytesWritten c.count ≠ size ∧
          ∃ w, q.wait .writeSemaphore = some w ∧ w.1 = 0 ∧
            s = ⟨w.2.disarm .writeSemaphore, buffer, uadd bytesWritten c.count⟩) ∨
       (¬ (q.writeInProgress_ = false ∧ q.writeBuffer_.isEmpty = false) ∧
          uadd bytesWritten c.count = size ∧
          s = ⟨q.disarm .writeSemaphore, buffer, uadd bytesWritten c.count⟩)) := by
  obtain ⟨c, hc⟩ : ∃ c, writeToRingBuffer buffer bytesWritten (usub size bytesWritten)
    p.writeBuffer_ = c := ⟨_, rfl⟩
  have hc' : writeToRingBuffer buffer bytesWritten (usub size bytesWritten)
      (p.arm .writeSemaphore).writeBuffer_ = c := hc
  refine ⟨c, _, hc, rfl, ?_⟩
  unfold writeIteration at h
  simp only [hc'] at h
  split at h
  · next hstart =>
    split at h
    · cases h
    · next hne =>
      cases h
      exact Or.inl ⟨hstart.1, hstart.2, by simpa using hne, rfl⟩
  · next hstart =>
    split at h
    · next hsz =>
      split at h
      · cases h
      · next w hw =>
        split at h
        · cases h
        · next hne =>
          cases h
          exact Or.inr (Or.inl ⟨hstart, hsz, w, hw, by simpa using hne, rfl⟩)
    · next hsz =>
      cases h
      exact Or.inr (Or.inr ⟨hstart, by simpa using hsz, rfl⟩)

/-! ## Wake-up handles -/

theorem armed_disarm (p : SerialPort) (id : HandleId) : ((p.disarm id).handle id).armed = false := by
  cases id <;> rfl

theorem posts_emit (p : SerialPort) (id : HandleId) (e : Effect) (he : e ≠ .post id) :
    posts id (p.emit e).trace = posts id p.trace := by
  simp only [posts, emit, List.count_append, List.count_singleton, beq_iff_eq, if_neg he,
    Nat.add_zero]

theorem stable_posts (id : HandleId) (k : Nat) :
    Stable (fun q => posts id q.trace + armedCount q id = k) := by
  refine ⟨fun q e he h => ?_, ?_, ?_, fun q s h => h, fun q n h => h, fun q n h => h,
    fun q b h => h, fun q b h => h⟩
  · have : armedCount (q.emit e) id = armedCount q id := by cases id <;> rfl
    rw [this, posts_emit q id e (he id)]
    exact h
  · intro q id' h
    unfold postAndClear
    split
    · next harmed =>
      by_cases hid : id' = id
      · subst hid
        have h1 : armedCount ((q.emit (.post id')).setHandle id'
            ⟨false, (q.handle id').value + 1⟩) id' = 0 := by
          cases id' <;> rfl
        have h2 : posts id' ((q.emit (.post id')).setHandle id'
            ⟨false, (q.handle id').value + 1⟩).trace = posts id' q.trace + 1 := by
          have : ((q.emit (.post id')).setHandle id' ⟨false, (q.handle id').value + 1⟩).trace =
              q.trace ++ [.post id'] := by cases id' <;> rfl
          rw [this]
          simp only [posts, List.count_append, List.count_singleton, beq_self_eq_true, if_true]
        have h3 : armedCount q id' = 1 := by simp only [armedCount, harmed, if_true]
        rw [h1, h2]
        rw [h3] at h
        omega
      · have h1 : armedCount ((q.emit (.post id')).setHandle id'
            ⟨false, (q.handle id').value + 1⟩) id = armedCount q id := by
          cases id' <;> cases id <;> first | rfl | exact absurd rfl hid
        have h2 : posts id ((q.emit (.post id')).setHandle id'
            ⟨false, (q.handle id').value + 1⟩).trace = posts id q.trace := by
          have : ((q.emit (.post id')).setHandle id' ⟨false, (q.handle id').value + 1⟩).trace =
              (q.emit (.post id')).trace := by cases id' <;> rfl
          rw [this]
          exact posts_emit q id _ (fun he => hid (by cases he; rfl))
        rw [h1, h2]
        exact h
    · exact h
  · intro q id' h
    have h1 : armedCount (q.setHandle id'
        { q.handle id' with value := (q.handle id').value - 1 }) id = armedCount q id := by
      cases id' <;> cases id <;> rfl
    have h2 : (q.setHandle id'
        { q.handle id' with value := (q.handle id').value - 1 }).trace = q.trace := by
      cases id' <;> rfl
    rw [h1, h2]
    exact h

@[simp] theorem readSemaphore_drain (p : SerialPort) (buffer : List Nat) (size bytesRead : Nat) :
    (drain p buffer size bytesRead).port.readSemaphore_ = p.readSemaphore_ := rfl

theorem readSemaphore_readLoop (size minSize fuel : Nat) (p : SerialPort) (buffer : List Nat)
    (bytesRead : Nat) (t : Transfer) (hp : p.readSemaphore_.armed = false)
    (h : readLoop size minSize fuel p buffer bytesRead = some t) :
    t.port.readSemaphore_.armed = false := by
  refine readLoop_induct size minSize (fun q _ _ => q.readSemaphore_.armed = false)
    (fun t => t.port.readSemaphore_.armed = false) ?_ ?_ ?_ fuel p buffer bytesRead t hp h
  · intro q buf b hq _
    exact hq
  · intro q buf b t hq _ hit
    obtain ⟨d1, r, d2, h1, h2, h3, hcase⟩ := readIteration_returned size minSize q buf b t hit
    rcases hcase with ⟨_, rfl⟩ | ⟨_, _, rfl⟩ | ⟨_, _, _, w, _, _, rfl⟩
    · show d1.port.readSemaphore_.armed = false
      rw [← h1, readSemaphore_drain]
      exact hq
    · exact armed_disarm r.2 .readSemaphore
    · exact armed_disarm w.2 .readSemaphore
  · intro q buf b s hq _ hit
    obtain ⟨d1, r, d2, h1, h2, h3, _, _, hcase⟩ := readIteration_next size minSize q buf b s hit
    rcases hcase with ⟨_, rfl⟩ | ⟨_, w, _, _, rfl⟩
    · exact armed_disarm d2.port .readSemaphore
    · exact armed_disarm w.2 .readSemaphore

theorem writeSemaphore_writeLoop (size fuel : Nat) (p : SerialPort) (buffer : List Nat)
    (bytesWritten : Nat) (t : Transfer) (hp : p.writeSemaphore_.armed = false)
    (h : writeLoop size fuel p buffer bytesWritten = some t) :
    t.port.writeSemaphore_.armed = false := by
  refine writeLoop_induct size (fun q _ _ => q.writeSemaphore_.armed = false)
    (fun t => t.port.writeSemaphore_.armed = false) ?_ ?_ ?_ fuel p buffer bytesWritten t hp h
  · intro q buf b hq _
    exact hq
  · intro q buf b t _ _ hit
    obtain ⟨c, q1, _, _, hcase⟩ := writeIteration_returned size q buf b t hit
    rcases hcase with ⟨_, _, _, rfl⟩ | ⟨_, _, w, _, _, rfl⟩
    · exact armed_disarm _ .writeSemaphore
    · exact armed_disarm w.2 .writeSemaphore
  · intro q buf b s _ _ hit
    obtain ⟨c, q1, _, _, hcase⟩ := writeIteration_next size q buf b s hit
    rcases hcase with ⟨_, _, _, rfl⟩ | ⟨_, _, w, _, _, rfl⟩ | ⟨_, _, rfl⟩
    · exact armed_disarm _ .writeSemaphore
    · exact armed_disarm w.2 .writeSemaphore
    · exact armed_disarm _ .writeSemaphore

theorem transmitSemaphore_closeLoop (fuel : Nat) (p : SerialPort) (r : Option Int × SerialPort)
    (hp : p.transmitSemaphore_.armed = false) (h : closeLoop fuel p = some r) :
    r.2.transmitSemaphore_.armed = false := by
  refine closeLoop_induct (fun q => q.transmitSemaphore_.armed = false)
    (fun r => r.2.transmitSemaphore_.armed = false) ?_ ?_ ?_ fuel p r hp h
  · intro q hq _
    exact hq
  · intro q r _ _ hit
    obtain ⟨w, _, _, rfl⟩ := closeIteration_returned q r hit
    exact armed_disarm w.2 .transmitSemaphore
  · intro q q' _ _ hit
    rcases closeIteration_next q q' hit with ⟨w, _, _, rfl⟩ | ⟨_, rfl⟩
    · exact armed_disarm w.2 .transmitSemaphore
    · exact armed_disarm _ .transmitSemaphore

/-- C19: a `read`, `write` or `close` call that starts with its own wake-up handle
(`readSemaphore_`, `writeSemaphore_`, `transmitSemaphore_` respectively) null returns, on each of
its return paths, with this handle null again, whatever interrupts are delivered during its waits;
and the delivery of any sequence of interrupts, as well as any wait, posts the semaphore of a
handle exactly as many times as it turns the handle from armed to null: a handle that is null is
not posted and an armed handle is posted at most once, the post clearing it. -/
theorem handles_cleared_and_posted_once (fuel : Nat) (p : SerialPort)
    (buffer : Option (List Nat)) (size : Nat) :
    (p.readSemaphore_.armed = false → ∀ t, read fuel p buffer size = some t →
      t.port.readSemaphore_.armed = false) ∧
    (p.writeSemaphore_.armed = false → ∀ t, write fuel p buffer size = some t →
      t.port.writeSemaphore_.armed = false) ∧
    (p.transmitSemaphore_.armed = false → ∀ r, close fuel p = some r →
      r.2.transmitSemaphore_.armed = false) ∧
    (∀ (id : HandleId) (es : List Event),
      posts id (p.deliverAll es).trace + armedCount (p.deliverAll es) id =
        posts id p.trace + armedCount p id) ∧
    (∀ (id waited : HandleId) (w : Int × SerialPort), p.wait waited = some w →
      posts id w.2.trace + armedCount w.2 id = posts id p.trace + armedCount p id) := by
  refine ⟨?_, ?_, ?_, ?_, ?_⟩
  · intro hp t ht
    cases buffer with
    | none =>
      simp only [read] at ht
      cases ht
      exact hp
    | some b =>
      simp only [read] at ht
      split at ht
      · cases ht; exact hp
      · split at ht
        · cases ht; exact hp
        · split at ht
          · cases ht; exact hp
          · exact readSemaphore_readLoop size _ fuel p b 0 t hp ht
  · intro hp t ht
    cases buffer with
    | none =>
      simp only [write] at ht
      cases ht
      exact hp
    | some b =>
      simp only [write] at ht
      split at ht
      · cases ht; exact hp
      · split at ht
        · cases ht; exact hp
        · split at ht
          · cases ht; exact hp
          · exact writeSemaphore_writeLoop size fuel p b 0 t hp ht
  · intro hp r hr
    simp only [close] at hr
    split at hr
    · cases hr; exact hp
    · split at hr
      · cases hl : closeLoop fuel p with
        | none =>
          rw [hl] at hr
          cases hr
        | some x =>
          obtain ⟨x1, q⟩ := x
          have hq := transmitSemaphore_closeLoop fuel p (x1, q) hp hl
          rw [hl] at hr
          cases x1 with
          | some ret =>
            cases hr
            exact hq
          | none =>
            simp only [uartStopRead, uartStop, emit] at hr
            split at hr
            · cases hr; exact hq
            · cases hr; exact hq
      · cases hr; exact hp
  · intro id es
    exact (stable_posts id _).deliverAll es p rfl
  · intro id waited w hw
    exact (stable_posts id _).wait p waited w hw rfl

theorem handles_cleared_and_posted_once_witness :
    ({ quietPort (.fresh 8) (.fresh 8) 1 9 with
        schedule := [⟨[.readComplete 2], 0⟩] } : SerialPort).readSemaphore_.armed = false ∧
    (∃ t, read 2 { quietPort (.fresh 8) (.fresh 8) 1 9 with
        schedule := [⟨[.readComplete 2], 0⟩] } (some [0, 0, 0, 0]) 4 = some t ∧
      t.port.readSemaphore_.armed = false) ∧
    posts .readSemaphore (((quietPort (.fresh 8) (.fresh 8) 1 9).arm .readSemaphore).deliverAll
        [.readComplete 2, .readComplete 2]).trace +
      armedCount (((quietPort (.fresh 8) (.fresh 8) 1 9).arm .readSemaphore).deliverAll
        [.readComplete 2, .readComplete 2]) .readSemaphore =
      posts .readSemaphore ((quietPort (.fresh 8) (.fresh 8) 1 9).arm .readSemaphore).trace +
        armedCount ((quietPort (.fresh 8) (.fresh 8) 1 9).arm .readSemaphore) .readSemaphore := by
  have hs : (read 2 { quietPort (.fresh 8) (.fresh 8) 1 9 with
      schedule := [⟨[.readComplete 2], 0⟩] } (some [0, 0, 0, 0]) 4).isSome = true := by decide
  obtain ⟨t, ht⟩ := Option.isSome_iff_exists.mp hs
  exact ⟨rfl, ⟨t, ht, (handles_cleared_and_posted_once 2
      { quietPort (.fresh 8) (.fresh 8) 1 9 with schedule := [⟨[.readComplete 2], 0⟩] }
      (some [0, 0, 0, 0]) 4).1 rfl t ht⟩,
    (handles_cleared_and_posted_once 0 ((quietPort (.fresh 8) (.fresh 8) 1 9).arm .readSemaphore)
      none 0).2.2.2.1 .readSemaphore [.readComplete 2, .readComplete 2]⟩

end SerialPort

/-! ## Copies between buffers -/

theorem length_memcpy (dest : List Nat) (off : Nat) (src : List Nat)
    (h : off + src.length ≤ dest.length) : (memcpy dest off src).length = dest.length := by
  simp only [memcpy, List.length_append, List.length_take, List.length_drop]
  omega

theorem drop_memcpy (dest : List Nat) (off : Nat) (src : List Nat) (k : Nat)
    (h : off + src.length ≤ dest.length) (hk : off + src.length ≤ k) :
    (memcpy dest off src).drop k = dest.drop k := by
  have hl : (dest.take off ++ src).length = off + src.length := by
    simp only [List.length_append, List.length_take]
    omega
  unfold memcpy
  rw [List.drop_append_eq_append_drop, List.drop_eq_nil_of_le (by omega), List.nil_append, hl,
    List.drop_drop]
  congr 1
  omega

theorem take_memcpy (dest : List Nat) (off : Nat) (src : List Nat) (k : Nat) (hk : k ≤ off)
    (h : off ≤ dest.length) : (memcpy dest off src).take k = dest.take k := by
  unfold memcpy
  rw [List.append_assoc, List.take_append_of_le_length (by simp only [List.length_take]; omega),
    List.take_take]
  congr 1
  omega

namespace RingBuffer

theorem inStorage_increaseWritePosition (rb : RingBuffer) (n : Nat) (h : rb.InStorage) :
    (rb.increaseWritePosition n).InStorage := by
  obtain ⟨hC, hr, hw⟩ := h
  exact ⟨hC, hr, Nat.mod_lt _ (by omega)⟩

theorem inStorage_increaseReadPosition_any (rb : RingBuffer) (n : Nat) (h : rb.InStorage) :
    (rb.increaseReadPosition n).InStorage := by
  obtain ⟨hC, hr, hw⟩ := h
  exact ⟨hC, Nat.mod_lt _ (by omega), hw⟩

end RingBuffer

namespace SerialPort

/-! ## read: result -/

end SerialPort

namespace RingBuffer

theorem getWriteBlock_snd_le (rb : RingBuffer) (h : rb.InStorage) :
    rb.writePosition_ + rb.getWriteBlock.2 ≤ rb.size_ := by
  obtain ⟨hC, hr, hw⟩ := h
  have hle : rb.getWriteBlock.2 ≤
      usub (if rb.readPosition_ > rb.writePosition_ then rb.readPosition_ else rb.size_)
        rb.writePosition_ := by
    simp only [getWriteBlock]
    exact Nat.min_le_right _ _
  have hu : usub (if rb.readPosition_ > rb.writePosition_ then rb.readPosition_ else rb.size_)
      rb.writePosition_ ≤ rb.size_ - rb.writePosition_ := by
    simp only [usub]
    split <;> omega
  omega

theorem size_increaseWritePosition (rb : RingBuffer) (n : Nat) :
    (rb.increaseWritePosition n).size_ = rb.size_ := rfl

theorem readPosition_increaseWritePosition (rb : RingBuffer) (n : Nat) :
    (rb.increaseWritePosition n).readPosition_ = rb.readPosition_ := rfl

theorem writePosition_increaseWritePosition_mod (rb : RingBuffer) (n : Nat) (h : rb.InStorage)
    (hn : n ≤ rb.getWriteBlock.2) :
    (rb.increaseWritePosition n).writePosition_ = (rb.writePosition_ + n) % rb.size_ := by
  have hle := getWriteBlock_snd_le rb h
  obtain ⟨hC, hr, hw⟩ := h
  have : uadd rb.writePosition_ n = rb.writePosition_ + n := by
    simp only [uadd]; omega
  simp only [increaseWritePosition, this]

end RingBuffer

theorem writeToRingBufferLoop_stop (buffer : List Nat) (off size fuel : Nat) (rb : RingBuffer)
    (bytesWritten : Nat) (hc : ¬ (rb.getWriteBlock.2 ≠ 0 ∧ bytesWritten ≠ size)) :
    writeToRingBufferLoop buffer off size fuel rb bytesWritten = ⟨rb, buffer, bytesWritten⟩ := by
  cases fuel <;> simp only [writeToRingBufferLoop, if_neg hc]

theorem writeToRingBufferLoop_zero (buffer : List Nat) (off size : Nat) (rb : RingBuffer)
    (bytesWritten : Nat) :
    writeToRingBufferLoop buffer off size 0 rb bytesWritten = ⟨rb, buffer, bytesWritten⟩ := by
  simp only [writeToRingBufferLoop, ite_self]

theorem writeToRingBufferLoop_step (buffer : List Nat) (off size fuel : Nat) (rb : RingBuffer)
    (bytesWritten : Nat) (hc : rb.getWriteBlock.2 ≠ 0 ∧ bytesWritten ≠ size) :
    writeToRingBufferLoop buffer off size (fuel + 1) rb bytesWritten =
      writeToRingBufferLoop buffer off size fuel
        ({ rb with
            buffer_ := memcpy rb.buffer_ rb.getWriteBlock.1
              (slice buffer (off + bytesWritten)
                (min rb.getWriteBlock.2 (usub size bytesWritten))) }.increaseWritePosition
          (min rb.getWriteBlock.2 (usub size bytesWritten)))
        (uadd bytesWritten (min rb.getWriteBlock.2 (usub size bytesWritten))) := by
  simp only [writeToRingBufferLoop, if_pos hc]

open RingBuffer in
theorem writeToRingBufferLoop_frame (buffer : List Nat) (off size : Nat) (hsz : size < 4294967296)
    (fuel : Nat) (rb : RingBuffer) (bytesWritten : Nat) (hv : rb.InStorage)
    (hle : bytesWritten ≤ size) :
    bytesWritten ≤ (writeToRingBufferLoop buffer off size fuel rb bytesWritten).count ∧
    (writeToRingBufferLoop buffer off size fuel rb bytesWritten).count ≤ size ∧
    (writeToRingBufferLoop buffer off size fuel rb bytesWritten).ringBuffer.InStorage ∧
    (writeToRingBufferLoop buffer off size fuel rb bytesWritten).ringBuffer.size_ = rb.size_ ∧
    (writeToRingBufferLoop buffer off size fuel rb bytesWritten).ringBuffer.readPosition_ =
      rb.readPosition_ ∧
    (writeToRingBufferLoop buffer off size fuel rb bytesWritten).ringBuffer.writePosition_ =
      (rb.writePosition_ +
        ((writeToRingBufferLoop buffer off size fuel rb bytesWritten).count - bytesWritten)) %
        rb.size_ ∧
    (writeToRingBufferLoop buffer off size fuel rb bytesWritten).buffer = buffer := by
  have hwp : rb.writePosition_ = (rb.writePosition_ + (bytesWritten - bytesWritten)) % rb.size_ := by
    rw [Nat.sub_self, Nat.add_zero, Nat.mod_eq_of_lt hv.2.2]
  induction fuel generalizing rb bytesWritten with
  | zero =>
    rw [writeToRingBufferLoop_zero]
    exact ⟨Nat.le_refl _, hle, hv, rfl, rfl, hwp, rfl⟩
  | succ fuel ih =>
    by_cases hc : rb.getWriteBlock.2 ≠ 0 ∧ bytesWritten ≠ size
    · rw [writeToRingBufferLoop_step buffer off size fuel rb bytesWritten hc]
      have hu : usub size bytesWritten = size - bytesWritten := by
        simp only [usub]; omega
      have hm1 : min rb.getWriteBlock.2 (usub size bytesWritten) ≤ size - bytesWritten := by
        rw [hu]; exact Nat.min_le_right _ _
      have hm2 : min rb.getWriteBlock.2 (usub size bytesWritten) ≤ rb.getWriteBlock.2 :=
        Nat.min_le_left _ _
      have ha : uadd bytesWritten (min rb.getWriteBlock.2 (usub size bytesWritten)) =
          bytesWritten + min rb.getWriteBlock.2 (usub size bytesWritten) := by
        simp only [uadd]; omega
      rw [ha]
      obtain ⟨rb1, hrb1, hv1, hb1, hs1, hr1, hw1⟩ : ∃ rb1 : RingBuffer, rb1 = { rb with
          buffer_ := memcpy rb.buffer_ rb.getWriteBlock.1
            (slice buffer (off + bytesWritten)
              (min rb.getWriteBlock.2 (usub size bytesWritten))) } ∧ rb1.InStorage ∧
          rb1.getWriteBlock.2 = rb.getWriteBlock.2 ∧ rb1.size_ = rb.size_ ∧
          rb1.readPosition_ = rb.readPosition_ ∧ rb1.writePosition_ = rb.writePosition_ :=
        ⟨_, rfl, hv, rfl, rfl, rfl, rfl⟩
      rw [← hrb1]
      have hv' := inStorage_increaseWritePosition rb1
        (min rb.getWriteBlock.2 (usub size bytesWritten)) hv1
      have hw' := writePosition_increaseWritePosition_mod rb1
        (min rb.getWriteBlock.2 (usub size bytesWritten)) hv1 (by rw [hb1]; exact hm2)
      have := ih (rb1.increaseWritePosition (min rb.getWriteBlock.2 (usub size bytesWritten)))
        (bytesWritten + min rb.getWriteBlock.2 (usub size bytesWritten)) hv' (by omega)
        (by rw [Nat.sub_self, Nat.add_zero, Nat.mod_eq_of_lt hv'.2.2])
      obtain ⟨i1, i2, i3, i4, i5, i6, i7⟩ := this
      rw [size_increaseWritePosition, hs1] at i4
      rw [readPosition_increaseWritePosition, hr1] at i5
      rw [size_increaseWritePosition, hw', hs1, hw1, Nat.mod_add_mod] at i6
      refine ⟨by omega, i2, i3, i4, i5, ?_, i7⟩
      rw [i6]
      generalize Copied.count _ = c at i1 ⊢
      have e : rb.writePosition_ + min rb.getWriteBlock.2 (usub size bytesWritten) +
          (c - (bytesWritten + min rb.getWriteBlock.2 (usub size bytesWritten))) =
          rb.writePosition_ + (c - bytesWritten) := by omega
      rw [e]
    · rw [writeToRingBufferLoop_stop buffer off size _ rb bytesWritten hc]
      exact ⟨Nat.le_refl _, hle, hv, rfl, rfl, hwp, rfl⟩

namespace SerialPort

/-! ## write: result -/

@[simp] theorem writeBuffer_setHandle (p : SerialPort) (id : HandleId) (h : Handle) :
    (p.setHandle id h).writeBuffer_ = p.writeBuffer_ := by
  cases id <;> rfl

@[simp] theorem writeBuffer_arm (p : SerialPort) (id : HandleId) :
    (p.arm id).writeBuffer_ = p.writeBuffer_ := by
  cases id <;> rfl

@[simp] theorem writeBuffer_disarm (p : SerialPort) (id : HandleId) :
    (p.disarm id).writeBuffer_ = p.writeBuffer_ := by
  cases id <;> rfl

@[simp] theorem writeBuffer_startWriteWrapper (p : SerialPort) :
    (p.startWriteWrapper).2.writeBuffer_ = p.writeBuffer_ := rfl

theorem stable_writeCursor (C x : Nat) :
    Stable (fun q => q.writeBuffer_.InStorage ∧ q.writeBuffer_.size_ = C ∧
      q.writeBuffer_.writePosition_ = x) := by
  refine ⟨fun q e _ h => h, ?_, ?_, fun q s h => h, fun q n h => h, ?_,
    fun q b h => h, fun q b h => h⟩
  · intro q id h
    unfold postAndClear
    split
    · cases id <;> exact h
    · exact h
  · intro q id h
    cases id <;> exact h
  · intro q n h
    exact ⟨RingBuffer.inStorage_increaseReadPosition_any _ n h.1, h.2.1, h.2.2⟩

theorem writeProgress_frame (p : SerialPort) (buffer : List Nat) (size : Nat) (q q1 : SerialPort)
    (buf : List Nat) (n : Nat) (h : WriteProgress p buffer size q buf n)
    (h1 : q1.writeBuffer_.InStorage) (h2 : q1.writeBuffer_.size_ = q.writeBuffer_.size_)
    (h3 : q1.writeBuffer_.writePosition_ = q.writeBuffer_.writePosition_) :
    WriteProgress p buffer size q1 buf n :=
  ⟨h1, h2.trans h.2.1, h3.trans h.2.2.1, h.2.2.2.1, h.2.2.2.2⟩

theorem writeProgress_disarm (p : SerialPort) (buffer : List Nat) (size : Nat) (q : SerialPort)
    (buf : List Nat) (n : Nat) (id : HandleId) (h : WriteProgress p buffer size q buf n) :
    WriteProgress p buffer size (q.disarm id) buf n :=
  writeProgress_frame p buffer size q _ buf n h (by rw [writeBuffer_disarm]; exact h.1)
    (by rw [writeBuffer_disarm]) (by rw [writeBuffer_disarm])

theorem writeProgress_wait (p : SerialPort) (buffer : List Nat) (size : Nat) (q : SerialPort)
    (buf : List Nat) (n : Nat) (id : HandleId) (w : Int × SerialPort)
    (hw : q.wait id = some w) (h : WriteProgress p buffer size q buf n) :
    WriteProgress p buffer size w.2 buf n := by
  have hs := (stable_writeCursor q.writeBuffer_.size_ q.writeBuffer_.writePosition_).wait
    q id w hw ⟨h.1, rfl, rfl⟩
  exact writeProgress_frame p buffer size q _ buf n h hs.1 hs.2.1 hs.2.2

theorem writeProgress_copy (p : SerialPort) (buffer : List Nat) (size : Nat) (q : SerialPort)
    (buf : List Nat) (n : Nat) (hsz : size < 4294967296)
    (h : WriteProgress p buffer size q buf n) (c : Copied) (q1 : SerialPort)
    (hc : writeToRingBuffer buf n (usub size n) q.writeBuffer_ = c)
    (hq : q1 = { q.arm .writeSemaphore with writeBuffer_ := c.ringBuffer }) :
    WriteProgress p buffer size q1 buf (uadd n c.count) ∧ n ≤ uadd n c.count := by
  obtain ⟨a1, a2, a3, a4, a5⟩ := h
  have hu : usub size n = size - n := by simp only [usub]; omega
  obtain ⟨f1, f2, f3, f4, f5, f6, f7⟩ := writeToRingBufferLoop_frame buf n (usub size n)
    (by rw [hu]; omega) (usub size n) q.writeBuffer_ 0 a1 (Nat.zero_le _)
  have hc' : writeToRingBufferLoop buf n (usub size n) (usub size n) q.writeBuffer_ 0 = c := hc
  rw [hc'] at f1 f2 f3 f4 f5 f6 f7
  rw [hu] at f2
  have ha : uadd n c.count = n + c.count := by simp only [uadd]; omega
  rw [ha]
  have e1 : q1.writeBuffer_ = c.ringBuffer := by rw [hq]
  refine ⟨⟨by rw [e1]; exact f3, by rw [e1, f4, a2], ?_, by omega, a5⟩, by omega⟩
  rw [e1, f6, a3, a2, Nat.sub_zero, Nat.mod_add_mod, Nat.add_assoc]

theorem writeLoop_result (p : SerialPort) (buffer : List Nat) (size : Nat)
    (hsz : size < 4294967296) (fuel : Nat) (t : Transfer) (hwb : p.writeBuffer_.InStorage)
    (h : writeLoop size fuel p buffer 0 = some t) :
    WriteProgress p buffer size t.port t.buffer t.count ∧ (t.ret = 0 → t.count = size) := by
  have h0 : WriteProgress p buffer size p buffer 0 :=
    ⟨hwb, rfl, by rw [Nat.add_zero, Nat.mod_eq_of_lt hwb.2.2], Nat.zero_le _, rfl⟩
  refine writeLoop_induct size (fun q buf b => WriteProgress p buffer size q buf b)
    (fun t => WriteProgress p buffer size t.port t.buffer t.count ∧ (t.ret = 0 → t.count = size))
    ?_ ?_ ?_ fuel p buffer 0 t h0 h
  · intro q buf b hq hb
    have := hq.2.2.2.1
    exact ⟨hq, fun _ => by dsimp only; omega⟩
  · intro q buf b t hq _ hit
    obtain ⟨c, q1, hc, hq1, hcase⟩ := writeIteration_returned size q buf b t hit
    have a1 := (writeProgress_copy p buffer size q buf b hsz hq c q1 hc hq1).1
    rcases hcase with ⟨_, _, hr, ht⟩ | ⟨_, _, w, hw, hw1, ht⟩
    · subst ht
      exact ⟨writeProgress_disarm p buffer size _ _ _ _
        (writeProgress_frame p buffer size q1 _ buf _ a1
          (by rw [writeBuffer_startWriteWrapper]; exact a1.1)
          (by rw [writeBuffer_startWriteWrapper]) (by rw [writeBuffer_startWriteWrapper])),
        fun h0 => absurd h0 hr⟩
    · subst ht
      exact ⟨writeProgress_disarm p buffer size _ _ _ _
        (writeProgress_wait p buffer size _ _ _ _ w hw a1), fun h0 => absurd h0 hw1⟩
  · intro q buf b s hq _ hit
    obtain ⟨c, q1, hc, hq1, hcase⟩ := writeIteration_next size q buf b s hit
    have a1 := (writeProgress_copy p buffer size q buf b hsz hq c q1 hc hq1).1
    rcases hcase with ⟨_, _, _, hs⟩ | ⟨_, _, w, hw, _, hs⟩ | ⟨_, _, hs⟩
    · subst hs
      exact writeProgress_disarm p buffer size _ _ _ _
        (writeProgress_frame p buffer size q1 _ buf _ a1
          (by rw [writeBuffer_startWriteWrapper]; exact a1.1)
          (by rw [writeBuffer_startWriteWrapper]) (by rw [writeBuffer_startWriteWrapper]))
    · subst hs
      exact writeProgress_disarm p buffer size _ _ _ _
        (writeProgress_wait p buffer size _ _ _ _ w hw a1)
    · subst hs
      exact writeProgress_disarm p buffer size _ _ _ _ a1

/-- C12: a valid `write` call on an open port (non-null buffer, `1 ≤ size < 2^32`, `size` even
when `characterLength_ > 8`, outbound buffer with both cursors inside its storage) that returns,
whatever interrupts the schedule delivers during its waits. In every case `count ≤ size` and
`count` is the number of bytes copied into the outbound buffer: its write cursor has advanced by
`count` modulo the capacity, and the buffer of the caller is untouched. Status 0 comes only with
`count = size`. -/
theorem write_result (fuel : Nat) (p : SerialPort) (buffer : List Nat) (size : Nat)
    (t : Transfer) (hopen : p.openCount_ ≠ 0) (hsize : 1 ≤ size) (hsz : size < 4294967296)
    (hvalid : p.characterLength_ > 8 → size % 2 = 0) (hwb : p.writeBuffer_.InStorage)
    (h : write fuel p (some buffer) size = some t) :
    t.count ≤ size ∧ (t.ret = 0 → t.count = size) ∧
    t.port.writeBuffer_.writePosition_ =
      (p.writeBuffer_.writePosition_ + t.count) % p.writeBuffer_.size_ ∧
    t.buffer = buffer := by
  have h1 : ¬ size = 0 := by omega
  have h2 : ¬ (p.characterLength_ > 8 ∧ size % 2 ≠ 0) := fun hc => hc.2 (hvalid hc.1)
  simp only [write, if_neg h1, if_neg hopen, if_neg h2] at h
  obtain ⟨a, b⟩ := writeLoop_result p buffer size hsz fuel t hwb h
  exact ⟨a.2.2.2.1, b, a.2.2.1, a.2.2.2.2⟩

theorem write_result_witness :
    ∃ t, write 5 { quietPort (.fresh 8) (.fresh 6) 1 8 with
        schedule := [⟨[.writeComplete 4], 0⟩, ⟨[.writeComplete 2, .writeComplete 2], 0⟩] }
        (some [1, 2, 3, 4, 5, 6, 7, 8, 9, 10]) 10 = some t ∧
      (t.ret = 0 ∧ t.count = 10 ∧ waits t.port.trace = 2 ∧
        t.port.trace.head? = some (.startWrite 0 4)) ∧
      t.count ≤ 10 ∧ (t.ret = 0 → t.count = 10) ∧
      t.port.writeBuffer_.writePosition_ = (0 + t.count) % 6 ∧
      t.buffer = [1, 2, 3, 4, 5, 6, 7, 8, 9, 10] := by
  have hs : (write 5 { quietPort (.fresh 8) (.fresh 6) 1 8 with
      schedule := [⟨[.writeComplete 4], 0⟩, ⟨[.writeComplete 2, .writeComplete 2], 0⟩] }
      (some [1, 2, 3, 4, 5, 6, 7, 8, 9, 10]) 10).map
      (fun t => (t.ret, t.count, waits t.port.trace, t.port.trace.head?)) =
      some (0, 10, 2, some (.startWrite 0 4)) := by
    decide!
  obtain ⟨t, ht, he⟩ := Option.map_eq_some'.mp hs
  simp only [Prod.mk.injEq] at he
  exact ⟨t, ht, ⟨he.1, he.2.1, he.2.2.1, he.2.2.2⟩, write_result 5
    { quietPort (.fresh 8) (.fresh 6) 1 8 with
      schedule := [⟨[.writeComplete 4], 0⟩, ⟨[.writeComplete 2, .writeComplete 2], 0⟩] }
    [1, 2, 3, 4, 5, 6, 7, 8, 9, 10] 10 t (by decide) (by decide) (by decide)
    (fun _ => by decide) ⟨by decide, by decide, by decide⟩ ht⟩

/-! ## The write protocol of the hardware -/

theorem txRunFrom_append (strict : Bool) (u : UartLowLevel) (es fs : List Effect) (i : Nat)
    (pending : Option Nat) :
    txRunFrom strict u (es ++ fs) i pending =
      match txRunFrom strict u es i pending with
      | none => none
      | some pd => txRunFrom strict u fs (i + es.length) pd := by
  induction es generalizing i pending with
  | nil => rfl
  | cons e es ih =>
    simp only [List.cons_append, txRunFrom, List.length_cons]
    cases txStep strict u i pending e with
    | none => rfl
    | some pd =>
      have e1 : i + 1 + es.length = i + (es.length + 1) := by omega
      have h1 := ih (i + 1) pd
      rw [e1] at h1
      exact h1

theorem txRun_emit (strict : Bool) (q : SerialPort) (e : Effect) :
    txRun strict (q.emit e) =
      match txRun strict q with
      | none => none
      | some pd => txStep strict q.uart_ q.trace.length pd e := by
  show txRunFrom strict q.uart_ (q.trace ++ [e]) 0 none = _
  rw [txRunFrom_append]
  show _ = match txRunFrom strict q.uart_ q.trace 0 none with
    | none => none
    | some pd => txStep strict q.uart_ q.trace.length pd e
  cases txRunFrom strict q.uart_ q.trace 0 none with
  | none => rfl
  | some pd =>
    simp only [txRunFrom, Nat.zero_add]
    cases txStep strict q.uart_ q.trace.length pd e <;> rfl

theorem txRun_emit_some (strict : Bool) (q : SerialPort) (e : Effect) (pd : Option Nat)
    (h : txRun strict (q.emit e) = some pd) :
    ∃ pd0, txRun strict q = some pd0 ∧ txStep strict q.uart_ q.trace.length pd0 e = some pd := by
  rw [txRun_emit] at h
  cases h0 : txRun strict q with
  | none => rw [h0] at h; cases h
  | some pd0 =>
    rw [h0] at h
    exact ⟨pd0, rfl, h⟩

theorem txStep_neutral (strict : Bool) (u : UartLowLevel) (i : Nat) (pending : Option Nat)
    (e : Effect) (he : txNeutral e = true) : txStep strict u i pending e = some pending := by
  cases e with
  | startWrite o l => cases he
  | interrupt ev =>
    cases ev with
    | writeComplete n => cases he
    | transmitComplete => cases he
    | readComplete n => rfl
    | receiveError s => rfl
  | _ => rfl

theorem txRun_emit_neutral (strict : Bool) (q : SerialPort) (e : Effect)
    (he : txNeutral e = true) : txRun strict (q.emit e) = txRun strict q := by
  rw [txRun_emit]
  cases txRun strict q with
  | none => rfl
  | some pd => exact txStep_neutral strict _ _ pd e he

@[simp] theorem txRun_setHandle (strict : Bool) (q : SerialPort) (id : HandleId) (h : Handle) :
    txRun strict (q.setHandle id h) = txRun strict q := by
  cases id <;> rfl

theorem transmitted_append (es fs : List Effect) :
    transmitted (es ++ fs) = transmitted es + transmitted fs := by
  simp only [transmitted, List.map_append, List.sum_append]

theorem transmitted_emit (q : SerialPort) (e : Effect) :
    transmitted (q.emit e).trace = transmitted q.trace + reported e := by
  show transmitted (q.trace ++ [e]) = _
  rw [transmitted_append]
  simp only [transmitted, List.map_cons, List.map_nil, List.sum_cons, List.sum_nil, Nat.add_zero]

theorem reported_neutral (e : Effect) (he : txNeutral e = true) : reported e = 0 := by
  cases e with
  | interrupt ev =>
    cases ev with
    | writeComplete n => cases he
    | _ => rfl
  | _ => rfl

/-! ## Properties that survive the write protocol -/

theorem TxStable.arm {P : SerialPort → Prop} (hP : TxStable P) (p : SerialPort) (id : HandleId)
    (h : P p) : P (p.arm id) :=
  hP.handle p id _ h

theorem TxStable.disarm {P : SerialPort → Prop} (hP : TxStable P) (p : SerialPort)
    (id : HandleId) (h : P p) : P (p.disarm id) :=
  hP.handle p id _ h

theorem TxStable.postAndClear {P : SerialPort → Prop} (hP : TxStable P) (p : SerialPort)
    (id : HandleId) (h : P p) : P (p.postAndClear id) := by
  unfold SerialPort.postAndClear
  split
  · exact hP.handle _ id _ (hP.emit p (.post id) rfl h)
  · exact h

theorem TxStable.txStartReadWrapper {P : SerialPort → Prop} (hP : TxStable P) (p : SerialPort)
    (limit : Nat) (h : P p) : P (p.startReadWrapper limit).2 :=
  hP.emit p _ rfl h

theorem TxStable.txDeliver {P : SerialPort → Prop} (hP : TxStable P) (p : SerialPort) (e : Event)
    (h : P p) : P (p.deliver e) := by
  cases e with
  | readComplete n =>
    have h0 := hP.emit p (.interrupt (.readComplete n)) rfl h
    have h1 := hP.postAndClear _ .readSemaphore (hP.received _ (n % 4294967296) h0)
    simp only [SerialPort.deliver, readCompleteEvent]
    split
    · exact h1
    · exact hP.txStartReadWrapper _ _ h1
  | writeComplete n => exact hP.writeComplete p n h
  | transmitComplete => exact hP.transmitComplete p h
  | receiveError s => exact hP.emit p (.interrupt (.receiveError s)) rfl h

theorem TxStable.txDeliverAll {P : SerialPort → Prop} (hP : TxStable P) (es : List Event)
    (p : SerialPort) (h : P p) : P (p.deliverAll es) := by
  induction es generalizing p with
  | nil => exact h
  | cons e es ih => exact ih (p.deliver e) (hP.txDeliver p e h)

theorem TxStable.txWait {P : SerialPort → Prop} (hP : TxStable P) (p : SerialPort) (id : HandleId)
    (w : Int × SerialPort) (hw : p.wait id = some w) (h : P p) : P w.2 := by
  have h0 := hP.emit p (.wait id) rfl h
  unfold SerialPort.wait at hw
  simp only [] at hw
  split at hw
  · cases hw
    exact hP.handle _ id _ h0
  · split at hw
    · cases hw
    · next ws rest hsched =>
      have h1 := hP.txDeliverAll ws.events _ (hP.schedule _ rest h0)
      split at hw
      · cases hw
        exact h1
      · split at hw
        · cases hw
          exact hP.handle _ id _ h1
        · cases hw

/-! ## close: the end of the transmission -/

@[simp] theorem writeBuffer_postAndClear (p : SerialPort) (id : HandleId) :
    (p.postAndClear id).writeBuffer_ = p.writeBuffer_ := by
  unfold postAndClear
  split
  · cases id <;> rfl
  · rfl

@[simp] theorem writeInProgress_postAndClear (p : SerialPort) (id : HandleId) :
    (p.postAndClear id).writeInProgress_ = p.writeInProgress_ := by
  unfold postAndClear
  split
  · cases id <;> rfl
  · rfl

@[simp] theorem transmitInProgress_postAndClear (p : SerialPort) (id : HandleId) :
    (p.postAndClear id).transmitInProgress_ = p.transmitInProgress_ := by
  unfold postAndClear
  split
  · cases id <;> rfl
  · rfl

@[simp] theorem txRun_postAndClear (strict : Bool) (p : SerialPort) (id : HandleId) :
    txRun strict (p.postAndClear id) = txRun strict p := by
  unfold postAndClear
  split
  · rw [txRun_setHandle, txRun_emit_neutral strict p (.post id) rfl]
  · rfl

theorem transmitted_postAndClear (p : SerialPort) (id : HandleId) :
    transmitted (p.postAndClear id).trace = transmitted p.trace := by
  unfold postAndClear
  split
  · have e : ((p.emit (.post id)).setHandle id ⟨false, (p.handle id).value + 1⟩).trace =
        (p.emit (.post id)).trace := by
      cases id <;> rfl
    rw [e, transmitted_emit]
    rfl
  · rfl

theorem close_zero_last (fuel : Nat) (p r : SerialPort) (hlast : p.openCount_ = 1)
    (h : close fuel p = some (0, r)) :
    ∃ q, closeLoop fuel p = some (none, q) ∧ r.trace = q.trace ++ [.stopRead, .stop] ∧
      r.openCount_ = 0 ∧ r.readBuffer_ = q.readBuffer_.clear ∧
      r.writeBuffer_ = q.writeBuffer_.clear := by
  have h0 : ¬ p.openCount_ = 0 := by omega
  simp only [close, if_neg h0, if_pos hlast] at h
  cases hl : closeLoop fuel p with
  | none => rw [hl] at h; cases h
  | some res =>
    rw [hl] at h
    obtain ⟨ret, q⟩ := res
    cases ret with
    | some s =>
      simp only [Option.some.injEq, Prod.mk.injEq] at h
      have hne := (openCount_closeLoop fuel p _ hl).2 s rfl
      exact absurd h.1 hne
    | none =>
      have hq : q.openCount_ = 1 := by
        rw [(openCount_closeLoop fuel p _ hl).1]
        exact hlast
      simp only [uartStopRead, uartStop, emit] at h
      split at h
      · simp only [Option.some.injEq, Prod.mk.injEq] at h
        rename_i hne
        exact absurd h.1 hne
      · simp only [Option.some.injEq, Prod.mk.injEq, true_and] at h
        subst h
        refine ⟨q, rfl, ?_, ?_, rfl, rfl⟩
        · simp only [List.append_assoc, List.singleton_append]
        · show q.openCount_ - 1 = 0
          omega

/-- C13 (the code at the failing input): an open port (`openCount_ == 1`, outbound capacity 8) whose
hardware refuses the third call made to it. `write` accepts 4 bytes and hands them to the
hardware, a second `write` accepts 2 more bytes; `writeCompleteEvent(4)` calls `startWrite` for
these 2 bytes, the hardware refuses and the status is dropped; the first block is shifted out and
`transmitCompleteEvent` fires. The loop of `close` then ends at once with `transmitInProgress_`
false while the outbound buffer still holds the bytes 5 and 6, and `close` stops the hardware,
clears the buffers and returns 0. -/
theorem close_discards_queued_bytes :
    ((runCalls { quietPort (.fresh 8) (.fresh 8) 1 8 with
          uart_ := ⟨fun i => if i = 2 then 5 else 0, fun _ => 0⟩ } []
        [.write 1 [1, 2, 3, 4] 4, .write 1 [5, 6] 2, .interrupt (.writeComplete 4),
          .interrupt .transmitComplete]).bind
      (fun r => (closeLoop 1 r.1).map
        (fun c => (r.2, c.1, c.2.transmitInProgress_, c.2.writeBuffer_.isEmpty)))) =
      some ([1, 2, 3, 4, 5, 6], none, false, false) ∧
    ((runCalls { quietPort (.fresh 8) (.fresh 8) 1 8 with
          uart_ := ⟨fun i => if i = 2 then 5 else 0, fun _ => 0⟩ } []
        [.write 1 [1, 2, 3, 4] 4, .write 1 [5, 6] 2, .interrupt (.writeComplete 4),
          .interrupt .transmitComplete]).bind
      (fun r => (closeLoop 1 r.1).map
        (fun c => (c.2.writeBuffer_.contents, c.2.trace)))) =
      some ([5, 6],
        [.startWrite 0 4, .interrupt (.writeComplete 4), .startWrite 4 2,
          .interrupt .transmitComplete]) ∧
    ((runCalls { quietPort (.fresh 8) (.fresh 8) 1 8 with
          uart_ := ⟨fun i => if i = 2 then 5 else 0, fun _ => 0⟩ } []
        [.write 1 [1, 2, 3, 4] 4, .write 1 [5, 6] 2, .interrupt (.writeComplete 4),
          .interrupt .transmitComplete]).bind
      (fun r => (close 1 r.1).map
        (fun c => (c.1, c.2.openCount_, c.2.writeBuffer_.contents, c.2.trace)))) =
      some (0, 0, [],
        [.startWrite 0 4, .interrupt (.writeComplete 4), .startWrite 4 2,
          .interrupt .transmitComplete, .stopRead, .stop]) := by
  decide!

end SerialPort

/-! ## The stored bytes of a ring buffer -/

theorem length_slice (buf : List Nat) (off len : Nat) (h : off + len ≤ buf.length) :
    (slice buf off len).length = len := by
  simp only [slice, List.length_take, List.length_drop]
  omega

theorem slice_zero_len (buf : List Nat) (off : Nat) : slice buf off 0 = [] := by
  simp only [slice, List.take_zero]

theorem drop_slice (buf : List Nat) (off len n : Nat) :
    (slice buf off len).drop n = slice buf (off + n) (len - n) := by
  simp only [slice, List.drop_take, List.drop_drop]

theorem take_slice (buf : List Nat) (off len n : Nat) (h : n ≤ len) :
    (slice buf off len).take n = slice buf off n := by
  simp only [slice, List.take_take]
  congr 1
  omega

theorem slice_memcpy_after (dest : List Nat) (off : Nat) (src : List Nat) (k len : Nat)
    (h : off + src.length ≤ dest.length) (hk : off + src.length ≤ k) :
    slice (memcpy dest off src) k len = slice dest k len := by
  simp only [slice]
  rw [drop_memcpy dest off src k h hk]

theorem slice_memcpy_through (dest : List Nat) (off : Nat) (src : List Nat) (k : Nat)
    (h : off + src.length ≤ dest.length) (hk : k ≤ off) :
    slice (memcpy dest off src) k (off - k + src.length) = slice dest k (off - k) ++ src := by
  have hl : ((dest.take off).drop k).length = off - k := by
    simp only [List.length_drop, List.length_take]
    omega
  have e1 : (memcpy dest off src).drop k =
      (dest.take off).drop k ++ (src ++ dest.drop (off + src.length)) := by
    unfold memcpy
    rw [List.append_assoc, List.drop_append_of_le_length (by
      simp only [List.length_take]; omega)]
  have e2 : slice dest k (off - k) = (dest.take off).drop k := by
    simp only [slice, List.drop_take]
  rw [e2]
  simp only [slice]
  rw [e1, ← List.append_assoc, List.take_append_of_le_length (by
    simp only [List.length_append, hl]; omega)]
  rw [List.take_of_length_le (by simp only [List.length_append, hl]; omega)]

theorem slice_memcpy_prefix (dest : List Nat) (off : Nat) (src : List Nat)
    (h : off + src.length ≤ dest.length) :
    slice (memcpy dest off src) 0 (off + src.length) = slice dest 0 off ++ src := by
  have := slice_memcpy_through dest off src 0 h (Nat.zero_le _)
  simpa using this

namespace RingBuffer

theorem readPosition_increaseReadPosition_of_valid (rb : RingBuffer) (n : Nat) (h : rb.Valid)
    (hn : n ≤ rb.getReadBlock.2) :
    (rb.increaseReadPosition n).readPosition_ =
      if rb.readPosition_ + n = rb.size_ then 0 else rb.readPosition_ + n := by
  rw [getReadBlock_snd_of_valid rb h] at hn
  obtain ⟨h2, hC, hr, hw, h1, h3⟩ := h
  have hle : rb.readPosition_ + n ≤ rb.size_ := by
    split at hn <;> omega
  have : uadd rb.readPosition_ n = rb.readPosition_ + n := by
    simp only [uadd]; omega
  simp only [increaseReadPosition, this]
  exact wrap_cursor _ _ hle

theorem writePosition_increaseWritePosition_of_valid (rb : RingBuffer) (n : Nat) (h : rb.Valid)
    (hn : n ≤ rb.getWriteBlock.2) :
    (rb.increaseWritePosition n).writePosition_ =
      if rb.writePosition_ + n = rb.size_ then 0 else rb.writePosition_ + n := by
  rw [getWriteBlock_snd_of_valid rb h] at hn
  obtain ⟨h2, hC, hr, hw, h1, h3⟩ := h
  have hle : rb.writePosition_ + n ≤ rb.size_ := by
    split at hn <;> omega
  have : uadd rb.writePosition_ n = rb.writePosition_ + n := by
    simp only [uadd]; omega
  simp only [increaseWritePosition, this]
  exact wrap_cursor _ _ hle

theorem length_contents (rb : RingBuffer) (h : rb.Valid) (hlen : rb.size_ ≤ rb.buffer_.length) :
    rb.contents.length = rb.stored := by
  rw [stored_of_valid rb h]
  obtain ⟨h2, hC, hr, hw, h1, h3⟩ := h
  unfold contents
  split
  · exact length_slice _ _ _ (by omega)
  · rw [List.length_append, length_slice _ _ _ (by omega), length_slice _ _ _ (by omega)]
    omega

theorem take_contents (rb : RingBuffer) (l : Nat) (h : rb.Valid)
    (hlen : rb.size_ ≤ rb.buffer_.length) (hl : l ≤ rb.getReadBlock.2) :
    rb.contents.take l = slice rb.buffer_ rb.readPosition_ l := by
  rw [getReadBlock_snd_of_valid rb h] at hl
  obtain ⟨h2, hC, hr, hw, h1, h3⟩ := h
  unfold contents
  split
  · next hle =>
    rw [if_pos hle] at hl
    exact take_slice _ _ _ _ hl
  · next hgt =>
    rw [if_neg hgt] at hl
    rw [List.take_append_of_le_length (by rw [length_slice _ _ _ (by omega)]; exact hl)]
    exact take_slice _ _ _ _ hl

theorem contents_increaseReadPosition (rb : RingBuffer) (n : Nat) (h : rb.Valid)
    (hlen : rb.size_ ≤ rb.buffer_.length) (hn : n ≤ rb.getReadBlock.2) :
    (rb.increaseReadPosition n).contents = rb.contents.drop n := by
  have hr' := readPosition_increaseReadPosition_of_valid rb n h hn
  rw [getReadBlock_snd_of_valid rb h] at hn
  obtain ⟨h2, hC, hr, hw, h1, h3⟩ := h
  obtain ⟨rb1, hrb1, e1, e2, e3⟩ : ∃ rb1 : RingBuffer, rb1 = rb.increaseReadPosition n ∧
      rb1.buffer_ = rb.buffer_ ∧ rb1.size_ = rb.size_ ∧ rb1.writePosition_ = rb.writePosition_ :=
    ⟨_, rfl, rfl, rfl, rfl⟩
  rw [← hrb1] at hr' ⊢
  unfold contents
  rw [e1, e2, e3, hr']
  by_cases hle : rb.readPosition_ ≤ rb.writePosition_
  · rw [if_pos hle] at hn
    have hne : ¬ rb.readPosition_ + n = rb.size_ := by omega
    rw [if_neg hne, if_pos hle, if_pos (by omega), drop_slice]
    congr 1
    omega
  · rw [if_neg hle] at hn
    rw [if_neg hle]
    have hl1 : (slice rb.buffer_ rb.readPosition_ (rb.size_ - rb.readPosition_)).length =
        rb.size_ - rb.readPosition_ := length_slice _ _ _ (by omega)
    by_cases hend : rb.readPosition_ + n = rb.size_
    · rw [if_pos hend, if_pos (Nat.zero_le _), Nat.sub_zero]
      have hn' : n = (slice rb.buffer_ rb.readPosition_ (rb.size_ - rb.readPosition_)).length := by
        rw [hl1]; omega
      rw [hn', List.drop_left]
    · rw [if_neg hend, if_neg (by omega),
        List.drop_append_of_le_length (by rw [hl1]; exact hn), drop_slice]
      congr 2
      omega

theorem contents_write (rb : RingBuffer) (d : List Nat) (h : rb.Valid)
    (hlen : rb.size_ ≤ rb.buffer_.length) (hd : d.length ≤ rb.getWriteBlock.2) :
    ({ rb with buffer_ := memcpy rb.buffer_ rb.getWriteBlock.1 d }.increaseWritePosition
      d.length).contents = rb.contents ++ d := by
  obtain ⟨rb0, hrb0, hv0, hb0, e1, e2, e3, e4⟩ : ∃ rb0 : RingBuffer,
      rb0 = { rb with buffer_ := memcpy rb.buffer_ rb.getWriteBlock.1 d } ∧ rb0.Valid ∧
      rb0.getWriteBlock.2 = rb.getWriteBlock.2 ∧
      rb0.buffer_ = memcpy rb.buffer_ rb.writePosition_ d ∧ rb0.size_ = rb.size_ ∧
      rb0.readPosition_ = rb.readPosition_ ∧ rb0.writePosition_ = rb.writePosition_ :=
    ⟨_, rfl, h, rfl, rfl, rfl, rfl, rfl⟩
  rw [← hrb0]
  have hw' := writePosition_increaseWritePosition_of_valid rb0 d.length hv0 (by rw [hb0]; exact hd)
  rw [e2, e4] at hw'
  rw [getWriteBlock_snd_of_valid rb h] at hd
  obtain ⟨h2, hC, hr, hw, h1, h3⟩ := h
  obtain ⟨rb1, hrb1, f1, f2, f3⟩ : ∃ rb1 : RingBuffer, rb1 = rb0.increaseWritePosition d.length ∧
      rb1.buffer_ = rb0.buffer_ ∧ rb1.size_ = rb0.size_ ∧
      rb1.readPosition_ = rb0.readPosition_ := ⟨_, rfl, rfl, rfl, rfl⟩
  rw [← hrb1] at hw' ⊢
  unfold contents
  rw [f1, f2, f3, e1, e2, e3, hw']
  by_cases hlt : rb.writePosition_ < rb.readPosition_
  · rw [if_pos hlt] at hd
    have hne : ¬ rb.writePosition_ + d.length = rb.size_ := by omega
    rw [if_neg hne, if_neg (by omega), if_neg (by omega),
      slice_memcpy_after _ _ _ _ _ (by omega) (by omega),
      slice_memcpy_prefix _ _ _ (by omega), List.append_assoc]
  · rw [if_neg hlt] at hd
    have hle : rb.readPosition_ ≤ rb.writePosition_ := by omega
    have hm1 : d.length ≤ rb.size_ - rb.writePosition_ + rb.readPosition_ - 2 :=
      Nat.le_trans hd (Nat.min_le_left _ _)
    have hm2 : d.length ≤ rb.size_ - rb.writePosition_ :=
      Nat.le_trans hd (Nat.min_le_right _ _)
    rw [if_pos hle]
    by_cases hend : rb.writePosition_ + d.length = rb.size_
    · rw [if_pos hend]
      by_cases hd0 : d.length = 0
      · omega
      · rw [if_neg (by omega), slice_zero_len, List.append_nil]
        have e : rb.size_ - rb.readPosition_ =
            rb.writePosition_ - rb.readPosition_ + d.length := by omega
        rw [e, slice_memcpy_through _ _ _ _ (by omega) hle]
    · rw [if_neg hend, if_pos (by omega)]
      have e : rb.writePosition_ + d.length - rb.readPosition_ =
          rb.writePosition_ - rb.readPosition_ + d.length := by omega
      rw [e, slice_memcpy_through _ _ _ _ (by omega) hle]

theorem getReadBlock_increaseWritePosition (rb : RingBuffer) (n : Nat) (h : rb.Valid)
    (hn : n ≤ rb.getWriteBlock.2) :
    rb.getReadBlock.2 ≤ (rb.increaseWritePosition n).getReadBlock.2 := by
  have hv' := valid_increaseWritePosition rb n h hn
  have hw' := writePosition_increaseWritePosition_of_valid rb n h hn
  rw [getReadBlock_snd_of_valid rb h, getReadBlock_snd_of_valid _ hv']
  rw [getWriteBlock_snd_of_valid rb h] at hn
  obtain ⟨h2, hC, hr, hw, h1, h3⟩ := h
  have e3 : (rb.increaseWritePosition n).readPosition_ = rb.readPosition_ := rfl
  have e2 : (rb.increaseWritePosition n).size_ = rb.size_ := rfl
  rw [e3, e2, hw']
  split at hn <;> split_ifs <;> omega

end RingBuffer

theorem slice_append_slice (buf : List Nat) (off m k : Nat) :
    slice buf off m ++ slice buf (off + m) k = slice buf off (m + k) := by
  simp only [slice]
  rw [List.take_add, List.drop_drop]

theorem RingBuffer.buffer_increaseWritePosition (rb : RingBuffer) (n : Nat) :
    (rb.increaseWritePosition n).buffer_ = rb.buffer_ := rfl

open RingBuffer in
theorem writeToRingBufferLoop_contents (buffer : List Nat) (off size : Nat)
    (hsz : size < 4294967296) (hlen : off + size ≤ buffer.length) (fuel : Nat) (rb : RingBuffer)
    (bytesWritten : Nat) (hv : rb.Valid) (hst : rb.size_ ≤ rb.buffer_.length)
    (hle : bytesWritten ≤ size) :
    (writeToRingBufferLoop buffer off size fuel rb bytesWritten).ringBuffer.Valid ∧
    (writeToRingBufferLoop buffer off size fuel rb bytesWritten).ringBuffer.size_ ≤
      (writeToRingBufferLoop buffer off size fuel rb bytesWritten).ringBuffer.buffer_.length ∧
    (writeToRingBufferLoop buffer off size fuel rb bytesWritten).ringBuffer.contents =
      rb.contents ++ slice buffer (off + bytesWritten)
        ((writeToRingBufferLoop buffer off size fuel rb bytesWritten).count - bytesWritten) ∧
    rb.getReadBlock.2 ≤
      (writeToRingBufferLoop buffer off size fuel rb bytesWritten).ringBuffer.getReadBlock.2 := by
  induction fuel generalizing rb bytesWritten with
  | zero =>
    rw [writeToRingBufferLoop_zero]
    exact ⟨hv, hst, by rw [Nat.sub_self, slice_zero_len, List.append_nil], Nat.le_refl _⟩
  | succ fuel ih =>
    by_cases hc : rb.getWriteBlock.2 ≠ 0 ∧ bytesWritten ≠ size
    · rw [writeToRingBufferLoop_step buffer off size fuel rb bytesWritten hc]
      have hu : usub size bytesWritten = size - bytesWritten := by
        simp only [usub]; omega
      have hm1 : min rb.getWriteBlock.2 (usub size bytesWritten) ≤ size - bytesWritten := by
        rw [hu]; exact Nat.min_le_right _ _
      have hm2 : min rb.getWriteBlock.2 (usub size bytesWritten) ≤ rb.getWriteBlock.2 :=
        Nat.min_le_left _ _
      have ha : uadd bytesWritten (min rb.getWriteBlock.2 (usub size bytesWritten)) =
          bytesWritten + min rb.getWriteBlock.2 (usub size bytesWritten) := by
        simp only [uadd]; omega
      rw [ha]
      generalize hm : min rb.getWriteBlock.2 (usub size bytesWritten) = m at hm1 hm2 ⊢
      have hdl : (slice buffer (off + bytesWritten) m).length = m :=
        length_slice _ _ _ (by omega)
      have hwl := getWriteBlock_snd_le rb (inStorage_of_valid rb hv)
      obtain ⟨rb0, hrb0, hv0, hb0, hg0, hl0, hs0⟩ : ∃ rb0 : RingBuffer,
          rb0 = { rb with
            buffer_ := memcpy rb.buffer_ rb.getWriteBlock.1
              (slice buffer (off + bytesWritten) m) } ∧ rb0.Valid ∧
          rb0.getWriteBlock.2 = rb.getWriteBlock.2 ∧ rb0.getReadBlock.2 = rb.getReadBlock.2 ∧
          rb0.buffer_ = memcpy rb.buffer_ rb.writePosition_
            (slice buffer (off + bytesWritten) m) ∧ rb0.size_ = rb.size_ :=
        ⟨_, rfl, hv, rfl, rfl, rfl, rfl⟩
      have hcw := contents_write rb (slice buffer (off + bytesWritten) m) hv hst
        (by rw [hdl]; exact hm2)
      rw [← hrb0, hdl] at hcw
      rw [← hrb0]
      have hv1 := valid_increaseWritePosition rb0 m hv0 (by rw [hb0]; exact hm2)
      have hst1 : (rb0.increaseWritePosition m).size_ ≤
          (rb0.increaseWritePosition m).buffer_.length := by
        rw [size_increaseWritePosition, buffer_increaseWritePosition, hl0, hs0,
          length_memcpy _ _ _ (by rw [hdl]; omega)]
        exact hst
      have hg1 := getReadBlock_increaseWritePosition rb0 m hv0 (by rw [hb0]; exact hm2)
      rw [hg0] at hg1
      obtain ⟨i1, i2, i3, i4⟩ := ih (rb0.increaseWritePosition m) (bytesWritten + m) hv1 hst1
        (by omega)
      have hcnt := (writeToRingBufferLoop_frame buffer off size hsz fuel
        (rb0.increaseWritePosition m) (bytesWritten + m) (inStorage_of_valid _ hv1)
        (by omega)).1
      refine ⟨i1, i2, ?_, Nat.le_trans hg1 i4⟩
      rw [i3, hcw, List.append_assoc]
      generalize Copied.count _ = c at hcnt ⊢
      have e1 : off + (bytesWritten + m) = off + bytesWritten + m := by omega
      have e2 : c - bytesWritten = m + (c - (bytesWritten + m)) := by omega
      rw [e1, slice_append_slice, ← e2]
    · rw [writeToRingBufferLoop_stop buffer off size _ rb bytesWritten hc]
      exact ⟨hv, hst, by rw [Nat.sub_self, slice_zero_len, List.append_nil], Nat.le_refl _⟩

namespace SerialPort

/-! ## The outbound buffer as a queue -/

theorem fifo_emit (stream : List Nat) (q : SerialPort) (e : Effect) (he : txNeutral e = true)
    (h : Fifo stream q) : Fifo stream (q.emit e) := by
  intro pd hpd
  rw [txRun_emit_neutral false q e he] at hpd
  have ht : transmitted (q.emit e).trace = transmitted q.trace := by
    rw [transmitted_emit, reported_neutral e he, Nat.add_zero]
  rw [ht]
  exact h pd hpd

theorem fifo_setHandle (stream : List Nat) (q : SerialPort) (id : HandleId) (hd : Handle)
    (h : Fifo stream q) : Fifo stream (q.setHandle id hd) := by
  cases id <;> exact h

theorem fifo_postAndClear (stream : List Nat) (q : SerialPort) (id : HandleId)
    (h : Fifo stream q) : Fifo stream (q.postAndClear id) := by
  unfold postAndClear
  split
  · exact fifo_setHandle stream _ id _ (fifo_emit stream q (.post id) rfl h)
  · exact h

theorem fifo_startWriteWrapper (stream : List Nat) (q : SerialPort) (h : Fifo stream q) :
    Fifo stream (q.startWriteWrapper).2 := by
  intro pd hpd
  obtain ⟨pd0, h0, hstep⟩ := txRun_emit_some false _ _ pd hpd
  obtain ⟨a1, a2, a3, a4, a5⟩ := h pd0 h0
  have ht : transmitted (q.startWriteWrapper).2.trace = transmitted q.trace := by
    show transmitted (q.trace ++ [_]) = _
    rw [transmitted_append]
    rfl
  rw [ht]
  refine ⟨a1, a2, a3, a4, ?_⟩
  intro l hl
  subst hl
  simp only [txStep] at hstep
  split at hstep
  · simp only [Option.some.injEq] at hstep
    subst hstep
    exact Nat.le_refl _
  · simp only [Bool.false_eq_true, if_false, Option.some.injEq] at hstep
    cases hstep

theorem fifo_consume (stream : List Nat) (q : SerialPort) (n : Nat) (h : Fifo stream q) :
    Fifo stream { q.emit (.interrupt (.writeComplete n)) with
      writeBuffer_ := q.writeBuffer_.increaseReadPosition (n % 4294967296) } := by
  intro pd hpd
  obtain ⟨pd0, h0, hstep⟩ := txRun_emit_some false q (.interrupt (.writeComplete n)) pd hpd
  cases pd0 with
  | none =>
    simp only [txStep] at hstep
    cases hstep
  | some l =>
    simp only [txStep] at hstep
    split at hstep
    · next hnl =>
      simp only [Option.some.injEq] at hstep
      subst hstep
      obtain ⟨a1, a2, a3, a4, a5⟩ := h (some l) h0
      have hl := a5 l rfl
      have hnb : n ≤ q.writeBuffer_.getReadBlock.2 := Nat.le_trans hnl hl
      have hst := RingBuffer.getReadBlock_le_stored q.writeBuffer_
        (RingBuffer.inStorage_of_valid _ a1)
      have hlc := RingBuffer.length_contents q.writeBuffer_ a1 a2
      have hsl : q.writeBuffer_.stored < 4294967296 := by
        have := a1.2.1
        have hlt : q.writeBuffer_.stored < q.writeBuffer_.size_ := by
          unfold RingBuffer.stored
          exact Nat.mod_lt _ (by have := a1.1; omega)
        omega
      have hmod : n % 4294967296 = n := Nat.mod_eq_of_lt (by omega)
      have ht : transmitted (q.emit (.interrupt (.writeComplete n))).trace =
          transmitted q.trace + n := transmitted_emit q _
      have hlen : (stream.drop (transmitted q.trace)).length = q.writeBuffer_.stored := by
        rw [← a3, hlc]
      rw [List.length_drop] at hlen
      show (q.writeBuffer_.increaseReadPosition (n % 4294967296)).Valid ∧
        (q.writeBuffer_.increaseReadPosition (n % 4294967296)).size_ ≤
          (q.writeBuffer_.increaseReadPosition (n % 4294967296)).buffer_.length ∧
        (q.writeBuffer_.increaseReadPosition (n % 4294967296)).contents =
          stream.drop (transmitted (q.emit (.interrupt (.writeComplete n))).trace) ∧
        transmitted (q.emit (.interrupt (.writeComplete n))).trace ≤ stream.length ∧
        ∀ l, none = some l →
          l ≤ (q.writeBuffer_.increaseReadPosition (n % 4294967296)).getReadBlock.2
      rw [hmod, ht]
      refine ⟨RingBuffer.valid_increaseReadPosition _ n a1 hnb, a2, ?_, by omega,
        fun l hl => by cases hl⟩
      rw [RingBuffer.contents_increaseReadPosition _ n a1 a2 hnb, a3, List.drop_drop]
    · cases hstep

theorem fifo_writeComplete (stream : List Nat) (q : SerialPort) (n : Nat) (h : Fifo stream q) :
    Fifo stream (q.deliver (.writeComplete n)) := by
  have h1 := fifo_postAndClear stream _ .writeSemaphore (fifo_consume stream q n h)
  simp only [deliver, writeCompleteEvent]
  split
  · exact h1
  · exact fifo_startWriteWrapper stream _ h1

theorem fifo_transmitComplete (stream : List Nat) (q : SerialPort) (h : Fifo stream q) :
    Fifo stream (q.deliver .transmitComplete) := by
  have h0 : Fifo stream (q.emit (.interrupt .transmitComplete)) := by
    intro pd hpd
    obtain ⟨pd0, h0, hstep⟩ := txRun_emit_some false q _ pd hpd
    simp only [txStep, Bool.false_eq_true, false_and, if_false, Option.some.injEq] at hstep
    subst hstep
    have ht : transmitted (q.emit (.interrupt .transmitComplete)).trace =
        transmitted q.trace := by
      rw [transmitted_emit]
      rfl
    rw [ht]
    exact h pd0 h0
  exact fifo_postAndClear stream _ .transmitSemaphore h0

theorem txStable_fifo (stream : List Nat) : TxStable (Fifo stream) :=
  ⟨fifo_emit stream, fifo_setHandle stream, fun _ _ h => h, fun _ _ h => h,
    fifo_startWriteWrapper stream, fifo_writeComplete stream, fifo_transmitComplete stream⟩

end SerialPort

theorem writeToRingBufferLoop_count_le (buffer : List Nat) (off size : Nat)
    (hsz : size < 4294967296) (fuel : Nat) (rb : RingBuffer) (bytesWritten : Nat)
    (hle : bytesWritten ≤ size) :
    bytesWritten ≤ (writeToRingBufferLoop buffer off size fuel rb bytesWritten).count ∧
    (writeToRingBufferLoop buffer off size fuel rb bytesWritten).count ≤ size := by
  induction fuel generalizing rb bytesWritten with
  | zero =>
    rw [writeToRingBufferLoop_zero]
    exact ⟨Nat.le_refl _, hle⟩
  | succ fuel ih =>
    by_cases hc : rb.getWriteBlock.2 ≠ 0 ∧ bytesWritten ≠ size
    · rw [writeToRingBufferLoop_step buffer off size fuel rb bytesWritten hc]
      have hu : usub size bytesWritten = size - bytesWritten := by
        simp only [usub]; omega
      have hm : min rb.getWriteBlock.2 (usub size bytesWritten) ≤ size - bytesWritten := by
        rw [hu]; exact Nat.min_le_right _ _
      have ha : uadd bytesWritten (min rb.getWriteBlock.2 (usub size bytesWritten)) =
          bytesWritten + min rb.getWriteBlock.2 (usub size bytesWritten) := by
        simp only [uadd]; omega
      rw [ha]
      generalize min rb.getWriteBlock.2 (usub size bytesWritten) = m at hm ⊢
      generalize RingBuffer.increaseWritePosition _ m = rb1
      have := ih rb1 (bytesWritten + m) (by omega)
      omega
    · rw [writeToRingBufferLoop_stop buffer off size _ rb bytesWritten hc]
      exact ⟨Nat.le_refl _, hle⟩

namespace SerialPort

theorem fifo_copy (stream buffer : List Nat) (size : Nat) (q : SerialPort) (b : Nat)
    (hsz : size < 4294967296) (hlen : size ≤ buffer.length) (hb : b ≤ size)
    (h : Fifo (stream ++ buffer.take b) q) (c : Copied) (q1 : SerialPort)
    (hc : writeToRingBuffer buffer b (usub size b) q.writeBuffer_ = c)
    (hq : q1 = { q.arm .writeSemaphore with writeBuffer_ := c.ringBuffer }) :
    Fifo (stream ++ buffer.take (uadd b c.count)) q1 ∧ uadd b c.count ≤ size := by
  have hu : usub size b = size - b := by simp only [usub]; omega
  have hc' : writeToRingBufferLoop buffer b (usub size b) (usub size b) q.writeBuffer_ 0 = c := hc
  have hcnt : c.count ≤ size - b := by
    have := (writeToRingBufferLoop_count_le buffer b (usub size b) (by rw [hu]; omega)
      (usub size b) q.writeBuffer_ 0 (Nat.zero_le _)).2
    rw [hc', hu] at this
    exact this
  have ha : uadd b c.count = b + c.count := by simp only [uadd]; omega
  rw [ha]
  refine ⟨?_, by omega⟩
  intro pd hpd
  have e1 : q1.writeBuffer_ = c.ringBuffer := by rw [hq]
  have e2 : q1.trace = q.trace := by rw [hq]; exact trace_arm q _
  have hpd' : txRun false q = some pd := by
    rw [← hpd, hq]
    exact (txRun_setHandle false q .writeSemaphore ⟨true, 0⟩).symm
  obtain ⟨a1, a2, a3, a4, a5⟩ := h pd hpd'
  obtain ⟨i1, i2, i3, i4⟩ := writeToRingBufferLoop_contents buffer b (usub size b)
    (by rw [hu]; omega) (by rw [hu]; omega) (usub size b) q.writeBuffer_ 0 a1 a2
    (Nat.zero_le _)
  rw [hc'] at i1 i2 i3 i4
  rw [Nat.add_zero, Nat.sub_zero] at i3
  rw [e1, e2]
  have ht : buffer.take (b + c.count) = buffer.take b ++ slice buffer b c.count := by
    rw [List.take_add]
    rfl
  refine ⟨i1, i2, ?_, ?_, fun l hl => Nat.le_trans (a5 l hl) i4⟩
  · rw [i3, a3, ht, ← List.append_assoc, List.drop_append_of_le_length a4]
  · rw [List.length_append] at a4 ⊢
    have : (buffer.take b).length ≤ (buffer.take (b + c.count)).length := by
      simp only [List.length_take]
      omega
    omega

theorem fifo_writeLoop (stream buffer : List Nat) (size : Nat) (hsz : size < 4294967296)
    (hlen : size ≤ buffer.length) (fuel : Nat) (p : SerialPort) (t : Transfer)
    (hp : Fifo stream p) (h : writeLoop size fuel p buffer 0 = some t) :
    Fifo (stream ++ buffer.take t.count) t.port := by
  have h0 : Fifo (stream ++ buffer.take 0) p := by
    rw [List.take_zero, List.append_nil]
    exact hp
  refine writeLoop_induct size
    (fun q buf b => buf = buffer ∧ b ≤ size ∧ Fifo (stream ++ buffer.take b) q)
    (fun t => Fifo (stream ++ buffer.take t.count) t.port)
    ?_ ?_ ?_ fuel p buffer 0 t ⟨rfl, Nat.zero_le _, h0⟩ h
  · intro q buf b hq _
    exact hq.2.2
  · intro q buf b t hq _ hit
    obtain ⟨hbuf, hb, hf⟩ := hq
    subst hbuf
    obtain ⟨c, q1, hc, hq1, hcase⟩ := writeIteration_returned size q buf b t hit
    have a1 := (fifo_copy stream buf size q b hsz hlen hb hf c q1 hc hq1).1
    rcases hcase with ⟨_, _, _, ht⟩ | ⟨_, _, w, hw, _, ht⟩
    · subst ht
      exact (txStable_fifo _).disarm _ _ (fifo_startWriteWrapper _ q1 a1)
    · subst ht
      exact (txStable_fifo _).disarm _ _ ((txStable_fifo _).txWait q1 _ w hw a1)
  · intro q buf b s hq _ hit
    obtain ⟨hbuf, hb, hf⟩ := hq
    subst hbuf
    obtain ⟨c, q1, hc, hq1, hcase⟩ := writeIteration_next size q buf b s hit
    obtain ⟨a1, a2⟩ := fifo_copy stream buf size q b hsz hlen hb hf c q1 hc hq1
    rcases hcase with ⟨_, _, _, hs⟩ | ⟨_, _, w, hw, _, hs⟩ | ⟨_, _, hs⟩
    · subst hs
      exact ⟨rfl, a2, (txStable_fifo _).disarm _ _ (fifo_startWriteWrapper _ q1 a1)⟩
    · subst hs
      exact ⟨rfl, a2, (txStable_fifo _).disarm _ _ ((txStable_fifo _).txWait q1 _ w hw a1)⟩
    · subst hs
      exact ⟨rfl, a2, (txStable_fifo _).disarm _ _ a1⟩

theorem fifo_write (stream buffer : List Nat) (size : Nat) (hsz : size < 4294967296)
    (hlen : size ≤ buffer.length) (fuel : Nat) (p : SerialPort) (t : Transfer)
    (hp : Fifo stream p) (h : write fuel p (some buffer) size = some t) :
    Fifo (stream ++ buffer.take t.count) t.port := by
  have hz : Fifo (stream ++ buffer.take 0) p := by
    rw [List.take_zero, List.append_nil]
    exact hp
  simp only [write] at h
  split at h
  · cases h; exact hz
  · split at h
    · cases h; exact hz
    · split at h
      · cases h; exact hz
      · exact fifo_writeLoop stream buffer size hsz hlen fuel p t hp h

theorem fifo_runCalls (calls : List Call) (p : SerialPort) (accepted : List Nat)
    (r : SerialPort × List Nat)
    (hcalls : ∀ fuel buffer size, Call.write fuel buffer size ∈ calls →
      size ≤ buffer.length ∧ size < 4294967296)
    (hp : Fifo accepted p) (h : runCalls p accepted calls = some r) : Fifo r.2 r.1 := by
  induction calls generalizing p accepted with
  | nil =>
    simp only [runCalls] at h
    cases h
    exact hp
  | cons c calls ih =>
    have hrest : ∀ fuel buffer size, Call.write fuel buffer size ∈ calls →
        size ≤ buffer.length ∧ size < 4294967296 :=
      fun fuel buffer size hm => hcalls fuel buffer size (List.mem_cons_of_mem _ hm)
    cases c with
    | write fuel buffer size =>
      obtain ⟨hl, hs⟩ := hcalls fuel buffer size (List.mem_cons_self _ _)
      simp only [runCalls] at h
      cases hw : write fuel p (some buffer) size with
      | none => rw [hw] at h; cases h
      | some t =>
        rw [hw] at h
        exact ih t.port _ hrest (fifo_write accepted buffer size hs hl fuel p t hp hw) h
    | interrupt e =>
      simp only [runCalls] at h
      exact ih (p.deliver e) _ hrest ((txStable_fifo _).txDeliver p e hp) h

theorem runCalls_prepend (stream : List Nat) (calls : List Call) (p : SerialPort)
    (accepted : List Nat) (r : SerialPort × List Nat)
    (h : runCalls p accepted calls = some r) :
    runCalls p (stream ++ accepted) calls = some (r.1, stream ++ r.2) := by
  induction calls generalizing p accepted with
  | nil =>
    simp only [runCalls] at h ⊢
    cases h
    rfl
  | cons c calls ih =>
    cases c with
    | write fuel buffer size =>
      simp only [runCalls] at h ⊢
      cases hw : write fuel p (some buffer) size with
      | none => rw [hw] at h; cases h
      | some t =>
        rw [hw] at h
        simp only []
        rw [List.append_assoc]
        exact ih t.port _ h
    | interrupt e =>
      simp only [runCalls] at h ⊢
      exact ih (p.deliver e) _ h

/-- C20 (as stated, refuted): on an open port with an outbound buffer of capacity 8, `write`
accepts the 4 bytes 1, 2, 3, 4 and hands them to the hardware as the block (0, 4); the hardware
then calls `writeCompleteEvent(4)` twice. Each `n` is at most the length 4 of the block last
handed to `startWrite`, yet the second callback moves the read cursor past the write cursor: the
same 4 bytes count as stored again and are handed to the hardware a second time, and 8 bytes are
reported as written although `write` has accepted 4. -/
theorem writeComplete_twice_duplicates_block :
    (runCalls (quietPort (.fresh 8) (.fresh 8) 1 8) []
        [.write 1 [1, 2, 3, 4] 4, .interrupt (.writeComplete 4),
          .interrupt (.writeComplete 4)]).map
      (fun r => (r.2, r.1.writeBuffer_.contents, transmitted r.1.trace, r.1.trace)) =
      some ([1, 2, 3, 4], [1, 2, 3, 4], 8,
        [.startWrite 0 4, .interrupt (.writeComplete 4), .interrupt (.writeComplete 4),
          .startWrite 0 4]) := by
  decide!

/-- C20 (amended): calls of `write` (each with a buffer of at least `size` bytes and
`size < 2^32`) and interrupts, in any order and also during the waits of `write`, on a port whose
outbound buffer has valid cursors and a storage of at least `size_` bytes, with no block in
flight and no byte reported at first. Provided every `writeCompleteEvent(n)` so far reports a
block that the hardware has accepted from `startWrite` and has not reported yet, with `n` at most
the length of this block: the bytes reported as written followed by the bytes stored in the
outbound buffer are the bytes stored at first followed by all bytes accepted by `write`, in
order; the cursors of the outbound buffer are valid; the block in flight, if any, starts at the
read cursor, lies within the contiguous readable block, which is not longer than the stored
bytes, and holds the oldest stored bytes. And in every state `startWriteWrapper` hands to the
hardware exactly the block that `getReadBlock` reports in this state. -/
theorem outbound_fifo (p0 : SerialPort) (calls : List Call) (p : SerialPort)
    (accepted : List Nat) (hv : p0.writeBuffer_.Valid)
    (hst : p0.writeBuffer_.size_ ≤ p0.writeBuffer_.buffer_.length)
    (h0 : txRun false p0 = some none) (ht0 : transmitted p0.trace = 0)
    (hcalls : ∀ fuel buffer size, Call.write fuel buffer size ∈ calls →
      size ≤ buffer.length ∧ size < 4294967296)
    (hrun : runCalls p0 [] calls = some (p, accepted))
    (hok : (txRun false p).isSome = true) :
    (∃ sent, sent.length = transmitted p.trace ∧
      sent ++ p.writeBuffer_.contents = p0.writeBuffer_.contents ++ accepted) ∧
    p.writeBuffer_.Valid ∧
    (∀ l, txRun false p = some (some l) →
      l ≤ p.writeBuffer_.getReadBlock.2 ∧
      p.writeBuffer_.getReadBlock.2 ≤ p.writeBuffer_.stored ∧
      slice p.writeBuffer_.buffer_ p.writeBuffer_.getReadBlock.1 l =
        p.writeBuffer_.contents.take l) ∧
    (∀ s : SerialPort, (s.startWriteWrapper).2.trace =
      s.trace ++ [.startWrite s.writeBuffer_.getReadBlock.1 s.writeBuffer_.getReadBlock.2]) := by
  have hf0 : Fifo (p0.writeBuffer_.contents ++ []) p0 := by
    intro pd hpd
    rw [h0] at hpd
    cases hpd
    rw [ht0, List.append_nil]
    exact ⟨hv, hst, rfl, Nat.zero_le _, fun l hl => by cases hl⟩
  have hrun' := runCalls_prepend p0.writeBuffer_.contents calls p0 [] (p, accepted) hrun
  have hf := fifo_runCalls calls p0 _ _ hcalls hf0 hrun'
  obtain ⟨pd, hpd⟩ := Option.isSome_iff_exists.mp hok
  obtain ⟨a1, a2, a3, a4, a5⟩ := hf pd hpd
  refine ⟨⟨(p0.writeBuffer_.contents ++ accepted).take (transmitted p.trace), ?_, ?_⟩, a1, ?_,
    fun s => rfl⟩
  · rw [List.length_take]
    exact Nat.min_eq_left a4
  · have e : p.writeBuffer_.contents =
        (p0.writeBuffer_.contents ++ accepted).drop (transmitted p.trace) := a3
    rw [e, List.take_append_drop]
  · intro l hl
    rw [hpd] at hl
    have hl' : pd = some l := by
      cases hl
      rfl
    have hb := a5 l hl'
    exact ⟨hb, (RingBuffer.getReadBlock_le_stored _ (RingBuffer.inStorage_of_valid _ a1)).1,
      (RingBuffer.take_contents _ l a1 a2 hb).symm⟩

theorem outbound_fifo_witness :
    ∃ p accepted,
      runCalls { quietPort (.fresh 8) (.fresh 6) 1 8 with
          schedule := [⟨[.writeComplete 4], 0⟩, ⟨[.writeComplete 2, .writeComplete 2], 0⟩] } []
        [.write 5 [1, 2, 3, 4, 5, 6, 7, 8, 9, 10] 10, .interrupt (.writeComplete 1)] =
        some (p, accepted) ∧
      (accepted = [1, 2, 3, 4, 5, 6, 7, 8, 9, 10] ∧ p.writeBuffer_.contents = [10] ∧
        transmitted p.trace = 9 ∧ txRun false p = some (some 1)) ∧
      (∃ sent, sent.length = transmitted p.trace ∧
        sent ++ p.writeBuffer_.contents = [] ++ accepted) ∧
      p.writeBuffer_.Valid := by
  have hs : (runCalls { quietPort (.fresh 8) (.fresh 6) 1 8 with
        schedule := [⟨[.writeComplete 4], 0⟩, ⟨[.writeComplete 2, .writeComplete 2], 0⟩] } []
      [.write 5 [1, 2, 3, 4, 5, 6, 7, 8, 9, 10] 10, .interrupt (.writeComplete 1)]).map
      (fun r => (r.2, r.1.writeBuffer_.contents, transmitted r.1.trace, txRun false r.1)) =
      some ([1, 2, 3, 4, 5, 6, 7, 8, 9, 10], [10], 9, some (some 1)) := by
    decide!
  obtain ⟨⟨p, accepted⟩, hrun, he⟩ := Option.map_eq_some'.mp hs
  simp only [Prod.mk.injEq] at he
  have h := outbound_fifo
    { quietPort (.fresh 8) (.fresh 6) 1 8 with
      schedule := [⟨[.writeComplete 4], 0⟩, ⟨[.writeComplete 2, .writeComplete 2], 0⟩] }
    [.write 5 [1, 2, 3, 4, 5, 6, 7, 8, 9, 10] 10, .interrupt (.writeComplete 1)] p accepted
    (RingBuffer.valid_cleared _ 6 (by decide) (by decide)) (by decide) rfl rfl
    (by
      intro fuel buffer size hm
      rcases List.mem_cons.mp hm with hm | hm
      · cases hm
        exact ⟨by decide, by decide⟩
      · rcases List.mem_cons.mp hm with hm | hm
        · cases hm
        · cases hm)
    hrun (by rw [he.2.2.2]; rfl)
  exact ⟨p, accepted, hrun, ⟨he.1, he.2.1, he.2.2.1, he.2.2.2⟩, h.1, h.2.1⟩

/-! ## write: queued bytes and the write operation -/

theorem queuedInProgress_startWriteWrapper (q : SerialPort) :
    QueuedInProgress (q.startWriteWrapper).2 :=
  fun _ => rfl

theorem queuedInProgress_writeComplete (q : SerialPort) (n : Nat) :
    QueuedInProgress (q.deliver (.writeComplete n)) := by
  simp only [deliver, writeCompleteEvent]
  split
  · next hempty =>
    intro hne
    rw [hempty] at hne
    cases hne
  · exact queuedInProgress_startWriteWrapper _

theorem queuedInProgress_transmitComplete (q : SerialPort) (h : QueuedInProgress q) :
    QueuedInProgress (q.deliver .transmitComplete) := by
  have e2 : (q.deliver .transmitComplete).writeBuffer_ = q.writeBuffer_ := by
    show ((q.emit (.interrupt .transmitComplete)).postAndClear .transmitSemaphore).writeBuffer_ = _
    rw [writeBuffer_postAndClear]
    rfl
  have e3 : (q.deliver .transmitComplete).writeInProgress_ = q.writeInProgress_ := by
    show ((q.emit (.interrupt .transmitComplete)).postAndClear
      .transmitSemaphore).writeInProgress_ = _
    rw [writeInProgress_postAndClear]
    rfl
  intro hne
  rw [e2] at hne
  rw [e3]
  exact h hne

theorem txStable_queuedInProgress : TxStable QueuedInProgress := by
  refine ⟨fun q e _ h => h, ?_, fun q s h => h, fun q n h => h,
    fun q _ => queuedInProgress_startWriteWrapper q,
    fun q n _ => queuedInProgress_writeComplete q n, queuedInProgress_transmitComplete⟩
  intro q id hd h
  cases id <;> exact h

theorem queuedInProgress_copy (q1 : SerialPort)
    (hn : ¬ (q1.writeInProgress_ = false ∧ q1.writeBuffer_.isEmpty = false)) :
    QueuedInProgress q1 := by
  intro he
  cases hw : q1.writeInProgress_ with
  | true => rfl
  | false => exact absurd ⟨hw, he⟩ hn

theorem queuedInProgress_writeLoop (size fuel : Nat) (p : SerialPort) (buffer : List Nat)
    (bytesWritten : Nat) (t : Transfer) (hp : QueuedInProgress p)
    (h : writeLoop size fuel p buffer bytesWritten = some t) : QueuedInProgress t.port := by
  refine writeLoop_induct size (fun q _ _ => QueuedInProgress q)
    (fun t => QueuedInProgress t.port) ?_ ?_ ?_ fuel p buffer bytesWritten t hp h
  · intro q buf b hq _
    exact hq
  · intro q buf b t _ _ hit
    obtain ⟨c, q1, _, _, hcase⟩ := writeIteration_returned size q buf b t hit
    rcases hcase with ⟨_, _, _, ht⟩ | ⟨hn, _, w, hw, _, ht⟩
    · subst ht
      exact txStable_queuedInProgress.disarm _ _ (queuedInProgress_startWriteWrapper q1)
    · subst ht
      exact txStable_queuedInProgress.disarm _ _
        (txStable_queuedInProgress.txWait q1 _ w hw (queuedInProgress_copy q1 hn))
  · intro q buf b s _ _ hit
    obtain ⟨c, q1, _, _, hcase⟩ := writeIteration_next size q buf b s hit
    rcases hcase with ⟨_, _, _, hs⟩ | ⟨hn, _, w, hw, _, hs⟩ | ⟨hn, _, hs⟩
    · subst hs
      exact txStable_queuedInProgress.disarm _ _ (queuedInProgress_startWriteWrapper q1)
    · subst hs
      exact txStable_queuedInProgress.disarm _ _
        (txStable_queuedInProgress.txWait q1 _ w hw (queuedInProgress_copy q1 hn))
    · subst hs
      exact txStable_queuedInProgress.disarm _ _ (queuedInProgress_copy q1 hn)

theorem queuedInProgress_write (fuel : Nat) (p : SerialPort) (buffer : Option (List Nat))
    (size : Nat) (t : Transfer) (hp : QueuedInProgress p)
    (h : write fuel p buffer size = some t) : QueuedInProgress t.port := by
  cases buffer with
  | none =>
    simp only [write] at h
    cases h
    exact hp
  | some b =>
    simp only [write] at h
    split at h
    · cases h; exact hp
    · split at h
      · cases h; exact hp
      · split at h
        · cases h; exact hp
        · exact queuedInProgress_writeLoop size fuel p b 0 t hp h

theorem queuedInProgress_runCalls (calls : List Call) (p : SerialPort) (accepted : List Nat)
    (r : SerialPort × List Nat) (hp : QueuedInProgress p)
    (h : runCalls p accepted calls = some r) : QueuedInProgress r.1 := by
  induction calls generalizing p accepted with
  | nil =>
    simp only [runCalls] at h
    cases h
    exact hp
  | cons c calls ih =>
    cases c with
    | write fuel buffer size =>
      simp only [runCalls] at h
      cases hw : write fuel p (some buffer) size with
      | none => rw [hw] at h; cases h
      | some t =>
        rw [hw] at h
        exact ih t.port _ (queuedInProgress_write fuel p _ size t hp hw) h
    | interrupt e =>
      simp only [runCalls] at h
      exact ih (p.deliver e) _ (txStable_queuedInProgress.txDeliver p e hp) h

/-- C23: calls of `write` and interrupts (`writeCompleteEvent` and all others, between the calls
and during the waits of `write`) on a port that starts with its outbound buffer empty or with a
write operation in progress. After every call of `write` that returns and after every interrupt,
a non-empty outbound buffer comes with `writeInProgress_` true, whatever the hardware answers.
`writeCompleteEvent` leaves the port so from every state, whether reachable or not: when it
completes, the outbound buffer is empty or `writeInProgress_` is true. -/
theorem queued_bytes_in_progress (p0 : SerialPort) (accepted0 : List Nat) (calls : List Call)
    (p : SerialPort) (accepted : List Nat)
    (h0 : p0.writeBuffer_.isEmpty = false → p0.writeInProgress_ = true)
    (hrun : runCalls p0 accepted0 calls = some (p, accepted)) :
    (p.writeBuffer_.isEmpty = false → p.writeInProgress_ = true) ∧
    (∀ (q : SerialPort) (n : Nat), (q.writeCompleteEvent n).writeBuffer_.isEmpty = false →
      (q.writeCompleteEvent n).writeInProgress_ = true) := by
  refine ⟨queuedInProgress_runCalls calls p0 accepted0 (p, accepted) h0 hrun, ?_⟩
  intro q n
  simp only [writeCompleteEvent]
  split
  · next hempty =>
    intro hne
    rw [hempty] at hne
    cases hne
  · exact queuedInProgress_startWriteWrapper _

theorem queued_bytes_in_progress_witness :
    ∃ p accepted,
      runCalls (quietPort (.fresh 8) (.fresh 8) 1 8) []
        [.write 1 [1, 2, 3, 4] 4, .interrupt (.writeComplete 2)] = some (p, accepted) ∧
      (p.writeBuffer_.isEmpty = false ∧ txRun true p = some (some 2) ∧
        p.trace = [.startWrite 0 4, .interrupt (.writeComplete 2), .startWrite 2 2]) ∧
      (p.writeBuffer_.isEmpty = false → p.writeInProgress_ = true) ∧
      (∀ (q : SerialPort) (n : Nat), (q.writeCompleteEvent n).writeBuffer_.isEmpty = false →
        (q.writeCompleteEvent n).writeInProgress_ = true) := by
  have hs : (runCalls (quietPort (.fresh 8) (.fresh 8) 1 8) []
      [.write 1 [1, 2, 3, 4] 4, .interrupt (.writeComplete 2)]).map
      (fun r => (r.1.writeBuffer_.isEmpty, txRun true r.1, r.1.trace)) =
      some (false, some (some 2),
        [.startWrite 0 4, .interrupt (.writeComplete 2), .startWrite 2 2]) := by
    decide!
  obtain ⟨⟨p, accepted⟩, hrun, he⟩ := Option.map_eq_some'.mp hs
  simp only [Prod.mk.injEq] at he
  have h := queued_bytes_in_progress (quietPort (.fresh 8) (.fresh 8) 1 8) []
    [.write 1 [1, 2, 3, 4] 4, .interrupt (.writeComplete 2)] p accepted
    (fun hne => by cases hne) hrun
  exact ⟨p, accepted, hrun, ⟨he.1, he.2.1, he.2.2⟩, h.1, h.2⟩

/-! ## write with interrupts between its statements -/

theorem startWriteWrapperPreempted_quiet (p : SerialPort) :
    startWriteWrapperPreempted Preemption.quiet p = p.startWriteWrapper := rfl

theorem writeIterationPreempted_quiet (size : Nat) (p : SerialPort) (buffer : List Nat)
    (bytesWritten : Nat) :
    writeIterationPreempted size Preemption.quiet p buffer bytesWritten =
      writeIteration size p buffer bytesWritten := by
  unfold writeIterationPreempted writeIteration
  simp only [Preemption.quiet, deliverAll, List.foldl_nil, startWriteWrapperPreempted,
    startWriteWrapper]

theorem writeLoopPreempted_nil (size fuel : Nat) (p : SerialPort) (buffer : List Nat)
    (bytesWritten : Nat) :
    writeLoopPreempted size fuel [] p buffer bytesWritten =
      writeLoop size fuel p buffer bytesWritten := by
  induction fuel generalizing p buffer bytesWritten with
  | zero =>
    unfold writeLoopPreempted writeLoop
    rfl
  | succ fuel ih =>
    unfold writeLoopPreempted writeLoop
    split
    · simp only [List.headD_nil, List.tail_nil, writeIterationPreempted_quiet]
      cases writeIteration size p buffer bytesWritten with
      | returned t => rfl
      | blocked => rfl
      | next s => exact ih s.port s.buffer s.bytes
    · rfl

theorem writePreempted_nil (fuel : Nat) (p : SerialPort) (buffer : Option (List Nat))
    (size : Nat) : writePreempted fuel [] p buffer size = write fuel p buffer size := by
  unfold writePreempted write
  cases buffer with
  | none => rfl
  | some b =>
    simp only [writeLoopPreempted_nil]

theorem queuedInProgress_startWriteWrapperPreempted (s : Preemption) (q : SerialPort) :
    QueuedInProgress (startWriteWrapperPreempted s q).2 := by
  have h1 : QueuedInProgress
      { deliverAll { q with transmitInProgress_ := true } s.afterTransmitFlag with
        writeInProgress_ := true } := fun _ => rfl
  have h2 := txStable_queuedInProgress.txDeliverAll s.afterBlock _
    (txStable_queuedInProgress.txDeliverAll s.afterWriteFlag _ h1)
  exact h2

theorem queuedInProgress_guard (s : Preemption) (q : SerialPort) (h : QueuedInProgress q) :
    QueuedInProgress
      (deliverAll ((deliverAll q s.beforeGuard).disarm .writeSemaphore) s.afterGuard) :=
  txStable_queuedInProgress.txDeliverAll _ _
    (txStable_queuedInProgress.disarm _ _ (txStable_queuedInProgress.txDeliverAll _ _ h))

theorem queuedInProgress_tested (q : SerialPort) (es1 es2 : List Event)
    (hn : ¬ (q.writeInProgress_ = false ∧ (deliverAll q es1).writeBuffer_.isEmpty = false)) :
    QueuedInProgress (deliverAll (deliverAll q es1) es2) := by
  refine txStable_queuedInProgress.txDeliverAll _ _ ?_
  cases hw : q.writeInProgress_ with
  | true =>
    refine txStable_queuedInProgress.txDeliverAll _ _ ?_
    intro _
    exact hw
  | false =>
    intro he
    exact absurd ⟨hw, he⟩ hn

theorem queuedInProgress_writeIterationPreempted (size : Nat) (s : Preemption) (p : SerialPort)
    (buffer : List Nat) (bytesWritten : Nat) :
    (∀ t, writeIterationPreempted size s p buffer bytesWritten = .returned t →
      QueuedInProgress t.port) ∧
    (∀ n, writeIterationPreempted size s p buffer bytesWritten = .next n →
      QueuedInProgress n.port) := by
  unfold writeIterationPreempted
  simp only []
  split
  · split
    · constructor
      · intro t ht
        cases ht
        exact queuedInProgress_guard s _ (queuedInProgress_startWriteWrapperPreempted s _)
      · intro n hn
        cases hn
    · constructor
      · intro t ht
        cases ht
      · intro n hn
        cases hn
        exact queuedInProgress_guard s _ (queuedInProgress_startWriteWrapperPreempted s _)
  · next hn =>
    have hq := queuedInProgress_tested _ s.betweenTests s.afterTest hn
    split
    · split
      · constructor
        · intro t ht
          cases ht
        · intro n hn
          cases hn
      · next w hw =>
        have hw2 := txStable_queuedInProgress.txWait _ _ w hw hq
        split
        · constructor
          · intro t ht
            cases ht
            exact queuedInProgress_guard s _ hw2
          · intro n hn
            cases hn
        · constructor
          · intro t ht
            cases ht
          · intro n hn
            cases hn
            exact queuedInProgress_guard s _ hw2
    · constructor
      · intro t ht
        cases ht
      · intro n hn
        cases hn
        exact queuedInProgress_guard s _ hq

theorem queuedInProgress_writeLoopPreempted (size fuel : Nat) (ss : List Preemption)
    (p : SerialPort) (buffer : List Nat) (bytesWritten : Nat) (t : Transfer)
    (hp : QueuedInProgress p)
    (h : writeLoopPreempted size fuel ss p buffer bytesWritten = some t) :
    QueuedInProgress t.port := by
  induction fuel generalizing ss p buffer bytesWritten with
  | zero =>
    unfold writeLoopPreempted at h
    split at h
    · cases h
    · cases h
      exact hp
  | succ fuel ih =>
    unfold writeLoopPreempted at h
    split at h
    · obtain ⟨hret, hnext⟩ := queuedInProgress_writeIterationPreempted size
        (ss.headD Preemption.quiet) p buffer bytesWritten
      cases hit : writeIterationPreempted size (ss.headD Preemption.quiet) p buffer
          bytesWritten with
      | returned t1 =>
        rw [hit] at h
        cases h
        exact hret t hit
      | blocked =>
        rw [hit] at h
        cases h
      | next n =>
        rw [hit] at h
        exact ih ss.tail n.port n.buffer n.bytes (hnext n hit) h
    · cases h
      exact hp

theorem queuedInProgress_writePreempted (fuel : Nat) (ss : List Preemption) (p : SerialPort)
    (buffer : Option (List Nat)) (size : Nat) (t : Transfer) (hp : QueuedInProgress p)
    (h : writePreempted fuel ss p buffer size = some t) : QueuedInProgress t.port := by
  cases buffer with
  | none =>
    simp only [writePreempted] at h
    cases h
    exact hp
  | some b =>
    simp only [writePreempted] at h
    split at h
    · cases h; exact hp
    · split at h
      · cases h; exact hp
      · split at h
        · cases h; exact hp
        · exact queuedInProgress_writeLoopPreempted size fuel ss p b 0 t hp h

/-- The interrupts that arrive between the statements of `write` do not separate queued bytes
from `writeInProgress_`: after every call of `write` that returns, interrupted at any of the
places of `Preemption`, and after every interrupt, a non-empty outbound buffer comes with
`writeInProgress_` true, whatever the hardware answers. -/
theorem queuedInProgress_runPreemptedCalls (calls : List PreemptedCall) (p : SerialPort)
    (accepted : List Nat) (r : SerialPort × List Nat)
    (hp : p.writeBuffer_.isEmpty = false → p.writeInProgress_ = true)
    (h : runPreemptedCalls p accepted calls = some r) :
    r.1.writeBuffer_.isEmpty = false → r.1.writeInProgress_ = true := by
  induction calls generalizing p accepted with
  | nil =>
    simp only [runPreemptedCalls] at h
    cases h
    exact hp
  | cons c calls ih =>
    cases c with
    | write fuel ss buffer size =>
      simp only [runPreemptedCalls] at h
      cases hw : writePreempted fuel ss p (some buffer) size with
      | none => rw [hw] at h; cases h
      | some t =>
        rw [hw] at h
        exact ih t.port _ (queuedInProgress_writePreempted fuel ss p _ size t hp hw) h
    | interrupt e =>
      simp only [runPreemptedCalls] at h
      exact ih (p.deliver e) _ (txStable_queuedInProgress.txDeliver p e hp) h

/-- The flag `transmitInProgress_` does not survive an interrupt inside `startWriteWrapper`: an
open port (`openCount_ == 1`, outbound capacity 8) whose hardware accepts every call and follows
the strict write protocol. `write` accepts the bytes 1, 2, 3, 4 and hands them to the hardware;
`writeCompleteEvent(4)` empties the buffer and clears `writeInProgress_`. A second `write`
stores the bytes 5, 6 and calls `startWriteWrapper`; the end of the transmission of the first
block is signalled by `transmitCompleteEvent` after the two flags are set and before
`uart_.startWrite` is called. `write` returns (0, 2) with the block of the bytes 5, 6 in flight,
`writeInProgress_` true and `transmitInProgress_` false. The loop of `close` then ends at once,
and `close` stops the hardware, clears the buffers and returns 0 without any wait. -/
theorem close_stops_block_in_flight :
    (runPreemptedCalls (quietPort (.fresh 8) (.fresh 8) 1 8) []
        [.write 1 [] [1, 2, 3, 4] 4, .interrupt (.writeComplete 4),
          .write 1 [{ Preemption.quiet with afterWriteFlag := [.transmitComplete] }]
            [5, 6] 2]).map
      (fun r => (r.2, r.1.writeInProgress_, r.1.transmitInProgress_, txRun true r.1)) =
      some ([1, 2, 3, 4, 5, 6], true, false, some (some 2)) ∧
    (runPreemptedCalls (quietPort (.fresh 8) (.fresh 8) 1 8) []
        [.write 1 [] [1, 2, 3, 4] 4, .interrupt (.writeComplete 4),
          .write 1 [{ Preemption.quiet with afterWriteFlag := [.transmitComplete] }]
            [5, 6] 2]).map
      (fun r => (r.1.writeBuffer_.contents, r.1.trace)) =
      some ([5, 6],
        [.startWrite 0 4, .interrupt (.writeComplete 4), .interrupt .transmitComplete,
          .startWrite 4 2]) ∧
    ((runPreemptedCalls (quietPort (.fresh 8) (.fresh 8) 1 8) []
        [.write 1 [] [1, 2, 3, 4] 4, .interrupt (.writeComplete 4),
          .write 1 [{ Preemption.quiet with afterWriteFlag := [.transmitComplete] }]
            [5, 6] 2]).bind
      (fun r => (close 1 r.1).map
        (fun c => (c.1, c.2.openCount_, c.2.writeBuffer_.contents, c.2.trace)))) =
      some (0, 0, [],
        [.startWrite 0 4, .interrupt (.writeComplete 4), .interrupt .transmitComplete,
          .startWrite 4 2, .stopRead, .stop]) := by
  decide!

end SerialPort

namespace RingBuffer

/-! ## Copies to and from a ring buffer: counts and number of iterations -/

theorem size_increaseReadPosition (rb : RingBuffer) (n : Nat) :
    (rb.increaseReadPosition n).size_ = rb.size_ := rfl

theorem writePosition_increaseReadPosition (rb : RingBuffer) (n : Nat) :
    (rb.increaseReadPosition n).writePosition_ = rb.writePosition_ := rfl

theorem buffer_increaseReadPosition (rb : RingBuffer) (n : Nat) :
    (rb.increaseReadPosition n).buffer_ = rb.buffer_ := rfl

theorem getWriteBlock_le_free (rb : RingBuffer) (h : rb.Valid) :
    rb.getWriteBlock.2 ≤ rb.size_ - 2 - rb.stored ∧
    (rb.getWriteBlock.2 = 0 → rb.stored = rb.size_ - 2) := by
  rw [stored_of_valid rb h, getWriteBlock_snd_of_valid rb h]
  obtain ⟨h2, hC, hr, hw, h1, h3⟩ := h
  constructor
  · split <;> split <;> omega
  · split <;> split <;> omega

theorem stored_increaseWritePosition (rb : RingBuffer) (n : Nat) (h : rb.Valid)
    (hn : n ≤ rb.getWriteBlock.2) : (rb.increaseWritePosition n).stored = rb.stored + n := by
  have hv := valid_increaseWritePosition rb n h hn
  have e := writePosition_increaseWritePosition_of_valid rb n h hn
  rw [stored_of_valid _ hv, stored_of_valid _ h, e]
  rw [getWriteBlock_snd_of_valid rb h] at hn
  obtain ⟨h2, hC, hr, hw, h1, h3⟩ := h
  rw [readPosition_increaseWritePosition, size_increaseWritePosition]
  split at hn <;> split_ifs <;> omega

theorem getWriteBlock_after_block (rb : RingBuffer) (h : rb.Valid) :
    (rb.increaseWritePosition rb.getWriteBlock.2).getWriteBlock.2 =
      rb.size_ - 2 - (rb.stored + rb.getWriteBlock.2) := by
  have hv := valid_increaseWritePosition rb _ h (Nat.le_refl _)
  have e := writePosition_increaseWritePosition_of_valid rb _ h (Nat.le_refl _)
  have hb := getWriteBlock_snd_of_valid rb h
  rw [getWriteBlock_snd_of_valid _ hv, stored_of_valid _ h, e]
  obtain ⟨h2, hC, hr, hw, h1, h3⟩ := h
  rw [readPosition_increaseWritePosition, size_increaseWritePosition]
  generalize rb.getWriteBlock.2 = g at hb ⊢
  split at hb <;> split_ifs <;> omega

theorem getReadBlock_after_block (rb : RingBuffer) (h : rb.InStorage) :
    (rb.increaseReadPosition rb.getReadBlock.2).getReadBlock.2 =
      rb.stored - rb.getReadBlock.2 := by
  have hv := inStorage_increaseReadPosition rb _ h (Nat.le_refl _)
  have e := readPosition_increaseReadPosition rb _ h (Nat.le_refl _)
  have hb := getReadBlock_snd_of_inStorage rb h
  rw [getReadBlock_snd_of_inStorage _ hv, stored_of_inStorage _ h, e]
  obtain ⟨hC, hr, hw⟩ := h
  rw [writePosition_increaseReadPosition, size_increaseReadPosition]
  generalize rb.getReadBlock.2 = g at hb ⊢
  split at hb <;> split_ifs <;> omega

end RingBuffer

open RingBuffer in
theorem writeToRingBufferLoop_last (buffer : List Nat) (off size : Nat)
    (hsz : size < 4294967296) (fuel : Nat) (rb : RingBuffer) (bytesWritten : Nat)
    (hv : rb.Valid) (hle : bytesWritten ≤ size)
    (ht : rb.getWriteBlock.2 = rb.size_ - 2 - rb.stored) :
    writeToRingBufferLoop buffer off size (fuel + 1) rb bytesWritten =
      writeToRingBufferLoop buffer off size 1 rb bytesWritten ∧
    (writeToRingBufferLoop buffer off size 1 rb bytesWritten).count =
      min size (bytesWritten + (rb.size_ - 2 - rb.stored)) ∧
    ¬ ((writeToRingBufferLoop buffer off size 1 rb bytesWritten).ringBuffer.getWriteBlock.2 ≠ 0 ∧
      (writeToRingBufferLoop buffer off size 1 rb bytesWritten).count ≠ size) := by
  by_cases hc : rb.getWriteBlock.2 ≠ 0 ∧ bytesWritten ≠ size
  · rw [writeToRingBufferLoop_step buffer off size fuel rb bytesWritten hc,
      writeToRingBufferLoop_step buffer off size 0 rb bytesWritten hc]
    have hu : usub size bytesWritten = size - bytesWritten := by
      simp only [usub]; omega
    have hm1 : min rb.getWriteBlock.2 (usub size bytesWritten) ≤ size - bytesWritten := by
      rw [hu]; exact Nat.min_le_right _ _
    have hm2 : min rb.getWriteBlock.2 (usub size bytesWritten) ≤ rb.getWriteBlock.2 :=
      Nat.min_le_left _ _
    have hm3 : min rb.getWriteBlock.2 (usub size bytesWritten) = size - bytesWritten ∨
        min rb.getWriteBlock.2 (usub size bytesWritten) = rb.getWriteBlock.2 := by
      rw [hu]
      rcases Nat.le_total rb.getWriteBlock.2 (size - bytesWritten) with h | h
      · exact Or.inr (Nat.min_eq_left h)
      · exact Or.inl (Nat.min_eq_right h)
    have ha : uadd bytesWritten (min rb.getWriteBlock.2 (usub size bytesWritten)) =
        bytesWritten + min rb.getWriteBlock.2 (usub size bytesWritten) := by
      simp only [uadd]; omega
    rw [ha]
    generalize hm : min rb.getWriteBlock.2 (usub size bytesWritten) = m at hm1 hm2 hm3 ⊢
    obtain ⟨rb0, hrb0, hv0, hb0, hs0, hz0⟩ : ∃ rb0 : RingBuffer,
        rb0 = { rb with
          buffer_ := memcpy rb.buffer_ rb.getWriteBlock.1
            (slice buffer (off + bytesWritten) m) } ∧ rb0.Valid ∧
        rb0.getWriteBlock.2 = rb.getWriteBlock.2 ∧ rb0.stored = rb.stored ∧
        rb0.size_ = rb.size_ :=
      ⟨_, rfl, hv, rfl, rfl, rfl⟩
    rw [← hrb0]
    have hfree := (getWriteBlock_le_free rb hv).1
    have hnc : ¬ ((rb0.increaseWritePosition m).getWriteBlock.2 ≠ 0 ∧
        bytesWritten + m ≠ size) := by
      rintro ⟨h1, h2⟩
      rcases hm3 with h | h
      · omega
      · have hab := getWriteBlock_after_block rb0 hv0
        rw [hb0, hs0, hz0, ← h] at hab
        rw [hab] at h1
        omega
    rw [writeToRingBufferLoop_stop buffer off size fuel _ _ hnc,
      writeToRingBufferLoop_stop buffer off size 0 _ _ hnc]
    refine ⟨rfl, ?_, hnc⟩
    show bytesWritten + m = _
    rcases hm3 with h | h
    · rw [Nat.min_def]
      split <;> omega
    · rw [Nat.min_def]
      split <;> omega
  · rw [writeToRingBufferLoop_stop buffer off size _ rb bytesWritten hc,
      writeToRingBufferLoop_stop buffer off size _ rb bytesWritten hc]
    refine ⟨rfl, ?_, hc⟩
    show bytesWritten = _
    rw [Nat.min_def]
    split <;> omega

open RingBuffer in
theorem writeToRingBufferLoop_two (buffer : List Nat) (off size : Nat)
    (hsz : size < 4294967296) (fuel : Nat) (rb : RingBuffer) (bytesWritten : Nat)
    (hv : rb.Valid) (hle : bytesWritten ≤ size) :
    writeToRingBufferLoop buffer off size (fuel + 2) rb bytesWritten =
      writeToRingBufferLoop buffer off size 2 rb bytesWritten ∧
    (writeToRingBufferLoop buffer off size 2 rb bytesWritten).count =
      min size (bytesWritten + (rb.size_ - 2 - rb.stored)) ∧
    ¬ ((writeToRingBufferLoop buffer off size 2 rb bytesWritten).ringBuffer.getWriteBlock.2 ≠ 0 ∧
      (writeToRingBufferLoop buffer off size 2 rb bytesWritten).count ≠ size) := by
  by_cases hc : rb.getWriteBlock.2 ≠ 0 ∧ bytesWritten ≠ size
  · rw [writeToRingBufferLoop_step buffer off size (fuel + 1) rb bytesWritten hc,
      writeToRingBufferLoop_step buffer off size 1 rb bytesWritten hc]
    have hu : usub size bytesWritten = size - bytesWritten := by
      simp only [usub]; omega
    have hm1 : min rb.getWriteBlock.2 (usub size bytesWritten) ≤ size - bytesWritten := by
      rw [hu]; exact Nat.min_le_right _ _
    have hm2 : min rb.getWriteBlock.2 (usub size bytesWritten) ≤ rb.getWriteBlock.2 :=
      Nat.min_le_left _ _
    have hm3 : min rb.getWriteBlock.2 (usub size bytesWritten) = size - bytesWritten ∨
        min rb.getWriteBlock.2 (usub size bytesWritten) = rb.getWriteBlock.2 := by
      rw [hu]
      rcases Nat.le_total rb.getWriteBlock.2 (size - bytesWritten) with h | h
      · exact Or.inr (Nat.min_eq_left h)
      · exact Or.inl (Nat.min_eq_right h)
    have ha : uadd bytesWritten (min rb.getWriteBlock.2 (usub size bytesWritten)) =
        bytesWritten + min rb.getWriteBlock.2 (usub size bytesWritten) := by
      simp only [uadd]; omega
    rw [ha]
    generalize hm : min rb.getWriteBlock.2 (usub size bytesWritten) = m at hm1 hm2 hm3 ⊢
    obtain ⟨rb0, hrb0, hv0, hb0, hs0, hz0⟩ : ∃ rb0 : RingBuffer,
        rb0 = { rb with
          buffer_ := memcpy rb.buffer_ rb.getWriteBlock.1
            (slice buffer (off + bytesWritten) m) } ∧ rb0.Valid ∧
        rb0.getWriteBlock.2 = rb.getWriteBlock.2 ∧ rb0.stored = rb.stored ∧
        rb0.size_ = rb.size_ :=
      ⟨_, rfl, hv, rfl, rfl, rfl⟩
    rw [← hrb0]
    have hfree := (getWriteBlock_le_free rb hv).1
    have hv1 := valid_increaseWritePosition rb0 m hv0 (by rw [hb0]; exact hm2)
    have hst1 := stored_increaseWritePosition rb0 m hv0 (by rw [hb0]; exact hm2)
    rw [hs0] at hst1
    have hz1 : (rb0.increaseWritePosition m).size_ = rb.size_ := by
      rw [size_increaseWritePosition, hz0]
    rcases hm3 with h | h
    · have hnc : ¬ ((rb0.increaseWritePosition m).getWriteBlock.2 ≠ 0 ∧
          bytesWritten + m ≠ size) := by
        rintro ⟨_, h2⟩
        omega
      rw [writeToRingBufferLoop_stop buffer off size _ _ _ hnc,
        writeToRingBufferLoop_stop buffer off size _ _ _ hnc]
      refine ⟨rfl, ?_, hnc⟩
      show bytesWritten + m = _
      rw [Nat.min_def]
      split <;> omega
    · have hab := getWriteBlock_after_block rb0 hv0
      rw [hb0, hs0, hz0, ← h] at hab
      have ht1 : (rb0.increaseWritePosition m).getWriteBlock.2 =
          (rb0.increaseWritePosition m).size_ - 2 - (rb0.increaseWritePosition m).stored := by
        rw [hab, hz1, hst1]
      obtain ⟨l1, l2, l3⟩ := writeToRingBufferLoop_last buffer off size hsz fuel
        (rb0.increaseWritePosition m) (bytesWritten + m) hv1 (by omega) ht1
      refine ⟨l1, ?_, l3⟩
      rw [l2, hz1, hst1]
      have e : bytesWritten + m + (rb.size_ - 2 - (rb.stored + m)) =
          bytesWritten + (rb.size_ - 2 - rb.stored) := by omega
      rw [e]
  · rw [writeToRingBufferLoop_stop buffer off size _ rb bytesWritten hc,
      writeToRingBufferLoop_stop buffer off size _ rb bytesWritten hc]
    have hfree := getWriteBlock_le_free rb hv
    refine ⟨rfl, ?_, hc⟩
    show bytesWritten = _
    rw [Nat.min_def]
    split <;> omega

open RingBuffer in
theorem readFromRingBufferLoop_last (off size : Nat) (hsz : size < 4294967296) (fuel : Nat)
    (rb : RingBuffer) (buffer : List Nat) (bytesRead : Nat) (hv : rb.InStorage)
    (hle : bytesRead ≤ size) (ht : rb.getReadBlock.2 = rb.stored) :
    readFromRingBufferLoop off size (fuel + 1) rb buffer bytesRead =
      readFromRingBufferLoop off size 1 rb buffer bytesRead ∧
    (readFromRingBufferLoop off size 1 rb buffer bytesRead).count =
      min size (bytesRead + rb.stored) ∧
    ¬ ((readFromRingBufferLoop off size 1 rb buffer bytesRead).ringBuffer.getReadBlock.2 ≠ 0 ∧
      (readFromRingBufferLoop off size 1 rb buffer bytesRead).count ≠ size) := by
  by_cases hc : rb.getReadBlock.2 ≠ 0 ∧ bytesRead ≠ size
  · rw [readFromRingBufferLoop_step off size fuel rb buffer bytesRead hc,
      readFromRingBufferLoop_step off size 0 rb buffer bytesRead hc]
    have hu : usub size bytesRead = size - bytesRead := by
      simp only [usub]; omega
    have hm1 : min rb.getReadBlock.2 (usub size bytesRead) ≤ size - bytesRead := by
      rw [hu]; exact Nat.min_le_right _ _
    have hm3 : min rb.getReadBlock.2 (usub size bytesRead) = size - bytesRead ∨
        min rb.getReadBlock.2 (usub size bytesRead) = rb.getReadBlock.2 := by
      rw [hu]
      rcases Nat.le_total rb.getReadBlock.2 (size - bytesRead) with h | h
      · exact Or.inr (Nat.min_eq_left h)
      · exact Or.inl (Nat.min_eq_right h)
    have hm2 : min rb.getReadBlock.2 (usub size bytesRead) ≤ rb.getReadBlock.2 :=
      Nat.min_le_left _ _
    have ha : uadd bytesRead (min rb.getReadBlock.2 (usub size bytesRead)) =
        bytesRead + min rb.getReadBlock.2 (usub size bytesRead) := by
      simp only [uadd]; omega
    rw [ha]
    generalize hm : min rb.getReadBlock.2 (usub size bytesRead) = m at hm1 hm2 hm3 ⊢
    generalize memcpy buffer (off + bytesRead) (slice rb.buffer_ rb.getReadBlock.1 m) = buffer1
    have hnc : ¬ ((rb.increaseReadPosition m).getReadBlock.2 ≠ 0 ∧ bytesRead + m ≠ size) := by
      rintro ⟨h1, h2⟩
      rcases hm3 with h | h
      · omega
      · have hab := getReadBlock_after_block rb hv
        rw [← h] at hab
        rw [hab] at h1
        omega
    rw [readFromRingBufferLoop_stop off size fuel _ _ _ hnc,
      readFromRingBufferLoop_stop off size 0 _ _ _ hnc]
    refine ⟨rfl, ?_, hnc⟩
    show bytesRead + m = _
    rw [Nat.min_def]
    split <;> omega
  · rw [readFromRingBufferLoop_stop off size _ rb buffer bytesRead hc,
      readFromRingBufferLoop_stop off size _ rb buffer bytesRead hc]
    refine ⟨rfl, ?_, hc⟩
    show bytesRead = _
    rw [Nat.min_def]
    split <;> omega

open RingBuffer in
theorem readFromRingBufferLoop_two (off size : Nat) (hsz : size < 4294967296) (fuel : Nat)
    (rb : RingBuffer) (buffer : List Nat) (bytesRead : Nat) (hv : rb.InStorage)
    (hle : bytesRead ≤ size) :
    readFromRingBufferLoop off size (fuel + 2) rb buffer bytesRead =
      readFromRingBufferLoop off size 2 rb buffer bytesRead ∧
    (readFromRingBufferLoop off size 2 rb buffer bytesRead).count =
      min size (bytesRead + rb.stored) ∧
    ¬ ((readFromRingBufferLoop off size 2 rb buffer bytesRead).ringBuffer.getReadBlock.2 ≠ 0 ∧
      (readFromRingBufferLoop off size 2 rb buffer bytesRead).count ≠ size) := by
  have hst := getReadBlock_le_stored rb hv
  by_cases hc : rb.getReadBlock.2 ≠ 0 ∧ bytesRead ≠ size
  · rw [readFromRingBufferLoop_step off size (fuel + 1) rb buffer bytesRead hc,
      readFromRingBufferLoop_step off size 1 rb buffer bytesRead hc]
    have hu : usub size bytesRead = size - bytesRead := by
      simp only [usub]; omega
    have hm1 : min rb.getReadBlock.2 (usub size bytesRead) ≤ size - bytesRead := by
      rw [hu]; exact Nat.min_le_right _ _
    have hm3 : min rb.getReadBlock.2 (usub size bytesRead) = size - bytesRead ∨
        min rb.getReadBlock.2 (usub size bytesRead) = rb.getReadBlock.2 := by
      rw [hu]
      rcases Nat.le_total rb.getReadBlock.2 (size - bytesRead) with h | h
      · exact Or.inr (Nat.min_eq_left h)
      · exact Or.inl (Nat.min_eq_right h)
    have hm2 : min rb.getReadBlock.2 (usub size bytesRead) ≤ rb.getReadBlock.2 :=
      Nat.min_le_left _ _
    have ha : uadd bytesRead (min rb.getReadBlock.2 (usub size bytesRead)) =
        bytesRead + min rb.getReadBlock.2 (usub size bytesRead) := by
      simp only [uadd]; omega
    rw [ha]
    generalize hm : min rb.getReadBlock.2 (usub size bytesRead) = m at hm1 hm2 hm3 ⊢
    generalize memcpy buffer (off + bytesRead) (slice rb.buffer_ rb.getReadBlock.1 m) = buffer1
    have hv1 := inStorage_increaseReadPosition rb m hv hm2
    have hst1 := stored_increaseReadPosition rb m hv hm2
    rcases hm3 with h | h
    · have hnc : ¬ ((rb.increaseReadPosition m).getReadBlock.2 ≠ 0 ∧
          bytesRead + m ≠ size) := by
        rintro ⟨_, h2⟩
        omega
      rw [readFromRingBufferLoop_stop off size _ _ _ _ hnc,
        readFromRingBufferLoop_stop off size _ _ _ _ hnc]
      refine ⟨rfl, ?_, hnc⟩
      show bytesRead + m = _
      rw [Nat.min_def]
      split <;> omega
    · have hab := getReadBlock_after_block rb hv
      rw [← h] at hab
      have ht1 : (rb.increaseReadPosition m).getReadBlock.2 =
          (rb.increaseReadPosition m).stored := by
        rw [hab, hst1]
      obtain ⟨l1, l2, l3⟩ := readFromRingBufferLoop_last off size hsz fuel
        (rb.increaseReadPosition m) buffer1 (bytesRead + m) hv1 (by omega) ht1
      refine ⟨l1, ?_, l3⟩
      rw [l2, hst1]
      have e : bytesRead + m + (rb.stored - m) = bytesRead + rb.stored := by omega
      rw [e]
  · rw [readFromRingBufferLoop_stop off size _ rb buffer bytesRead hc,
      readFromRingBufferLoop_stop off size _ rb buffer bytesRead hc]
    refine ⟨rfl, ?_, hc⟩
    show bytesRead = _
    rw [Nat.min_def]
    split <;> omega

open RingBuffer in
theorem readFromRingBufferLoop_data (off size : Nat) (hsz : size < 4294967296) (fuel : Nat)
    (rb : RingBuffer) (buffer : List Nat) (bytesRead : Nat) (hv : rb.Valid)
    (hst : rb.size_ ≤ rb.buffer_.length) (hle : bytesRead ≤ size)
    (hlen : off + size ≤ buffer.length) :
    (readFromRingBufferLoop off size fuel rb buffer bytesRead).ringBuffer.Valid ∧
    (readFromRingBufferLoop off size fuel rb buffer bytesRead).ringBuffer.size_ ≤
      (readFromRingBufferLoop off size fuel rb buffer bytesRead).ringBuffer.buffer_.length ∧
    (readFromRingBufferLoop off size fuel rb buffer bytesRead).ringBuffer.contents =
      rb.contents.drop
        ((readFromRingBufferLoop off size fuel rb buffer bytesRead).count - bytesRead) ∧
    (readFromRingBufferLoop off size fuel rb buffer bytesRead).buffer =
      buffer.take (off + bytesRead) ++
        rb.contents.take
          ((readFromRingBufferLoop off size fuel rb buffer bytesRead).count - bytesRead) ++
        buffer.drop (off + (readFromRingBufferLoop off size fuel rb buffer bytesRead).count) := by
  induction fuel generalizing rb buffer bytesRead with
  | zero =>
    rw [readFromRingBufferLoop_zero]
    refine ⟨hv, hst, ?_, ?_⟩
    · rw [Nat.sub_self, List.drop_zero]
    · show buffer = _
      rw [Nat.sub_self, List.take_zero, List.append_nil, List.take_append_drop]
  | succ fuel ih =>
    by_cases hc : rb.getReadBlock.2 ≠ 0 ∧ bytesRead ≠ size
    · rw [readFromRingBufferLoop_step off size fuel rb buffer bytesRead hc]
      have hu : usub size bytesRead = size - bytesRead := by
        simp only [usub]; omega
      have hm1 : min rb.getReadBlock.2 (usub size bytesRead) ≤ size - bytesRead := by
        rw [hu]; exact Nat.min_le_right _ _
      have hm2 : min rb.getReadBlock.2 (usub size bytesRead) ≤ rb.getReadBlock.2 :=
        Nat.min_le_left _ _
      have ha : uadd bytesRead (min rb.getReadBlock.2 (usub size bytesRead)) =
          bytesRead + min rb.getReadBlock.2 (usub size bytesRead) := by
        simp only [uadd]; omega
      rw [ha]
      generalize hm : min rb.getReadBlock.2 (usub size bytesRead) = m at hm1 hm2 ⊢
      have hin := inStorage_of_valid rb hv
      have hsrc : slice rb.buffer_ rb.getReadBlock.1 m = rb.contents.take m :=
        (take_contents rb m hv hst hm2).symm
      have hsl : (rb.contents.take m).length = m := by
        rw [List.length_take, length_contents rb hv hst]
        have := (getReadBlock_le_stored rb hin).1
        omega
      rw [hsrc]
      have hv1 := valid_increaseReadPosition rb m hv hm2
      have hst1 : (rb.increaseReadPosition m).size_ ≤
          (rb.increaseReadPosition m).buffer_.length := by
        rw [size_increaseReadPosition, buffer_increaseReadPosition]
        exact hst
      have hc1 := contents_increaseReadPosition rb m hv hst hm2
      have hl1 : (memcpy buffer (off + bytesRead) (rb.contents.take m)).length =
          buffer.length := length_memcpy _ _ _ (by rw [hsl]; omega)
      obtain ⟨i1, i2, i3, i4⟩ := ih (rb.increaseReadPosition m)
        (memcpy buffer (off + bytesRead) (rb.contents.take m)) (bytesRead + m) hv1 hst1
        (by omega) (by rw [hl1]; exact hlen)
      have hcnt := (readFromRingBufferLoop_count_le off size hsz fuel
        (rb.increaseReadPosition m) (memcpy buffer (off + bytesRead) (rb.contents.take m))
        (bytesRead + m) (by omega)).1
      refine ⟨i1, i2, ?_, ?_⟩
      · rw [i3, hc1, List.drop_drop]
        generalize Copied.count _ = c at hcnt ⊢
        congr 1
        omega
      · rw [i4, hc1]
        generalize Copied.count _ = c at hcnt ⊢
        have e1 : (memcpy buffer (off + bytesRead) (rb.contents.take m)).take
            (off + (bytesRead + m)) = buffer.take (off + bytesRead) ++ rb.contents.take m := by
          unfold memcpy
          rw [List.take_append_of_le_length (by
            simp only [List.length_append, List.length_take, hsl]; omega)]
          rw [List.take_of_length_le (by
            simp only [List.length_append, List.length_take, hsl]; omega)]
        have e2 : (memcpy buffer (off + bytesRead) (rb.contents.take m)).drop (off + c) =
            buffer.drop (off + c) :=
          drop_memcpy _ _ _ _ (by rw [hsl]; omega) (by rw [hsl]; omega)
        have e3 : rb.contents.take (c - bytesRead) =
            rb.contents.take m ++ (rb.contents.drop m).take (c - (bytesRead + m)) := by
          have : c - bytesRead = m + (c - (bytesRead + m)) := by omega
          rw [this, List.take_add]
        rw [e1, e2, e3]
        simp only [List.append_assoc]
    · rw [readFromRingBufferLoop_stop off size _ rb buffer bytesRead hc]
      refine ⟨hv, hst, ?_, ?_⟩
      · rw [Nat.sub_self, List.drop_zero]
      · show buffer = _
        rw [Nat.sub_self, List.take_zero, List.append_nil, List.take_append_drop]

theorem writeToRingBufferLoop_enough (buffer : List Nat) (off size : Nat)
    (hsz : size < 4294967296) (fuel : Nat) (rb : RingBuffer) (bytesWritten : Nat)
    (hle : bytesWritten ≤ size) (hfuel : size - bytesWritten ≤ fuel) (extra : Nat) :
    writeToRingBufferLoop buffer off size (fuel + extra) rb bytesWritten =
      writeToRingBufferLoop buffer off size fuel rb bytesWritten := by
  induction fuel generalizing rb bytesWritten with
  | zero =>
    have hc : ¬ (rb.getWriteBlock.2 ≠ 0 ∧ bytesWritten ≠ size) := by
      rintro ⟨_, h⟩
      omega
    rw [writeToRingBufferLoop_stop buffer off size _ rb bytesWritten hc,
      writeToRingBufferLoop_stop buffer off size _ rb bytesWritten hc]
  | succ fuel ih =>
    by_cases hc : rb.getWriteBlock.2 ≠ 0 ∧ bytesWritten ≠ size
    · have e : fuel + 1 + extra = (fuel + extra) + 1 := by omega
      rw [e, writeToRingBufferLoop_step buffer off size (fuel + extra) rb bytesWritten hc,
        writeToRingBufferLoop_step buffer off size fuel rb bytesWritten hc]
      have hu : usub size bytesWritten = size - bytesWritten := by
        simp only [usub]; omega
      have hm1 : min rb.getWriteBlock.2 (usub size bytesWritten) ≤ size - bytesWritten := by
        rw [hu]; exact Nat.min_le_right _ _
      have hm0 : 1 ≤ min rb.getWriteBlock.2 (usub size bytesWritten) := by
        rw [hu, Nat.le_min]
        omega
      have ha : uadd bytesWritten (min rb.getWriteBlock.2 (usub size bytesWritten)) =
          bytesWritten + min rb.getWriteBlock.2 (usub size bytesWritten) := by
        simp only [uadd]; omega
      rw [ha]
      exact ih _ _ (by omega) (by omega)
    · rw [writeToRingBufferLoop_stop buffer off size _ rb bytesWritten hc,
        writeToRingBufferLoop_stop buffer off size _ rb bytesWritten hc]

theorem writeToRingBuffer_eq_two (buffer : List Nat) (off size : Nat) (hsz : size < 4294967296)
    (rb : RingBuffer) (hv : rb.Valid) :
    writeToRingBuffer buffer off size rb = writeToRingBufferLoop buffer off size 2 rb 0 := by
  unfold writeToRingBuffer
  rw [← writeToRingBufferLoop_enough buffer off size hsz size rb 0 (Nat.zero_le _) (by omega) 2]
  exact (writeToRingBufferLoop_two buffer off size hsz size rb 0 hv (Nat.zero_le _)).1

theorem readFromRingBuffer_data (rb : RingBuffer) (buffer : List Nat) (size : Nat)
    (hsz : size < 4294967296) (hv : rb.Valid) (hst : rb.size_ ≤ rb.buffer_.length)
    (hlen : size ≤ buffer.length) :
    (readFromRingBuffer rb buffer 0 size).count = min size rb.stored ∧
    (readFromRingBuffer rb buffer 0 size).ringBuffer.Valid ∧
    (readFromRingBuffer rb buffer 0 size).ringBuffer.size_ ≤
      (readFromRingBuffer rb buffer 0 size).ringBuffer.buffer_.length ∧
    (readFromRingBuffer rb buffer 0 size).ringBuffer.contents =
      rb.contents.drop (readFromRingBuffer rb buffer 0 size).count ∧
    (readFromRingBuffer rb buffer 0 size).buffer =
      rb.contents.take (readFromRingBuffer rb buffer 0 size).count ++
        buffer.drop (readFromRingBuffer rb buffer 0 size).count := by
  have hc := (readFromRingBuffer_of_inStorage rb buffer 0 size hsz
    (RingBuffer.inStorage_of_valid rb hv)).1
  obtain ⟨i1, i2, i3, i4⟩ := readFromRingBufferLoop_data 0 size hsz size rb buffer 0 hv hst
    (Nat.zero_le _) (by omega)
  refine ⟨hc, i1, i2, ?_, ?_⟩
  · have := i3
    rw [Nat.sub_zero] at this
    exact this
  · have := i4
    rw [Nat.sub_zero, Nat.add_zero, List.take_zero, List.nil_append, Nat.zero_add] at this
    exact this

theorem readCalls_data (sizes : List Nat) (rb : RingBuffer) (hv : rb.Valid)
    (hst : rb.size_ ≤ rb.buffer_.length) (hsz : ∀ size ∈ sizes, size < 4294967296) :
    (readCalls rb sizes).2 = rb.contents.take sizes.sum ∧
    (readCalls rb sizes).1.contents = rb.contents.drop sizes.sum := by
  induction sizes generalizing rb with
  | nil =>
    simp only [readCalls, List.sum_nil, List.take_zero, List.drop_zero, and_self]
  | cons size sizes ih =>
    have h32 : size < 4294967296 := hsz size (List.mem_cons_self _ _)
    obtain ⟨c1, c2, c3, c4, c5⟩ := readFromRingBuffer_data rb (List.replicate size 0) size h32
      hv hst (by rw [List.length_replicate])
    obtain ⟨j1, j2⟩ := ih _ c2 c3 (fun s hs => hsz s (List.mem_cons_of_mem _ hs))
    have hl := RingBuffer.length_contents rb hv hst
    simp only [readCalls, List.sum_cons]
    rw [j1, j2, c4, c5]
    generalize (readFromRingBuffer rb (List.replicate size 0) 0 size).count = c at c1 ⊢
    have hcl : c ≤ rb.contents.length := by
      rw [hl, c1]
      exact Nat.min_le_right _ _
    have ht : (rb.contents.take c ++ (List.replicate size 0).drop c).take c =
        rb.contents.take c := by
      rw [List.take_append_of_le_length (by rw [List.length_take]; omega), List.take_take,
        Nat.min_self]
    rw [ht, List.drop_drop]
    by_cases hcs : c = size
    · subst hcs
      constructor
      · rw [List.take_add]
      · rw [Nat.add_comm]
    · have hall : rb.contents.length = c := by
        rw [hl]
        rw [Nat.min_def] at c1
        split at c1 <;> omega
      constructor
      · rw [List.drop_eq_nil_of_le (by omega), List.take_nil, List.append_nil,
          List.take_of_length_le (by omega), List.take_of_length_le (by omega)]
      · rw [List.drop_eq_nil_of_le (by omega), List.drop_eq_nil_of_le (by
          rw [Nat.min_def] at c1
          split at c1 <;> omega)]

/-- C21: a ring buffer with valid cursors (every reachable state), capacity `size_` and a storage
of at least `size_` bytes, holding `stored` bytes; a caller buffer `d` of `n` bytes to write and
a caller buffer `buf` of `m` bytes to read into. `writeToRingBuffer` returns
`min n (size_ - 2 - stored)` and `readFromRingBuffer` returns `min m stored`. Both loops end
within two iterations: more than two iterations change nothing, and after two the loop condition
is false. After the write the ring buffer holds the bytes stored before followed by the accepted
prefix of `d`; and calls of `readFromRingBuffer` on this ring buffer, for `sizes` bytes in turn,
return these bytes in this order, as many as have been asked for, also when they wrap past the
end of the storage; the first of these calls, for `m` bytes, leaves the rest of the caller buffer
untouched and the cursors valid. -/
theorem copies_count_and_order (rb : RingBuffer) (d buf : List Nat) (n m : Nat)
    (sizes : List Nat) (hv : rb.Valid) (hst : rb.size_ ≤ rb.buffer_.length)
    (hn : n ≤ d.length) (hn32 : n < 4294967296) (hm : m ≤ buf.length) (hm32 : m < 4294967296)
    (hsizes : ∀ size ∈ sizes, size < 4294967296) :
    ((writeToRingBuffer d 0 n rb).count = min n (rb.size_ - 2 - rb.stored) ∧
      (readFromRingBuffer rb buf 0 m).count = min m rb.stored) ∧
    ((∀ fuel, writeToRingBufferLoop d 0 n (fuel + 2) rb 0 = writeToRingBufferLoop d 0 n 2 rb 0) ∧
      ¬ ((writeToRingBufferLoop d 0 n 2 rb 0).ringBuffer.getWriteBlock.2 ≠ 0 ∧
        (writeToRingBufferLoop d 0 n 2 rb 0).count ≠ n) ∧
      writeToRingBuffer d 0 n rb = writeToRingBufferLoop d 0 n 2 rb 0 ∧
      (∀ fuel, readFromRingBufferLoop 0 m (fuel + 2) rb buf 0 =
        readFromRingBufferLoop 0 m 2 rb buf 0) ∧
      ¬ ((readFromRingBufferLoop 0 m 2 rb buf 0).ringBuffer.getReadBlock.2 ≠ 0 ∧
        (readFromRingBufferLoop 0 m 2 rb buf 0).count ≠ m)) ∧
    (rb.contents.length = rb.stored ∧
      (writeToRingBuffer d 0 n rb).ringBuffer.Valid ∧
      (writeToRingBuffer d 0 n rb).ringBuffer.contents =
        rb.contents ++ d.take (writeToRingBuffer d 0 n rb).count ∧
      (readCalls (writeToRingBuffer d 0 n rb).ringBuffer sizes).2 =
        (rb.contents ++ d.take (writeToRingBuffer d 0 n rb).count).take sizes.sum ∧
      (readFromRingBuffer (writeToRingBuffer d 0 n rb).ringBuffer buf 0 m).count =
        min m (rb.stored + (writeToRingBuffer d 0 n rb).count) ∧
      (readFromRingBuffer (writeToRingBuffer d 0 n rb).ringBuffer buf 0 m).buffer =
        (rb.contents ++ d.take (writeToRingBuffer d 0 n rb).count).take
            (readFromRingBuffer (writeToRingBuffer d 0 n rb).ringBuffer buf 0 m).count ++
          buf.drop (readFromRingBuffer (writeToRingBuffer d 0 n rb).ringBuffer buf 0 m).count ∧
      (readFromRingBuffer (writeToRingBuffer d 0 n rb).ringBuffer buf 0 m).ringBuffer.Valid) := by
  have hin := RingBuffer.inStorage_of_valid rb hv
  obtain ⟨w1, w2, w3⟩ := writeToRingBufferLoop_two d 0 n hn32 0 rb 0 hv (Nat.zero_le _)
  have hw2 := writeToRingBuffer_eq_two d 0 n hn32 rb hv
  obtain ⟨r1, r2, r3⟩ := readFromRingBufferLoop_two 0 m hm32 0 rb buf 0 hin (Nat.zero_le _)
  obtain ⟨k1, k2, k3, _⟩ := writeToRingBufferLoop_contents d 0 n hn32 (by omega) n rb 0 hv hst
    (Nat.zero_le _)
  have k1' : (writeToRingBuffer d 0 n rb).ringBuffer.Valid := k1
  have k2' : (writeToRingBuffer d 0 n rb).ringBuffer.size_ ≤
      (writeToRingBuffer d 0 n rb).ringBuffer.buffer_.length := k2
  have k3' : (writeToRingBuffer d 0 n rb).ringBuffer.contents =
      rb.contents ++ d.take (writeToRingBuffer d 0 n rb).count := by
    have := k3
    rw [Nat.sub_zero, Nat.add_zero] at this
    exact this
  have hcw : (writeToRingBuffer d 0 n rb).count = min n (rb.size_ - 2 - rb.stored) := by
    rw [hw2, w2, Nat.zero_add]
  have hlc := RingBuffer.length_contents rb hv hst
  have hsw : (writeToRingBuffer d 0 n rb).ringBuffer.stored =
      rb.stored + (writeToRingBuffer d 0 n rb).count := by
    rw [← RingBuffer.length_contents _ k1' k2', k3', List.length_append, hlc, List.length_take]
    have : (writeToRingBuffer d 0 n rb).count ≤ n := by
      rw [hcw]
      exact Nat.min_le_left _ _
    omega
  obtain ⟨c1, c2, _, _, c5⟩ := readFromRingBuffer_data (writeToRingBuffer d 0 n rb).ringBuffer
    buf m hm32 k1' k2' hm
  refine ⟨⟨hcw, (readFromRingBuffer_of_inStorage rb buf 0 m hm32 hin).1⟩,
    ⟨fun fuel => (writeToRingBufferLoop_two d 0 n hn32 fuel rb 0 hv (Nat.zero_le _)).1, w3, hw2,
      fun fuel => (readFromRingBufferLoop_two 0 m hm32 fuel rb buf 0 hin (Nat.zero_le _)).1, r3⟩,
    hlc, k1', k3', ?_, ?_, ?_, c2⟩
  · rw [(readCalls_data sizes _ k1' k2' hsizes).1, k3']
  · rw [c1, hsw]
  · rw [c5, k3']

theorem copies_count_and_order_witness :
    (RingBuffer.stored ⟨[0, 0, 0, 0, 0, 9, 0, 0], 8, 5, 6⟩ = 1 ∧
      (writeToRingBuffer [1, 2, 3, 4, 5, 6, 7] 0 7 ⟨[0, 0, 0, 0, 0, 9, 0, 0], 8, 5, 6⟩) =
        ⟨⟨[3, 4, 5, 0, 0, 9, 1, 2], 8, 5, 3⟩, [1, 2, 3, 4, 5, 6, 7], 5⟩ ∧
      readCalls ⟨[3, 4, 5, 0, 0, 9, 1, 2], 8, 5, 3⟩ [2, 3, 4] =
        (⟨[3, 4, 5, 0, 0, 9, 1, 2], 8, 3, 3⟩, [9, 1, 2, 3, 4, 5])) ∧
    (writeToRingBuffer [1, 2, 3, 4, 5, 6, 7] 0 7 ⟨[0, 0, 0, 0, 0, 9, 0, 0], 8, 5, 6⟩).count =
      min 7 (8 - 2 - RingBuffer.stored ⟨[0, 0, 0, 0, 0, 9, 0, 0], 8, 5, 6⟩) ∧
    (readCalls (writeToRingBuffer [1, 2, 3, 4, 5, 6, 7] 0 7
        ⟨[0, 0, 0, 0, 0, 9, 0, 0], 8, 5, 6⟩).ringBuffer [2, 3, 4]).2 =
      (RingBuffer.contents ⟨[0, 0, 0, 0, 0, 9, 0, 0], 8, 5, 6⟩ ++
        ([1, 2, 3, 4, 5, 6, 7] : List Nat).take (writeToRingBuffer [1, 2, 3, 4, 5, 6, 7] 0 7
          ⟨[0, 0, 0, 0, 0, 9, 0, 0], 8, 5, 6⟩).count).take ([2, 3, 4] : List Nat).sum := by
  have h := copies_count_and_order ⟨[0, 0, 0, 0, 0, 9, 0, 0], 8, 5, 6⟩ [1, 2, 3, 4, 5, 6, 7]
    [0, 0, 0] 7 3 [2, 3, 4] (by unfold RingBuffer.Valid; decide) (by decide) (by decide)
    (by decide) (by decide) (by decide) (by decide)
  exact ⟨by decide, h.1.1, h.2.2.2.2.2.1⟩

namespace RingBuffer

theorem getWriteBlock_increaseReadPosition (rb : RingBuffer) (n : Nat) (h : rb.Valid)
    (hn : n ≤ rb.getReadBlock.2) :
    rb.getWriteBlock.2 ≤ (rb.increaseReadPosition n).getWriteBlock.2 := by
  have hv' := valid_increaseReadPosition rb n h hn
  have hr' := readPosition_increaseReadPosition_of_valid rb n h hn
  rw [getWriteBlock_snd_of_valid rb h, getWriteBlock_snd_of_valid _ hv']
  rw [getReadBlock_snd_of_valid rb h] at hn
  obtain ⟨h2, hC, hr, hw, h1, h3⟩ := h
  rw [writePosition_increaseReadPosition, size_increaseReadPosition, hr']
  split at hn <;> split_ifs <;> omega

end RingBuffer

open RingBuffer in
theorem readFromRingBufferLoop_valid (off size : Nat) (hsz : size < 4294967296) (fuel : Nat)
    (rb : RingBuffer) (buffer : List Nat) (bytesRead : Nat) (hv : rb.Valid)
    (hle : bytesRead ≤ size) :
    (readFromRingBufferLoop off size fuel rb buffer bytesRead).ringBuffer.Valid ∧
    rb.getWriteBlock.2 ≤
      (readFromRingBufferLoop off size fuel rb buffer bytesRead).ringBuffer.getWriteBlock.2 := by
  induction fuel generalizing rb buffer bytesRead with
  | zero =>
    rw [readFromRingBufferLoop_zero]
    exact ⟨hv, Nat.le_refl _⟩
  | succ fuel ih =>
    by_cases hc : rb.getReadBlock.2 ≠ 0 ∧ bytesRead ≠ size
    · rw [readFromRingBufferLoop_step off size fuel rb buffer bytesRead hc]
      have hu : usub size bytesRead = size - bytesRead := by
        simp only [usub]; omega
      have hm1 : min rb.getReadBlock.2 (usub size bytesRead) ≤ size - bytesRead := by
        rw [hu]; exact Nat.min_le_right _ _
      have hm2 : min rb.getReadBlock.2 (usub size bytesRead) ≤ rb.getReadBlock.2 :=
        Nat.min_le_left _ _
      have ha : uadd bytesRead (min rb.getReadBlock.2 (usub size bytesRead)) =
          bytesRead + min rb.getReadBlock.2 (usub size bytesRead) := by
        simp only [uadd]; omega
      rw [ha]
      generalize hm : min rb.getReadBlock.2 (usub size bytesRead) = m at hm1 hm2 ⊢
      generalize memcpy buffer (off + bytesRead) (slice rb.buffer_ rb.getReadBlock.1 m) = buffer1
      obtain ⟨i1, i2⟩ := ih (rb.increaseReadPosition m) buffer1 (bytesRead + m)
        (valid_increaseReadPosition rb m hv hm2) (by omega)
      exact ⟨i1, Nat.le_trans (getWriteBlock_increaseReadPosition rb m hv hm2) i2⟩
    · rw [readFromRingBufferLoop_stop off size _ rb buffer bytesRead hc]
      exact ⟨hv, Nat.le_refl _⟩

namespace SerialPort

/-! ## The read protocol of the hardware -/

theorem rxRunFrom_append (u : UartLowLevel) (es fs : List Effect) (i : Nat)
    (armed : Option Nat) :
    rxRunFrom u (es ++ fs) i armed =
      match rxRunFrom u es i armed with
      | none => none
      | some a => rxRunFrom u fs (i + es.length) a := by
  induction es generalizing i armed with
  | nil => rfl
  | cons e es ih =>
    simp only [List.cons_append, rxRunFrom, List.length_cons]
    cases rxStep u i armed e with
    | none => rfl
    | some a =>
      have e1 : i + 1 + es.length = i + (es.length + 1) := by omega
      have h1 := ih (i + 1) a
      rw [e1] at h1
      exact h1

theorem rxRun_emit (q : SerialPort) (e : Effect) :
    rxRun (q.emit e) =
      match rxRun q with
      | none => none
      | some a => rxStep q.uart_ q.trace.length a e := by
  show rxRunFrom q.uart_ (q.trace ++ [e]) 0 none = _
  rw [rxRunFrom_append]
  show _ = match rxRunFrom q.uart_ q.trace 0 none with
    | none => none
    | some a => rxStep q.uart_ q.trace.length a e
  cases rxRunFrom q.uart_ q.trace 0 none with
  | none => rfl
  | some a =>
    simp only [rxRunFrom, Nat.zero_add]
    cases rxStep q.uart_ q.trace.length a e <;> rfl

theorem rxRun_emit_some (q : SerialPort) (e : Effect) (a : Option Nat)
    (h : rxRun (q.emit e) = some a) :
    ∃ a0, rxRun q = some a0 ∧ rxStep q.uart_ q.trace.length a0 e = some a := by
  rw [rxRun_emit] at h
  cases h0 : rxRun q with
  | none => rw [h0] at h; cases h
  | some a0 =>
    rw [h0] at h
    exact ⟨a0, rfl, h⟩

theorem rxStep_neutral (u : UartLowLevel) (i : Nat) (armed : Option Nat) (e : Effect)
    (he : rxNeutral e = true) : rxStep u i armed e = some armed := by
  cases e with
  | startRead o l => cases he
  | stopRead => cases he
  | interrupt ev =>
    cases ev with
    | readComplete n => cases he
    | _ => rfl
  | _ => rfl

theorem rxRun_emit_neutral (q : SerialPort) (e : Effect) (he : rxNeutral e = true) :
    rxRun (q.emit e) = rxRun q := by
  rw [rxRun_emit]
  cases rxRun q with
  | none => rfl
  | some a => exact rxStep_neutral _ _ a e he

/-! ## Properties that survive the read protocol -/

theorem RxStable.rxArm {P : SerialPort → Prop} (hP : RxStable P) (p : SerialPort)
    (id : HandleId) (h : P p) : P (p.arm id) :=
  hP.handle p id _ h

theorem RxStable.rxDisarm {P : SerialPort → Prop} (hP : RxStable P) (p : SerialPort)
    (id : HandleId) (h : P p) : P (p.disarm id) :=
  hP.handle p id _ h

theorem RxStable.rxPostAndClear {P : SerialPort → Prop} (hP : RxStable P) (p : SerialPort)
    (id : HandleId) (h : P p) : P (p.postAndClear id) := by
  unfold SerialPort.postAndClear
  split
  · exact hP.handle _ id _ (hP.emit p (.post id) rfl h)
  · exact h

theorem RxStable.rxStartWriteWrapper {P : SerialPort → Prop} (hP : RxStable P)
    (p : SerialPort) (h : P p) : P (p.startWriteWrapper).2 :=
  hP.emit _ _ rfl (hP.writeFlag _ true (hP.transmitFlag p true h))

theorem RxStable.rxDeliver {P : SerialPort → Prop} (hP : RxStable P) (p : SerialPort)
    (e : Event) (h : P p) : P (p.deliver e) := by
  cases e with
  | readComplete n => exact hP.readComplete p n h
  | writeComplete n =>
    have h0 := hP.emit p (.interrupt (.writeComplete n)) rfl h
    have h1 := hP.rxPostAndClear _ .writeSemaphore (hP.written _ (n % 4294967296) h0)
    simp only [SerialPort.deliver, writeCompleteEvent]
    split
    · exact hP.writeFlag _ false h1
    · exact hP.rxStartWriteWrapper _ h1
  | transmitComplete =>
    have h0 := hP.emit p (.interrupt .transmitComplete) rfl h
    exact hP.transmitFlag _ false (hP.rxPostAndClear _ .transmitSemaphore h0)
  | receiveError s => exact hP.emit p (.interrupt (.receiveError s)) rfl h

theorem RxStable.rxDeliverAll {P : SerialPort → Prop} (hP : RxStable P) (es : List Event)
    (p : SerialPort) (h : P p) : P (p.deliverAll es) := by
  induction es generalizing p with
  | nil => exact h
  | cons e es ih => exact ih (p.deliver e) (hP.rxDeliver p e h)

theorem RxStable.rxWait {P : SerialPort → Prop} (hP : RxStable P) (p : SerialPort)
    (id : HandleId) (w : Int × SerialPort) (hw : p.wait id = some w) (h : P p) : P w.2 := by
  have h0 := hP.emit p (.wait id) rfl h
  unfold SerialPort.wait at hw
  simp only [] at hw
  split at hw
  · cases hw
    exact hP.handle _ id _ h0
  · split at hw
    · cases hw
    · next ws rest hsched =>
      have h1 := hP.rxDeliverAll ws.events _ (hP.schedule _ rest h0)
      split at hw
      · cases hw
        exact h1
      · split at hw
        · cases hw
          exact hP.handle _ id _ h1
        · cases hw

/-! ## The inbound buffer under the read protocol -/

theorem inboundOk_congr (q q1 : SerialPort) (hu : q1.uart_ = q.uart_)
    (ht : q1.trace = q.trace) (hr : q1.readBuffer_ = q.readBuffer_) (h : InboundOk q) :
    InboundOk q1 := by
  intro a ha
  have e : rxRun q1 = rxRun q := by
    unfold rxRun
    rw [hu, ht]
  rw [e] at ha
  rw [hr]
  exact h a ha

theorem inboundOk_emit (q : SerialPort) (e : Effect) (he : rxNeutral e = true)
    (h : InboundOk q) : InboundOk (q.emit e) := by
  intro a ha
  rw [rxRun_emit_neutral q e he] at ha
  exact h a ha

theorem inboundOk_setHandle (q : SerialPort) (id : HandleId) (hd : Handle)
    (h : InboundOk q) : InboundOk (q.setHandle id hd) := by
  cases id <;> exact h

theorem startReadWrapper_snd (q : SerialPort) (limit : Nat) :
    (q.startReadWrapper limit).2 = q.emit (.startRead q.readBuffer_.getWriteBlock.1
      (min (min q.readBuffer_.getWriteBlock.2 (q.readBuffer_.getSize / 2)) limit)) := rfl

theorem rxStep_startRead (u : UartLowLevel) (i : Nat) (armed : Option Nat) (o l : Nat) :
    rxStep u i armed (.startRead o l) = some (if u.status i = 0 then some l else none) := rfl

theorem inboundOk_startReadWrapper (q : SerialPort) (limit : Nat) (h : InboundOk q) :
    InboundOk (q.startReadWrapper limit).2 := by
  rw [startReadWrapper_snd]
  intro a ha
  obtain ⟨a0, h0, hstep⟩ := rxRun_emit_some q _ a ha
  obtain ⟨a1, _⟩ := h a0 h0
  rw [rxStep_startRead] at hstep
  have e := Option.some.inj hstep
  refine ⟨a1, ?_⟩
  subst e
  rw [readBuffer_emit]
  have hl : min (min q.readBuffer_.getWriteBlock.2 (q.readBuffer_.getSize / 2)) limit ≤
      q.readBuffer_.getWriteBlock.2 :=
    Nat.le_trans (Nat.min_le_left _ _) (Nat.min_le_left _ _)
  split
  · rw [Option.getD_some]
    exact hl
  · exact Nat.zero_le _

theorem inboundOk_commit (q : SerialPort) (e : Effect) (k : Nat)
    (hstep : ∀ a0 a, rxStep q.uart_ q.trace.length a0 e = some a →
      a = none ∧ k ≤ a0.getD 0)
    (h : InboundOk q) :
    InboundOk { q.emit e with readBuffer_ := q.readBuffer_.increaseWritePosition k } := by
  intro a ha
  obtain ⟨a0, h0, hs⟩ := rxRun_emit_some q e a ha
  obtain ⟨e1, e2⟩ := hstep a0 a hs
  obtain ⟨a1, a2⟩ := h a0 h0
  subst e1
  exact ⟨RingBuffer.valid_increaseWritePosition _ k a1 (Nat.le_trans e2 a2), Nat.zero_le _⟩

theorem inboundOk_postAndClear (q : SerialPort) (id : HandleId) (h : InboundOk q) :
    InboundOk (q.postAndClear id) := by
  unfold postAndClear
  split
  · exact inboundOk_setHandle _ id _ (inboundOk_emit q (.post id) rfl h)
  · exact h

theorem inboundOk_readComplete (q : SerialPort) (n : Nat) (h : InboundOk q) :
    InboundOk (q.deliver (.readComplete n)) := by
  have h1 := inboundOk_postAndClear _ .readSemaphore
    (inboundOk_commit q (.interrupt (.readComplete n)) (n % 4294967296)
      (fun a0 a hs => by
        simp only [rxStep] at hs
        split at hs
        · next hle =>
          cases hs
          exact ⟨rfl, Nat.le_trans (Nat.mod_le _ _) hle⟩
        · cases hs) h)
  simp only [deliver, readCompleteEvent]
  split
  · exact h1
  · exact inboundOk_startReadWrapper _ _ h1

theorem rxStable_inboundOk : RxStable InboundOk :=
  ⟨inboundOk_emit, inboundOk_setHandle, fun _ _ h => h, fun _ _ h => h, fun _ _ h => h,
    fun _ _ h => h, inboundOk_readComplete⟩

theorem inboundOk_restartRead (q : SerialPort) (minSize bytesRead : Nat) (h : InboundOk q) :
    InboundOk (restartRead q minSize bytesRead).2 := by
  have h1 := inboundOk_commit q .stopRead (q.uart_.received q.trace.length % 4294967296)
    (fun a0 a hs => by
      simp only [rxStep] at hs
      split at hs
      · next hle =>
        cases hs
        exact ⟨rfl, hle⟩
      · cases hs) h
  exact inboundOk_startReadWrapper _ _ h1

theorem inboundOk_drain (q : SerialPort) (buffer : List Nat) (size bytesRead : Nat)
    (hsz : size < 4294967296) (hle : bytesRead ≤ size) (h : InboundOk q) :
    InboundOk (drain q buffer size bytesRead).port := by
  intro a ha
  have ha' : rxRun q = some a := ha
  obtain ⟨a1, a2⟩ := h a ha'
  have hu : usub size bytesRead = size - bytesRead := by simp only [usub]; omega
  obtain ⟨i1, i2⟩ := readFromRingBufferLoop_valid bytesRead (usub size bytesRead)
    (by rw [hu]; omega) (usub size bytesRead) q.readBuffer_ buffer 0 a1 (Nat.zero_le _)
  exact ⟨i1, Nat.le_trans a2 i2⟩

theorem inboundOk_readLoop (size minSize : Nat) (hsz : size < 4294967296) (fuel : Nat)
    (p : SerialPort) (buffer : List Nat) (t : Transfer) (hp : InboundOk p)
    (h : readLoop size minSize fuel p buffer 0 = some t) : InboundOk t.port := by
  refine readLoop_induct size minSize (fun q _ b => b ≤ size ∧ InboundOk q)
    (fun t => InboundOk t.port) ?_ ?_ ?_ fuel p buffer 0 t ⟨Nat.zero_le _, hp⟩ h
  · intro q buf b hq _
    exact hq.2
  · intro q buf b t hq _ hit
    obtain ⟨hb, hq⟩ := hq
    obtain ⟨d1, r, d2, h1, h2, h3, hc⟩ := readIteration_returned size minSize q buf b t hit
    have hb1 := (bytesRead_drain_bounds q buf size b hsz hb).2
    have a1 := inboundOk_drain q buf size b hsz hb hq
    rw [h1] at a1 hb1
    have a2 := inboundOk_restartRead _ minSize d1.bytes
      (rxStable_inboundOk.rxArm _ .readSemaphore a1)
    rw [h2] at a2
    have a3 := inboundOk_drain r.2 d1.buffer size d1.bytes hsz hb1 a2
    rw [h3] at a3
    rcases hc with ⟨_, ht⟩ | ⟨_, _, ht⟩ | ⟨_, _, _, w, hw, _, ht⟩
    · subst ht
      exact a1
    · subst ht
      exact rxStable_inboundOk.rxDisarm _ _ a2
    · subst ht
      exact rxStable_inboundOk.rxDisarm _ _ (rxStable_inboundOk.rxWait _ _ w hw a3)
  · intro q buf b s hq _ hit
    obtain ⟨hb, hq⟩ := hq
    obtain ⟨d1, r, d2, h1, h2, h3, _, _, hc⟩ := readIteration_next size minSize q buf b s hit
    have hb1 := (bytesRead_drain_bounds q buf size b hsz hb).2
    have a1 := inboundOk_drain q buf size b hsz hb hq
    rw [h1] at a1 hb1
    have a2 := inboundOk_restartRead _ minSize d1.bytes
      (rxStable_inboundOk.rxArm _ .readSemaphore a1)
    rw [h2] at a2
    have a3 := inboundOk_drain r.2 d1.buffer size d1.bytes hsz hb1 a2
    have hb2 := (bytesRead_drain_bounds r.2 d1.buffer size d1.bytes hsz hb1).2
    rw [h3] at a3 hb2
    rcases hc with ⟨_, hs⟩ | ⟨_, w, hw, _, hs⟩
    · subst hs
      exact ⟨hb2, rxStable_inboundOk.rxDisarm _ _ a3⟩
    · subst hs
      exact ⟨hb2, rxStable_inboundOk.rxDisarm _ _
        (rxStable_inboundOk.rxWait _ _ w hw a3)⟩

theorem inboundOk_read (fuel : Nat) (p : SerialPort) (buffer : Option (List Nat)) (size : Nat)
    (hsz : size < 4294967296) (t : Transfer) (hp : InboundOk p)
    (h : read fuel p buffer size = some t) : InboundOk t.port := by
  cases buffer with
  | none =>
    simp only [read] at h
    cases h
    exact hp
  | some b =>
    simp only [read] at h
    split at h
    · cases h; exact hp
    · split at h
      · cases h; exact hp
      · split at h
        · cases h; exact hp
        · exact inboundOk_readLoop size _ hsz fuel p b t hp h

theorem inboundOk_open (maxCount : Nat) (p : SerialPort) (baudRate characterLength : Nat)
    (parity : UartParity) (_2StopBits : Bool) (hp : InboundOk p) :
    InboundOk («open» maxCount p baudRate characterLength parity _2StopBits).2 := by
  have h1 : InboundOk (p.emit (.start baudRate characterLength parity _2StopBits)) :=
    inboundOk_emit p _ rfl hp
  have h2 := inboundOk_startReadWrapper _ SIZE_MAX h1
  unfold «open»
  split
  · exact hp
  · split
    · split
      · exact hp
      · simp only [uartStart]
        split
        · exact h1
        · split
          · exact h2
          · exact inboundOk_congr _ _ rfl rfl rfl h2
    · split
      · exact hp
      · exact inboundOk_congr _ _ rfl rfl rfl hp

end SerialPort

namespace RingBuffer

theorem stored_le_of_valid (rb : RingBuffer) (h : rb.Valid) : rb.stored ≤ rb.size_ - 2 := by
  rw [stored_of_valid rb h]
  obtain ⟨h2, hC, hr, hw, h1, h3⟩ := h
  split <;> omega

end RingBuffer

namespace SerialPort

theorem inboundOk_runRxCalls (maxCount : Nat) (calls : List RxCall) (p r : SerialPort)
    (hcalls : ∀ fuel buffer size, RxCall.read fuel buffer size ∈ calls → size < 4294967296)
    (hp : InboundOk p) (h : runRxCalls maxCount p calls = some r) : InboundOk r := by
  induction calls generalizing p with
  | nil =>
    simp only [runRxCalls] at h
    cases h
    exact hp
  | cons c calls ih =>
    have hrest : ∀ fuel buffer size, RxCall.read fuel buffer size ∈ calls →
        size < 4294967296 :=
      fun fuel buffer size hm => hcalls fuel buffer size (List.mem_cons_of_mem _ hm)
    cases c with
    | «open» baudRate characterLength parity _2StopBits =>
      simp only [runRxCalls] at h
      exact ih _ hrest (inboundOk_open maxCount p _ _ _ _ hp) h
    | read fuel buffer size =>
      have hs := hcalls fuel buffer size (List.mem_cons_self _ _)
      simp only [runRxCalls] at h
      cases hw : read fuel p (some buffer) size with
      | none => rw [hw] at h; cases h
      | some t =>
        rw [hw] at h
        exact ih t.port hrest (inboundOk_read fuel p _ size hs t hp hw) h
    | interrupt e =>
      simp only [runRxCalls] at h
      exact ih (p.deliver e) hrest (rxStable_inboundOk.rxDeliver p e hp) h

/-- C22: in every state `s`, `startReadWrapper(limit)` passes to the hardware `startRead` the
start of the write block of the inbound buffer and the length
`min(getWriteBlock().second, getSize() / 2, limit)`, which is at most the length of the contiguous
free block; `open`, `read` and `readCompleteEvent` call the hardware `startRead` through
`startReadWrapper` only. Consequently, after calls of `open` and `read` (each with
`size < 2^32`) and interrupts, in any order and also during the waits of `read`, on a port whose
inbound buffer has valid cursors and with nothing armed at first: provided the hardware has never
reported more bytes than the armed length (through `readCompleteEvent(n)` or through the value
returned by `stopRead`), the cursors of the inbound buffer are valid (the write cursor has not
overtaken the read cursor), at most `size_ - 2` bytes are stored, and the armed length is at
most the length of the contiguous free block. -/
theorem inbound_buffer_bounded (maxCount : Nat) (p0 : SerialPort) (calls : List RxCall)
    (p : SerialPort) (hv : p0.readBuffer_.Valid) (h0 : rxRun p0 = some none)
    (hcalls : ∀ fuel buffer size, RxCall.read fuel buffer size ∈ calls → size < 4294967296)
    (hrun : runRxCalls maxCount p0 calls = some p) (hok : (rxRun p).isSome = true) :
    (∀ (s : SerialPort) (limit : Nat),
      (s.startReadWrapper limit).2.trace = s.trace ++ [.startRead s.readBuffer_.getWriteBlock.1
        (min (min s.readBuffer_.getWriteBlock.2 (s.readBuffer_.getSize / 2)) limit)] ∧
      min (min s.readBuffer_.getWriteBlock.2 (s.readBuffer_.getSize / 2)) limit ≤
        s.readBuffer_.getWriteBlock.2) ∧
    p.readBuffer_.Valid ∧ p.readBuffer_.stored ≤ p.readBuffer_.size_ - 2 ∧
    (∀ l, rxRun p = some (some l) → l ≤ p.readBuffer_.getWriteBlock.2) := by
  have hp0 : InboundOk p0 := by
    intro a ha
    rw [h0] at ha
    cases ha
    exact ⟨hv, Nat.zero_le _⟩
  have hp := inboundOk_runRxCalls maxCount calls p0 p hcalls hp0 hrun
  obtain ⟨a, ha⟩ := Option.isSome_iff_exists.mp hok
  obtain ⟨a1, a2⟩ := hp a ha
  refine ⟨fun s limit => ⟨rfl, Nat.le_trans (Nat.min_le_left _ _) (Nat.min_le_left _ _)⟩, a1,
    RingBuffer.stored_le_of_valid _ a1, ?_⟩
  intro l hl
  rw [ha] at hl
  cases hl
  rw [Option.getD_some] at a2
  exact a2

theorem inbound_buffer_bounded_witness :
    ∃ p, runRxCalls 255 (quietPort (.fresh 8) (.fresh 8) 0 0)
        [.«open» 9600 8 0 false, .interrupt (.readComplete 4),
          .read 1 [0, 0] 2] = some p ∧
      (rxRun p = some (some 2) ∧ p.readBuffer_.stored = 2 ∧
        p.readBuffer_.getWriteBlock.2 = 4) ∧
      p.readBuffer_.Valid ∧ p.readBuffer_.stored ≤ p.readBuffer_.size_ - 2 ∧
      (∀ l, rxRun p = some (some l) → l ≤ p.readBuffer_.getWriteBlock.2) := by
  have hs : (runRxCalls 255 (quietPort (.fresh 8) (.fresh 8) 0 0)
      [.«open» 9600 8 0 false, .interrupt (.readComplete 4),
        .read 1 [0, 0] 2]).map
      (fun r => (rxRun r, r.readBuffer_.stored, r.readBuffer_.getWriteBlock.2)) =
      some (some (some 2), 2, 4) := by
    decide!
  obtain ⟨p, hrun, he⟩ := Option.map_eq_some'.mp hs
  simp only [Prod.mk.injEq] at he
  have h := inbound_buffer_bounded 255 (quietPort (.fresh 8) (.fresh 8) 0 0)
    [.«open» 9600 8 0 false, .interrupt (.readComplete 4),
      .read 1 [0, 0] 2] p
    (RingBuffer.valid_cleared _ 8 (by decide) (by decide)) rfl
    (by
      intro fuel buffer size hm
      rcases List.mem_cons.mp hm with hm | hm
      · cases hm
      · rcases List.mem_cons.mp hm with hm | hm
        · cases hm
        · rcases List.mem_cons.mp hm with hm | hm
          · cases hm
            decide
          · cases hm)
    hrun (by rw [he.1]; rfl)
  exact ⟨p, hrun, ⟨he.1, he.2.1, he.2.2⟩, h.2.1, h.2.2.1, h.2.2.2⟩

end SerialPort

namespace Chip

/-! ## RCC of STM32F4: validated writes of register fields -/

theorem lt_of_and_eq (v m : Nat) (hm : m < 4294967296) (hv : v &&& m = v) : v < 4294967296 :=
  lt_of_le_of_lt (hv ▸ Nat.and_le_right) hm

theorem testBit_of_and_eq (v m i : Nat) (hv : v &&& m = v) (hi : m.testBit i = false) :
    v.testBit i = false := by
  rw [← hv, Nat.testBit_and, hi, Bool.and_false]

theorem testBit_unot (m i : Nat) (hm : m < 4294967296) :
    (unot m).testBit i = (decide (i < 32) && !m.testBit i) := by
  have e : unot m = 2 ^ 32 - (m + 1) := by
    unfold unot
    rw [Nat.mod_eq_of_lt hm]
    omega
  rw [e]
  exact Nat.testBit_two_pow_sub_succ (by omega) i

theorem testBit_high (c i : Nat) (hc : c < 4294967296) (hi : ¬ i < 32) : c.testBit i = false := by
  apply Nat.testBit_lt_two_pow
  refine lt_of_lt_of_le hc ?_
  exact Nat.pow_le_pow_right Nat.zero_lt_two (by omega : 32 ≤ i)

theorem setField_eq (c m v : Nat) (hc : c < 4294967296) (hm : m < 4294967296)
    (hv : v &&& m = v) : setField c m v = (c &&& unot m) ||| v := by
  unfold setField
  apply Nat.mod_eq_of_lt
  have h1 : c &&& unot m < 2 ^ 32 := lt_of_le_of_lt Nat.and_le_left hc
  have h2 : v < 2 ^ 32 := lt_of_and_eq v m hm hv
  exact Nat.or_lt_two_pow h1 h2

theorem setField_lt (c m v : Nat) : setField c m v < 4294967296 :=
  Nat.mod_lt _ (by decide)

theorem setField_frame (c m v : Nat) (hc : c < 4294967296) (hm : m < 4294967296)
    (hv : v &&& m = v) (i : Nat) (hi : m.testBit i = false) :
    (setField c m v).testBit i = c.testBit i := by
  rw [setField_eq c m v hc hm hv, Nat.testBit_or, Nat.testBit_and, testBit_unot m i hm, hi,
    testBit_of_and_eq v m i hv hi]
  by_cases h : i < 32
  · simp [h]
  · simp [h, testBit_high c i hc h]

theorem setField_field (c m v : Nat) (hc : c < 4294967296) (hm : m < 4294967296)
    (hv : v &&& m = v) : setField c m v &&& m = v := by
  apply Nat.eq_of_testBit_eq
  intro i
  rw [Nat.testBit_and, setField_eq c m v hc hm hv, Nat.testBit_or, Nat.testBit_and,
    testBit_unot m i hm]
  cases hmi : m.testBit i
  · simp [testBit_of_and_eq v m i hv hmi]
  · simp

theorem and_or_eq (a b m n : Nat) (ha : a &&& m = a) (hb : b &&& n = b) :
    (a ||| b) &&& (m ||| n) = a ||| b := by
  apply Nat.eq_of_testBit_eq
  intro i
  have ha1 := congrArg (fun x => x.testBit i) ha
  have hb1 := congrArg (fun x => x.testBit i) hb
  simp only [Nat.testBit_and] at ha1 hb1
  simp only [Nat.testBit_and, Nat.testBit_or]
  cases h1 : a.testBit i <;> cases h2 : b.testBit i <;> cases h3 : m.testBit i <;>
    cases h4 : n.testBit i <;> simp_all

theorem mem_hpreDividers (h : RccHeader) (hpre : Nat) :
    hpre ∈ [h.hpreDiv1, h.hpreDiv2, h.hpreDiv4, h.hpreDiv8, h.hpreDiv16, h.hpreDiv64,
      h.hpreDiv128, h.hpreDiv256, h.hpreDiv512] ↔
    ∃ a ∈ hpreAssociations h, a.1 = hpre := by
  simp only [hpreAssociations, List.mem_cons, List.mem_singleton, List.not_mem_nil, or_false,
    exists_eq_or_imp, exists_eq_left, eq_comm]

theorem mem_ppreDividers (h : RccHeader) (ppre : Nat) :
    ppre ∈ [h.ppreDiv1, h.ppreDiv2, h.ppreDiv4, h.ppreDiv8, h.ppreDiv16] ↔
    ∃ a ∈ ppreAssociations h, a.1 = ppre := by
  simp only [ppreAssociations, List.mem_cons, List.mem_singleton, List.not_mem_nil, or_false,
    exists_eq_or_imp, exists_eq_left, eq_comm]

theorem configureAhbClockDivider_rejected (h : RccHeader) (hpre : Nat) (rcc : Rcc)
    (hx : ¬ ∃ a ∈ hpreAssociations h, a.1 = hpre) :
    configureAhbClockDivider h hpre rcc = (EINVAL, rcc) := by
  have hf : (hpreAssociations h).find? (fun association => association.1 = hpre) = none := by
    rw [List.find?_eq_none]
    intro a ha hp
    exact hx ⟨a, ha, of_decide_eq_true hp⟩
  unfold configureAhbClockDivider
  rw [hf]

theorem configureAhbClockDivider_accepted (h : RccHeader) (hpre : Nat) (rcc : Rcc)
    (hx : ∃ a ∈ hpreAssociations h, a.1 = hpre) :
    ∃ value, (hpre, value) ∈ hpreAssociations h ∧
      configureAhbClockDivider h hpre rcc =
        (0, { rcc with
          CFGR := setField rcc.CFGR h.RCC_CFGR_HPRE value,
          writes := rcc.writes ++ [.CFGR] }) := by
  cases hf : (hpreAssociations h).find? (fun association => association.1 = hpre) with
  | none =>
    rw [List.find?_eq_none] at hf
    obtain ⟨a, ha, he⟩ := hx
    exact absurd (decide_eq_true he) (hf a ha)
  | some a =>
    have hp : a.1 = hpre := by
      have := List.find?_some hf
      exact of_decide_eq_true this
    have hm := List.mem_of_find?_eq_some hf
    refine ⟨a.2, ?_, ?_⟩
    · rw [← hp]
      exact hm
    · unfold configureAhbClockDivider
      rw [hf]

theorem configureApbClockDivider_rejected (h : RccHeader) (ppre2 : Bool) (ppre : Nat) (rcc : Rcc)
    (hx : ¬ ∃ a ∈ ppreAssociations h, a.1 = ppre) :
    configureApbClockDivider h ppre2 ppre rcc = (EINVAL, rcc) := by
  have hf : (ppreAssociations h).find? (fun association => association.1 = ppre) = none := by
    rw [List.find?_eq_none]
    intro a ha hp
    exact hx ⟨a, ha, of_decide_eq_true hp⟩
  unfold configureApbClockDivider
  rw [hf]

theorem configureApbClockDivider_accepted (h : RccHeader) (ppre2 : Bool) (ppre : Nat)
    (rcc : Rcc) (hx : ∃ a ∈ ppreAssociations h, a.1 = ppre) :
    ∃ value1 value2, (ppre, value1, value2) ∈ ppreAssociations h ∧
      configureApbClockDivider h ppre2 ppre rcc =
        (0, { rcc with
          CFGR := setField rcc.CFGR (if ppre2 = true then h.RCC_CFGR_PPRE2 else h.RCC_CFGR_PPRE1)
            (if ppre2 = true then value2 else value1),
          writes := rcc.writes ++ [.CFGR] }) := by
  cases hf : (ppreAssociations h).find? (fun association => association.1 = ppre) with
  | none =>
    rw [List.find?_eq_none] at hf
    obtain ⟨a, ha, he⟩ := hx
    exact absurd (decide_eq_true he) (hf a ha)
  | some a =>
    have hp : a.1 = ppre := by
      have := List.find?_some hf
      exact of_decide_eq_true this
    have hm := List.mem_of_find?_eq_some hf
    refine ⟨a.2.1, a.2.2, ?_, ?_⟩
    · rw [← hp]
      exact hm
    · unfold configureApbClockDivider
      rw [hf]

theorem waitPllReady_of_ready (ready : Nat → Bool) :
    ∀ (fuel j k : Nat), ready (j + k) = true → k ≤ fuel → waitPllReady ready fuel j = true
  | fuel, j, 0, hr, _ => by
    unfold waitPllReady
    rw [if_neg]
    rw [show ready j = true from hr]
    decide
  | 0, j, k + 1, _, hk => by omega
  | fuel + 1, j, k + 1, hr, hk => by
    unfold waitPllReady
    split_ifs with h1
    · exact waitPllReady_of_ready ready fuel (j + 1) k
        (by rw [show j + 1 + k = j + (k + 1) from by omega]; exact hr) (by omega)
    · rfl

theorem waitPllReady_never (ready : Nat → Bool) (hr : ∀ k, ready k = false) :
    ∀ (fuel j : Nat), waitPllReady ready fuel j = false
  | 0, j => by
    unfold waitPllReady
    rw [if_pos (hr j)]
  | fuel + 1, j => by
    unfold waitPllReady
    rw [if_pos (hr j)]
    exact waitPllReady_never ready hr fuel (j + 1)

theorem enablePll_rejected (h : RccHeader) (ready : Nat → Bool) (fuel plln pllp pllq : Nat)
    (rcc : Rcc)
    (hx : ¬ (h.minPlln ≤ plln ∧ plln ≤ h.maxPlln ∧
      pllp ∈ [h.pllpDiv2, h.pllpDiv4, h.pllpDiv6, h.pllpDiv8] ∧
      h.minPllq ≤ pllq ∧ pllq ≤ h.maxPllq)) :
    enablePll h ready fuel plln pllp pllq rcc = some (EINVAL, rcc) := by
  unfold enablePll
  rw [if_pos]
  simp only [List.mem_cons, List.mem_singleton, List.not_mem_nil, or_false] at hx
  by_contra hc
  apply hx
  simp only [not_or, not_and_or, not_lt, not_not, gt_iff_lt] at hc
  refine ⟨hc.1, hc.2.1, ?_, hc.2.2.2.1, hc.2.2.2.2⟩
  tauto

theorem enablePll_accepted (h : RccHeader) (ready : Nat → Bool) (fuel plln pllp pllq : Nat)
    (rcc : Rcc)
    (hx : h.minPlln ≤ plln ∧ plln ≤ h.maxPlln ∧
      pllp ∈ [h.pllpDiv2, h.pllpDiv4, h.pllpDiv6, h.pllpDiv8] ∧
      h.minPllq ≤ pllq ∧ pllq ≤ h.maxPllq) :
    enablePll h ready fuel plln pllp pllq rcc =
      if waitPllReady ready fuel 0 = true then
        some (0, { CR := rcc.CR ||| (1 <<< h.RCC_CR_PLLON_bit),
                   CFGR := rcc.CFGR,
                   PLLCFGR := setField rcc.PLLCFGR
                     (h.RCC_PLLCFGR_PLLN ||| h.RCC_PLLCFGR_PLLP ||| h.RCC_PLLCFGR_PLLQ)
                     ((plln <<< h.RCC_PLLCFGR_PLLN_bit) |||
                       ((pllp / 2 - 1) <<< h.RCC_PLLCFGR_PLLP_bit) |||
                       (pllq <<< h.RCC_PLLCFGR_PLLQ_bit)),
                   writes := rcc.writes ++ [.PLLCFGR] ++ [.CR] })
      else none := by
  unfold enablePll
  rw [if_neg]
  simp only [List.mem_cons, List.mem_singleton, List.not_mem_nil, or_false] at hx
  simp only [not_or, not_and_or, not_lt, not_not, gt_iff_lt]
  refine ⟨hx.1, hx.2.1, ?_, hx.2.2.2.1, hx.2.2.2.2⟩
  tauto

/-- C24 (as stated, refuted): with the constants of STM32F4 and the accepted arguments
`plln = 336`, `pllp = 2`, `pllq = 7`, `enablePll` does not return 0 when the hardware never
reports PLLRDY: whatever the number of iterations allowed, the call has not returned; and when
it does return 0, it has also changed a bit outside PLLN, PLLP and PLLQ, namely PLLON in CR. -/
theorem enablePll_waits_for_pllrdy :
    (stm32f4.minPlln ≤ 336 ∧ 336 ≤ stm32f4.maxPlln ∧
      2 ∈ [stm32f4.pllpDiv2, stm32f4.pllpDiv4, stm32f4.pllpDiv6, stm32f4.pllpDiv8] ∧
      stm32f4.minPllq ≤ 7 ∧ 7 ≤ stm32f4.maxPllq) ∧
    (∀ fuel, enablePll stm32f4 (fun _ => false) fuel 336 2 7 ⟨131, 0, 603992080, []⟩ = none) ∧
    enablePll stm32f4 (fun _ => true) 0 336 2 7 ⟨131, 0, 603992080, []⟩ =
      some (0, ⟨16777347, 0, 654332944, [.PLLCFGR, .CR]⟩) := by
  refine ⟨by decide, ?_, by decide⟩
  intro fuel
  rw [enablePll_accepted stm32f4 _ fuel 336 2 7 _ (by decide),
    waitPllReady_never _ (fun _ => rfl) fuel 0]
  rfl

/-- C24 (amended): for every header whose field values lie within the masks of their fields
and for 32-bit values of the registers, each of `configureAhbClockDivider`,
`configureApbClockDivider`, `configurePllInputClockDivider` and `enablePll` returns EINVAL
exactly when the argument is outside its accepted set, and then the registers are as before
and none was written. With an accepted argument the first three return 0 after one write of
CFGR / PLLCFGR that puts the value into their own field (HPRE; PPRE1 or PPRE2 as selected by
`ppre2`; PLLM) and keeps every bit outside the mask of that field, the other registers being
untouched. `enablePll` with accepted arguments writes PLLN, PLLP and PLLQ of PLLCFGR in the
same way and then sets PLLON in CR; it returns 0 once the hardware reports PLLRDY (a read
number `k ≤ fuel` that gives 1 is enough), and it never returns when PLLRDY never comes. -/
theorem rcc_validated_field_writes (h : RccHeader) (rcc : Rcc) (hw : h.WellFormed)
    (hCFGR : rcc.CFGR < 4294967296) (hPLLCFGR : rcc.PLLCFGR < 4294967296) :
    (∀ hpre,
      ((configureAhbClockDivider h hpre rcc).1 = EINVAL ↔
        hpre ∉ [h.hpreDiv1, h.hpreDiv2, h.hpreDiv4, h.hpreDiv8, h.hpreDiv16, h.hpreDiv64,
          h.hpreDiv128, h.hpreDiv256, h.hpreDiv512]) ∧
      (hpre ∉ [h.hpreDiv1, h.hpreDiv2, h.hpreDiv4, h.hpreDiv8, h.hpreDiv16, h.hpreDiv64,
          h.hpreDiv128, h.hpreDiv256, h.hpreDiv512] →
        configureAhbClockDivider h hpre rcc = (EINVAL, rcc)) ∧
      (hpre ∈ [h.hpreDiv1, h.hpreDiv2, h.hpreDiv4, h.hpreDiv8, h.hpreDiv16, h.hpreDiv64,
          h.hpreDiv128, h.hpreDiv256, h.hpreDiv512] →
        ∃ value, (hpre, value) ∈ hpreAssociations h ∧
          (configureAhbClockDivider h hpre rcc).1 = 0 ∧
          (configureAhbClockDivider h hpre rcc).2.writes = rcc.writes ++ [.CFGR] ∧
          (configureAhbClockDivider h hpre rcc).2.CR = rcc.CR ∧
          (configureAhbClockDivider h hpre rcc).2.PLLCFGR = rcc.PLLCFGR ∧
          (configureAhbClockDivider h hpre rcc).2.CFGR < 4294967296 ∧
          (configureAhbClockDivider h hpre rcc).2.CFGR &&& h.RCC_CFGR_HPRE = value ∧
          ∀ i, h.RCC_CFGR_HPRE.testBit i = false →
            (configureAhbClockDivider h hpre rcc).2.CFGR.testBit i = rcc.CFGR.testBit i)) ∧
    (∀ ppre2 ppre,
      ((configureApbClockDivider h ppre2 ppre rcc).1 = EINVAL ↔
        ppre ∉ [h.ppreDiv1, h.ppreDiv2, h.ppreDiv4, h.ppreDiv8, h.ppreDiv16]) ∧
      (ppre ∉ [h.ppreDiv1, h.ppreDiv2, h.ppreDiv4, h.ppreDiv8, h.ppreDiv16] →
        configureApbClockDivider h ppre2 ppre rcc = (EINVAL, rcc)) ∧
      (ppre ∈ [h.ppreDiv1, h.ppreDiv2, h.ppreDiv4, h.ppreDiv8, h.ppreDiv16] →
        ∃ value1 value2, (ppre, value1, value2) ∈ ppreAssociations h ∧
          (configureApbClockDivider h ppre2 ppre rcc).1 = 0 ∧
          (configureApbClockDivider h ppre2 ppre rcc).2.writes = rcc.writes ++ [.CFGR] ∧
          (configureApbClockDivider h ppre2 ppre rcc).2.CR = rcc.CR ∧
          (configureApbClockDivider h ppre2 ppre rcc).2.PLLCFGR = rcc.PLLCFGR ∧
          (configureApbClockDivider h ppre2 ppre rcc).2.CFGR < 4294967296 ∧
          (configureApbClockDivider h ppre2 ppre rcc).2.CFGR &&&
              (if ppre2 = true then h.RCC_CFGR_PPRE2 else h.RCC_CFGR_PPRE1) =
            (if ppre2 = true then value2 else value1) ∧
          ∀ i, (if ppre2 = true then h.RCC_CFGR_PPRE2 else h.RCC_CFGR_PPRE1).testBit i = false →
            (configureApbClockDivider h ppre2 ppre rcc).2.CFGR.testBit i =
              rcc.CFGR.testBit i)) ∧
    (∀ pllm,
      ((configurePllInputClockDivider h pllm rcc).1 = EINVAL ↔
        ¬ (h.minPllm ≤ pllm ∧ pllm ≤ h.maxPllm)) ∧
      (¬ (h.minPllm ≤ pllm ∧ pllm ≤ h.maxPllm) →
        configurePllInputClockDivider h pllm rcc = (EINVAL, rcc)) ∧
      (h.minPllm ≤ pllm ∧ pllm ≤ h.maxPllm →
        (configurePllInputClockDivider h pllm rcc).1 = 0 ∧
        (configurePllInputClockDivider h pllm rcc).2.writes = rcc.writes ++ [.PLLCFGR] ∧
        (configurePllInputClockDivider h pllm rcc).2.CR = rcc.CR ∧
        (configurePllInputClockDivider h pllm rcc).2.CFGR = rcc.CFGR ∧
        (configurePllInputClockDivider h pllm rcc).2.PLLCFGR < 4294967296 ∧
        (configurePllInputClockDivider h pllm rcc).2.PLLCFGR &&& h.RCC_PLLCFGR_PLLM =
          pllm <<< h.RCC_PLLCFGR_PLLM_bit ∧
        ∀ i, h.RCC_PLLCFGR_PLLM.testBit i = false →
          (configurePllInputClockDivider h pllm rcc).2.PLLCFGR.testBit i =
            rcc.PLLCFGR.testBit i)) ∧
    (∀ ready fuel plln pllp pllq,
      ((enablePll h ready fuel plln pllp pllq rcc).map Prod.fst = some EINVAL ↔
        ¬ (h.minPlln ≤ plln ∧ plln ≤ h.maxPlln ∧
          pllp ∈ [h.pllpDiv2, h.pllpDiv4, h.pllpDiv6, h.pllpDiv8] ∧
          h.minPllq ≤ pllq ∧ pllq ≤ h.maxPllq)) ∧
      (¬ (h.minPlln ≤ plln ∧ plln ≤ h.maxPlln ∧
          pllp ∈ [h.pllpDiv2, h.pllpDiv4, h.pllpDiv6, h.pllpDiv8] ∧
          h.minPllq ≤ pllq ∧ pllq ≤ h.maxPllq) →
        enablePll h ready fuel plln pllp pllq rcc = some (EINVAL, rcc)) ∧
      (h.minPlln ≤ plln ∧ plln ≤ h.maxPlln ∧
          pllp ∈ [h.pllpDiv2, h.pllpDiv4, h.pllpDiv6, h.pllpDiv8] ∧
          h.minPllq ≤ pllq ∧ pllq ≤ h.maxPllq →
        (∀ k, ready k = true → k ≤ fuel →
          ∃ r, enablePll h ready fuel plln pllp pllq rcc = some r) ∧
        ((∀ k, ready k = false) → enablePll h ready fuel plln pllp pllq rcc = none) ∧
        ∀ r, enablePll h ready fuel plln pllp pllq rcc = some r →
          r.1 = 0 ∧
          r.2.writes = rcc.writes ++ [.PLLCFGR, .CR] ∧
          r.2.CR = rcc.CR ||| (1 <<< h.RCC_CR_PLLON_bit) ∧
          r.2.CFGR = rcc.CFGR ∧
          r.2.PLLCFGR < 4294967296 ∧
          r.2.PLLCFGR &&& (h.RCC_PLLCFGR_PLLN ||| h.RCC_PLLCFGR_PLLP ||| h.RCC_PLLCFGR_PLLQ) =
            (plln <<< h.RCC_PLLCFGR_PLLN_bit) ||| ((pllp / 2 - 1) <<< h.RCC_PLLCFGR_PLLP_bit) |||
              (pllq <<< h.RCC_PLLCFGR_PLLQ_bit) ∧
          ∀ i, (h.RCC_PLLCFGR_PLLN ||| h.RCC_PLLCFGR_PLLP ||| h.RCC_PLLCFGR_PLLQ).testBit i =
              false →
            r.2.PLLCFGR.testBit i = rcc.PLLCFGR.testBit i)) := by
  obtain ⟨w1, w2, w3, w4, w5, wh, wp, wm, wn, wpp, wq⟩ := hw
  have hE : (0 : Int) ≠ EINVAL := by decide
  refine ⟨?_, ?_, ?_, ?_⟩
  · intro hpre
    have hrej : hpre ∉ [h.hpreDiv1, h.hpreDiv2, h.hpreDiv4, h.hpreDiv8, h.hpreDiv16,
        h.hpreDiv64, h.hpreDiv128, h.hpreDiv256, h.hpreDiv512] →
        configureAhbClockDivider h hpre rcc = (EINVAL, rcc) := fun hx =>
      configureAhbClockDivider_rejected h hpre rcc (fun hc => hx ((mem_hpreDividers h hpre).mpr hc))
    refine ⟨⟨?_, fun hx => by rw [hrej hx]⟩, hrej, ?_⟩
    · intro he hx
      obtain ⟨value, -, hr⟩ :=
        configureAhbClockDivider_accepted h hpre rcc ((mem_hpreDividers h hpre).mp hx)
      rw [hr] at he
      exact hE he
    · intro hx
      obtain ⟨value, hmem, hr⟩ :=
        configureAhbClockDivider_accepted h hpre rcc ((mem_hpreDividers h hpre).mp hx)
      have hv := wh (hpre, value) hmem
      rw [hr]
      exact ⟨value, hmem, rfl, rfl, rfl, rfl, setField_lt _ _ _,
        setField_field _ _ _ hCFGR w1 hv, setField_frame _ _ _ hCFGR w1 hv⟩
  · intro ppre2 ppre
    have hrej : ppre ∉ [h.ppreDiv1, h.ppreDiv2, h.ppreDiv4, h.ppreDiv8, h.ppreDiv16] →
        configureApbClockDivider h ppre2 ppre rcc = (EINVAL, rcc) := fun hx =>
      configureApbClockDivider_rejected h ppre2 ppre rcc
        (fun hc => hx ((mem_ppreDividers h ppre).mpr hc))
    refine ⟨⟨?_, fun hx => by rw [hrej hx]⟩, hrej, ?_⟩
    · intro he hx
      obtain ⟨value1, value2, -, hr⟩ :=
        configureApbClockDivider_accepted h ppre2 ppre rcc ((mem_ppreDividers h ppre).mp hx)
      rw [hr] at he
      exact hE he
    · intro hx
      obtain ⟨value1, value2, hmem, hr⟩ :=
        configureApbClockDivider_accepted h ppre2 ppre rcc ((mem_ppreDividers h ppre).mp hx)
      have hv := wp (ppre, value1, value2) hmem
      have hm : (if ppre2 = true then h.RCC_CFGR_PPRE2 else h.RCC_CFGR_PPRE1) < 4294967296 := by
        split_ifs
        · exact w3
        · exact w2
      have hvm : (if ppre2 = true then value2 else value1) &&&
          (if ppre2 = true then h.RCC_CFGR_PPRE2 else h.RCC_CFGR_PPRE1) =
          (if ppre2 = true then value2 else value1) := by
        split_ifs
        · exact hv.2
        · exact hv.1
      rw [hr]
      exact ⟨value1, value2, hmem, rfl, rfl, rfl, rfl, setField_lt _ _ _,
        setField_field _ _ _ hCFGR hm hvm, setField_frame _ _ _ hCFGR hm hvm⟩
  · intro pllm
    have hrej : ¬ (h.minPllm ≤ pllm ∧ pllm ≤ h.maxPllm) →
        configurePllInputClockDivider h pllm rcc = (EINVAL, rcc) := by
      intro hx
      unfold configurePllInputClockDivider
      rw [if_pos]
      by_contra hc
      exact hx (by omega)
    have hacc : h.minPllm ≤ pllm ∧ pllm ≤ h.maxPllm →
        configurePllInputClockDivider h pllm rcc =
          (0, { rcc with
            PLLCFGR := setField rcc.PLLCFGR h.RCC_PLLCFGR_PLLM (pllm <<< h.RCC_PLLCFGR_PLLM_bit),
            writes := rcc.writes ++ [.PLLCFGR] }) := by
      intro hx
      unfold configurePllInputClockDivider
      rw [if_neg]
      omega
    refine ⟨⟨?_, fun hx => by rw [hrej hx]⟩, hrej, ?_⟩
    · intro he hx
      rw [hacc hx] at he
      exact hE he
    · intro hx
      have hv := wm pllm hx.2 hx.1
      rw [hacc hx]
      exact ⟨rfl, rfl, rfl, rfl, setField_lt _ _ _,
        setField_field _ _ _ hPLLCFGR w4 hv, setField_frame _ _ _ hPLLCFGR w4 hv⟩
  · intro ready fuel plln pllp pllq
    have hrej := enablePll_rejected h ready fuel plln pllp pllq rcc
    have hacc := enablePll_accepted h ready fuel plln pllp pllq rcc
    refine ⟨⟨?_, fun hx => by rw [hrej hx]; rfl⟩, hrej, ?_⟩
    · intro he hx
      rw [hacc hx] at he
      split_ifs at he
      · exact hE (Option.some.inj he)
      · cases he
    · intro hx
      have hv : ((plln <<< h.RCC_PLLCFGR_PLLN_bit) |||
          ((pllp / 2 - 1) <<< h.RCC_PLLCFGR_PLLP_bit) ||| (pllq <<< h.RCC_PLLCFGR_PLLQ_bit)) &&&
          (h.RCC_PLLCFGR_PLLN ||| h.RCC_PLLCFGR_PLLP ||| h.RCC_PLLCFGR_PLLQ) =
          (plln <<< h.RCC_PLLCFGR_PLLN_bit) |||
          ((pllp / 2 - 1) <<< h.RCC_PLLCFGR_PLLP_bit) ||| (pllq <<< h.RCC_PLLCFGR_PLLQ_bit) :=
        and_or_eq _ _ _ _
          (and_or_eq _ _ _ _ (wn plln hx.2.1 hx.1) (wpp pllp hx.2.2.1).2)
          (wq pllq hx.2.2.2.2 hx.2.2.2.1)
      rw [hacc hx]
      refine ⟨?_, ?_, ?_⟩
      · intro k hk hkf
        have hwait := waitPllReady_of_ready ready fuel 0 k (by rw [Nat.zero_add]; exact hk) hkf
        rw [if_pos hwait]
        exact ⟨_, rfl⟩
      · intro hnever
        rw [if_neg]
        rw [waitPllReady_never ready hnever fuel 0]
        decide
      · intro r hr
        split_ifs at hr
        · cases hr
          exact ⟨rfl, by simp only [List.append_assoc, List.singleton_append], rfl, rfl,
            setField_lt _ _ _, setField_field _ _ _ hPLLCFGR w5 hv,
            setField_frame _ _ _ hPLLCFGR w5 hv⟩

theorem stm32f4_wellFormed : stm32f4.WellFormed := by
  unfold RccHeader.WellFormed
  decide!

/-- C24 (amended, witness): the constants of STM32F4 are well formed, and from the reset values of the
registers (`CR = 0x83`, `CFGR = 0`, `PLLCFGR = 0x24003010`) the four functions reject and
accept as stated: `hpre = 3` is rejected and `hpre = 4` puts `0x90` into CFGR,
`ppre = 2` for PPRE2 puts `0x8000` into CFGR, `pllm = 8` makes PLLCFGR `0x24003008`, and
`enablePll` with `336, 2, 7` returns 0 with PLLCFGR `0x27005410` and CR `0x01000083` when the
fourth read of PLLRDY gives 1. -/
theorem rcc_validated_field_writes_witness :
    stm32f4.WellFormed ∧
    configureAhbClockDivider stm32f4 3 ⟨131, 0, 603992080, []⟩ =
      (EINVAL, ⟨131, 0, 603992080, []⟩) ∧
    configureAhbClockDivider stm32f4 4 ⟨131, 0, 603992080, []⟩ =
      (0, ⟨131, 144, 603992080, [.CFGR]⟩) ∧
    configureApbClockDivider stm32f4 true 3 ⟨131, 0, 603992080, []⟩ =
      (EINVAL, ⟨131, 0, 603992080, []⟩) ∧
    configureApbClockDivider stm32f4 true 2 ⟨131, 0, 603992080, []⟩ =
      (0, ⟨131, 32768, 603992080, [.CFGR]⟩) ∧
    configurePllInputClockDivider stm32f4 1 ⟨131, 0, 603992080, []⟩ =
      (EINVAL, ⟨131, 0, 603992080, []⟩) ∧
    configurePllInputClockDivider stm32f4 8 ⟨131, 0, 603992080, []⟩ =
      (0, ⟨131, 0, 603992072, [.PLLCFGR]⟩) ∧
    enablePll stm32f4 (fun k => decide (3 ≤ k)) 3 336 3 7 ⟨131, 0, 603992080, []⟩ =
      some (EINVAL, ⟨131, 0, 603992080, []⟩) ∧
    enablePll stm32f4 (fun k => decide (3 ≤ k)) 3 336 2 7 ⟨131, 0, 603992080, []⟩ =
      some (0, ⟨16777347, 0, 654332944, [.PLLCFGR, .CR]⟩) ∧
    (∀ i, (stm32f4.RCC_PLLCFGR_PLLN ||| stm32f4.RCC_PLLCFGR_PLLP |||
        stm32f4.RCC_PLLCFGR_PLLQ).testBit i = false →
      Nat.testBit 654332944 i = Nat.testBit 603992080 i) := by
  have h := rcc_validated_field_writes stm32f4 ⟨131, 0, 603992080, []⟩ stm32f4_wellFormed
    (by decide) (by decide)
  have hpll : enablePll stm32f4 (fun k => decide (3 ≤ k)) 3 336 2 7 ⟨131, 0, 603992080, []⟩ =
      some (0, ⟨16777347, 0, 654332944, [.PLLCFGR, .CR]⟩) := by decide
  refine ⟨stm32f4_wellFormed, (h.1 3).2.1 (by decide), by decide, (h.2.1 true 3).2.1 (by decide),
    by decide, (h.2.2.1 1).2.1 (by decide), by decide,
    (h.2.2.2 _ 3 336 3 7).2.1 (by decide), hpll, ?_⟩
  exact (((h.2.2.2 _ 3 336 2 7).2.2 (by decide)).2.2 _ hpll).2.2.2.2.2.2

end Chip

end Distortos
